import Mathlib

/-!
Verification development for the haplotype-inference core of the staden
`gap5` tool: the augmented interval tree (`src/gap5/interval_tree.c`) and the
haplotype string index / clustering engine (`src/gap5/find_haplotypes.c`).

The C code is shallowly embedded: each C function becomes a Lean function on
an explicit state value.  C pointers to `interval` records are modelled by a
numeric identity field `id`; pointer updates become functional updates keyed
on that identity.  The red-black balancing machinery lives in `tree.h`, which
is not part of the repository sources available here; following the
specification ("red-black or equivalent balanced BST ... `last` is recomputed
on insert, delete, and rotation") the tree is embedded as a plain binary
search tree over the same key order with the same augmentation updates, which
has the same in-order contents and the same `last` discipline as the
rebalanced tree.  Everything that *is* in `interval_tree.c` — node layout,
key comparison, the NFIND/PREV insertion logic, interval list handling, the
`last` recomputation on add and delete, the pruned range traversal, and the
consistency check — is translated directly from that file.
-/

set_option maxHeartbeats 1000000

namespace Staden

/-! ## Prelude: integer-indexed list access and counted loops

C code indexes buffers by `int` offsets.  `getI`/`setI` give total versions
of reads and writes with an explicit out-of-range default / no-op; all uses
in the development are in range under the stated invariants.  `forRange i j f`
runs `f` on `i, i+1, ..., j` (inclusive), the shape of every `for` loop in
the two C files. -/

def getI (d : γ) (l : List γ) (i : Int) : γ :=
  if i < 0 then d else l.getD i.toNat d

def setI (l : List γ) (i : Int) (v : γ) : List γ :=
  if i < 0 then l else l.set i.toNat v

def forRangeN : Nat → Int → (Int → σ → σ) → σ → σ
  | 0, _, _, s => s
  | n + 1, i, f, s => forRangeN n (i + 1) f (f i s)

def forRange (i j : Int) (f : Int → σ → σ) (s : σ) : σ :=
  forRangeN (j + 1 - i).toNat i f s

theorem forRange_stop (i j : Int) (f : Int → σ → σ) (s : σ) (h : ¬ i ≤ j) :
    forRange i j f s = s := by
  unfold forRange
  rw [show (j + 1 - i).toNat = 0 by omega]
  rfl

theorem forRange_step (i j : Int) (f : Int → σ → σ) (s : σ) (h : i ≤ j) :
    forRange i j f s = forRange (i + 1) j f (f i s) := by
  unfold forRange
  rw [show (j + 1 - i).toNat = (j + 1 - (i + 1)).toNat + 1 by omega]
  rfl

/-! ## Interval tree: data model (`interval_tree.c` lines 24-50)

An `interval` record keeps the C struct's `start`, `end` (spelt `end_`) and
payload; `id` stands for the record's address.  The `u_next`/`u_prev` user
links are represented by the explicit lists the callers build.  A tree node
(`interval_node`) carries `start`, `end`, the augmentation `last` and the
packed interval list; left/right children are the constructor arguments. -/

structure interval (α : Type) where
  id : Nat
  start : Int
  end_ : Int
  data : α
  deriving DecidableEq, Repr

inductive interval_tree (α : Type) where
  | leaf
  | node (left : interval_tree α) (start end_ last : Int)
      (intervals : List (interval α)) (right : interval_tree α)
  deriving DecidableEq, Repr

namespace interval_tree

variable {α : Type}

/-- Key comparison `interval_cmp` (lines 70-74): primary `start`, secondary
`end`, both ascending. -/
def keyLt (a b : Int × Int) : Prop :=
  a.1 < b.1 ∨ (a.1 = b.1 ∧ a.2 < b.2)

instance (a b : Int × Int) : Decidable (keyLt a b) := by
  unfold keyLt; infer_instance

/-- C `INT_MIN`. -/
def INT_MIN : Int := -2147483648

/-- C `INT_MAX`. -/
def INT_MAX : Int := 2147483647

/-- In-order list of all stored interval records. -/
def allIvs : interval_tree α → List (interval α)
  | leaf => []
  | node l _ _ _ ivs r => allIvs l ++ ivs ++ allIvs r

/-- In-order list of node keys `(start, end)`. -/
def keysOf : interval_tree α → List (Int × Int)
  | leaf => []
  | node l s e _ _ r => keysOf l ++ [(s, e)] ++ keysOf r

/-- In-order list of nodes as (key, interval list) pairs. -/
def nodesOf : interval_tree α → List ((Int × Int) × List (interval α))
  | leaf => []
  | node l s e _ ivs r => nodesOf l ++ [((s, e), ivs)] ++ nodesOf r

/-- The `last` field of the root, or the default for an absent node. -/
def lastD : interval_tree α → Int → Int
  | leaf, d => d
  | node _ _ _ last _ _, _ => last

/-- RB_NFIND: least node key that is ≥ the search key (standard BST search,
as generated by `tree.h` for `interval_cmp`). -/
def RB_NFIND : interval_tree α → Int × Int → Option (Int × Int)
  | leaf, _ => none
  | node l s e _ _ r, k =>
    if keyLt k (s, e) then
      match RB_NFIND l k with
      | some k' => some k'
      | none => some (s, e)
    else if keyLt (s, e) k then RB_NFIND r k
    else some (s, e)

/-- RB_PREV of the node found by `RB_NFIND` (line 140): since `RB_NFIND`
returns the least key ≥ the search key, its in-order predecessor is the
greatest node key < the search key, which is what this computes. -/
def RB_PREVK : interval_tree α → Int × Int → Option (Int × Int)
  | leaf, _ => none
  | node l s e _ _ r, k =>
    if keyLt (s, e) k then
      match RB_PREVK r k with
      | some k' => some k'
      | none => some (s, e)
    else RB_PREVK l k

/-- Merge branch of `interval_tree_add` (lines 154-166): prepend the new
interval to the found node's list, extend the node's `end` if needed, then
walk toward the root setting `last` while `last < end` (the C `while` loop
ascends via parent pointers and stops at the first ancestor whose `last` is
already large enough; the returned flag reports whether the walk is still
running when control returns to each level). -/
def mergeInto (t : interval_tree α) (k : Int × Int) (iv : interval α) :
    interval_tree α × Bool :=
  match t with
  | leaf => (leaf, false)
  | node l s e last ivs r =>
    if keyLt k (s, e) then
      let p := mergeInto l k iv
      if p.2 then
        if last < iv.end_ then (node p.1 s e iv.end_ ivs r, true)
        else (node p.1 s e last ivs r, false)
      else (node p.1 s e last ivs r, false)
    else if keyLt (s, e) k then
      let p := mergeInto r k iv
      if p.2 then
        if last < iv.end_ then (node l s e iv.end_ ivs p.1, true)
        else (node l s e last ivs p.1, false)
      else (node l s e last ivs p.1, false)
    else
      let e' := if e < iv.end_ then iv.end_ else e
      if last < iv.end_ then (node l s e' iv.end_ (iv :: ivs) r, true)
      else (node l s e' last (iv :: ivs) r, false)

/-- New-node branch of `interval_tree_add` (lines 142-153): insert a fresh
node holding the single interval, `last = end`.  The `RB_INSERT` rebalancing
lives in `tree.h`; per the specification ("On path from new node to root,
update `last`") each ancestor on the insertion path raises its `last` to the
new `end` if below it. -/
def insertNew (t : interval_tree α) (s e : Int) (iv : interval α) :
    interval_tree α :=
  match t with
  | leaf => node leaf s e e [iv] leaf
  | node l s0 e0 last ivs r =>
    if keyLt (s, e) (s0, e0) then
      node (insertNew l s e iv) s0 e0 (max last e) ivs r
    else
      node l s0 e0 (max last e) ivs (insertNew r s e iv)

/-- The function `interval_tree_add` (lines 123-169).  Find the least node
key ≥ `(start, end)`; if its `start` exceeds the new `start`, step to the
in-order predecessor.  Merge into the candidate when it has the same
`start`, otherwise insert a new node.  (When `RB_NFIND` finds nothing the C
code skips the predecessor step and always makes a new node.)  `ivid` stands
for the address of the freshly allocated `interval` record. -/
def interval_tree_add (t : interval_tree α) (start end_ : Int) (ivid : Nat)
    (d : α) : interval_tree α :=
  let k : Int × Int := (start, end_)
  let iv : interval α := ⟨ivid, start, end_, d⟩
  let cand : Option (Int × Int) :=
    match RB_NFIND t k with
    | some k' => if k'.1 > start then RB_PREVK t k else some k'
    | none => none
  match cand with
  | some k' =>
    if k'.1 = start then (mergeInto t k' iv).1
    else insertNew t start end_ iv
  | none => insertNew t start end_ iv

/-- Maximum `end` over an interval list, starting from `INT_MIN`
(`interval_recompute_last_del`, lines 178-188). -/
def ivsMaxEnd (ivs : List (interval α)) : Int :=
  ivs.foldl (fun a i => if a < i.end_ then i.end_ else a) INT_MIN

/-- Recompute a node's `last` from its `end` and the `last` of whichever
children are present (`interval_recompute_last_del` lines 193-198 and
201-207, and `interval_augment` lines 56-62). -/
def recomputeLast (e : Int) (l r : interval_tree α) : Int :=
  let a := match l with
    | leaf => e
    | node _ _ _ ll _ _ => if e < ll then ll else e
  match r with
  | leaf => a
  | node _ _ _ rl _ _ => if a < rl then rl else a

/-- Remove the minimum node of a (nonempty) subtree, recomputing `last` on
the way back up; used by the structural delete below. -/
def extractMin (l : interval_tree α) (s e : Int) (ivs : List (interval α))
    (r : interval_tree α) :
    ((Int × Int) × List (interval α)) × interval_tree α :=
  match l with
  | leaf => (((s, e), ivs), r)
  | node ll ls le _ livs lr =>
    let p := extractMin ll ls le livs lr
    (p.1, node p.2 s e (recomputeLast e p.2 r) ivs r)

/-- Structural removal of a tree node whose interval list became empty
(`RB_REMOVE`, generated in `tree.h`, is modelled from the spec as the
standard BST delete-by-splice; `interval_recompute_last_del` then refreshes
`last` on the whole ancestor path, which the unwind below performs). -/
def removeRoot (l r : interval_tree α) : interval_tree α :=
  match r with
  | leaf => l
  | node rl rs re _ rivs rr =>
    let p := extractMin rl rs re rivs rr
    node l p.1.1.1 p.1.1.2 (recomputeLast p.1.1.2 l p.2) p.1.2 p.2

/-- Descend to the node with key `k`, remove the interval record whose
address (`id`) matches, and fix up `end`/`last` as `interval_tree_del`
(lines 218-262) does: if the removed interval carried the node's `end`,
recompute `end` as the max over the remaining intervals; if the node's list
became empty remove the node; recompute `last` on the node and every
ancestor (lines 193-207). -/
def delFromNode (t : interval_tree α) (k : Int × Int) (dId : Nat) :
    Option (interval_tree α) :=
  match t with
  | leaf => none
  | node l s e _ ivs r =>
    if keyLt k (s, e) then
      match delFromNode l k dId with
      | none => none
      | some l' => some (node l' s e (recomputeLast e l' r) ivs r)
    else if keyLt (s, e) k then
      match delFromNode r k dId with
      | none => none
      | some r' => some (node l s e (recomputeLast e l r') ivs r')
    else
      match ivs.find? (fun i => i.id == dId) with
      | none => none
      | some found =>
        let ivs' := ivs.eraseP (fun i => i.id == dId)
        if ivs'.isEmpty then
          some (removeRoot l r)
        else
          let e' := if e == found.end_ then ivsMaxEnd ivs' else e
          some (node l s e' (recomputeLast e' l r) ivs' r)

/-- The function `interval_tree_del` (lines 218-262): `RB_NFIND` on the
interval's own `(start, end)` key, then remove that interval from the found
node.  `none` models the `-1` return (node or interval not found); in that
case the C code leaves the tree unchanged. -/
def interval_tree_del (t : interval_tree α) (ivrec : interval α) :
    Option (interval_tree α) :=
  match RB_NFIND t (ivrec.start, ivrec.end_) with
  | none => none
  | some k => delFromNode t k ivrec.id

/-- The pruned in-order range traversal `interval_recurse` (lines 265-311),
which also realises the yield order of the stateful iterator
`interval_range_iter` / `interval_iter_next` (lines 429-574): descend left
when the left child exists and its `last` reaches the query start, scan the
node's interval list (filtered per interval) when the node's own range meets
the query, and descend right when the node's `start` does not pass the query
end.  `lo`/`hi` are the C `start`/`end` query parameters. -/
def interval_recurse (t : interval_tree α) (lo hi : Int) :
    List (interval α) :=
  match t with
  | leaf => []
  | node l s e _ ivs r =>
    (match l with
     | leaf => []
     | node _ _ _ llast _ _ =>
       if llast ≥ lo then interval_recurse l lo hi else []) ++
    (if hi ≥ s ∧ lo ≤ e then
       ivs.filter (fun i => i.start ≤ hi ∧ i.end_ ≥ lo)
     else []) ++
    (match r with
     | leaf => []
     | node _ _ _ _ _ _ =>
       if s ≤ hi then interval_recurse r lo hi else [])

/-- The recursive consistency check `interval_tree_check_` (lines 369-408):
returns the error bits and the subtree-max `end` (the `*end_p` out
parameter).  `start`/`end` of each node are compared against the min/max
over its interval list (folded from `INT_MAX`/`INT_MIN`), and `last` against
the subtree max. -/
def interval_tree_check_ : interval_tree α → Nat × Int
  | leaf => (0, 0)
  | node l ns ne nlast ivs r =>
    let se : Int × Int :=
      ivs.foldl (fun p i =>
        (if p.1 > i.start then i.start else p.1,
         if p.2 < i.end_ then i.end_ else p.2)) (INT_MAX, INT_MIN)
    let err0 : Nat := if se.1 ≠ ns ∨ se.2 ≠ ne then 1 else 0
    let pl := match l with
      | leaf => ((0 : Nat), INT_MIN)
      | node _ _ _ _ _ _ => interval_tree_check_ l
    let e1 : Int := if se.2 < pl.2 then pl.2 else se.2
    let pr := match r with
      | leaf => ((0 : Nat), INT_MIN)
      | node _ _ _ _ _ _ => interval_tree_check_ r
    let e2 : Int := if e1 < pr.2 then pr.2 else e1
    let err1 : Nat := if e2 ≠ nlast then 1 else 0
    (err0 ||| pl.1 ||| pr.1 ||| err1, e2)

/-- The function `interval_tree_check` (lines 417-419). -/
def interval_tree_check (t : interval_tree α) : Nat :=
  match t with
  | leaf => 0
  | node _ _ _ _ _ _ => (interval_tree_check_ t).1

/-! ## Interval tree: invariants

`Ordered` is the binary-search-tree key order; `NodesOK` ties each node's
`start`/`end` to its interval list (the property `interval_tree_check_`
tests, plus the `int`-range facts C gets from the types); `LastOK` is the
augmentation invariant claimed by the spec; `Sep` records that among nodes
sharing a `start`, every interval packed in a higher node ends strictly
beyond the lower node's `end` — the property that keeps `RB_NFIND`-based
deletion pointed at the right node. -/

def Ordered : interval_tree α → Prop
  | leaf => True
  | node l s e _ _ r =>
    (∀ k ∈ keysOf l, keyLt k (s, e)) ∧ (∀ k ∈ keysOf r, keyLt (s, e) k) ∧
      Ordered l ∧ Ordered r

def nodeOK (s e : Int) (ivs : List (interval α)) : Prop :=
  ivs ≠ [] ∧ (∀ i ∈ ivs, i.start = s ∧ i.end_ ≤ e ∧ INT_MIN ≤ i.end_) ∧
    (∃ i ∈ ivs, i.end_ = e) ∧ s ≤ INT_MAX

def NodesOK (t : interval_tree α) : Prop :=
  ∀ p ∈ nodesOf t, nodeOK p.1.1 p.1.2 p.2

def LastOK : interval_tree α → Prop
  | leaf => True
  | node l _ e last _ r =>
    last = max e (max (lastD l e) (lastD r e)) ∧ LastOK l ∧ LastOK r

def Sep (t : interval_tree α) : Prop :=
  ∀ p ∈ nodesOf t, ∀ q ∈ nodesOf t, p.1.1 = q.1.1 → keyLt p.1 q.1 →
    ∀ i ∈ q.2, p.1.2 < i.end_

def Inv (t : interval_tree α) : Prop :=
  Ordered t ∧ NodesOK t ∧ LastOK t ∧ Sep t

def IdsNodup (t : interval_tree α) : Prop :=
  ((allIvs t).map interval.id).Nodup

instance (t : interval_tree α) : Decidable (IdsNodup t) := by
  unfold IdsNodup; infer_instance

/-! ### Key order facts -/

theorem keyLt_irrefl (a : Int × Int) : ¬ keyLt a a := by
  unfold keyLt; omega

theorem keyLt_trans {a b c : Int × Int} (h1 : keyLt a b) (h2 : keyLt b c) :
    keyLt a c := by
  unfold keyLt at *; omega

theorem keyLt_asymm {a b : Int × Int} (h : keyLt a b) : ¬ keyLt b a := by
  unfold keyLt at *; omega

theorem keyLt_trichot (a b : Int × Int) : keyLt a b ∨ a = b ∨ keyLt b a := by
  rcases a with ⟨a1, a2⟩; rcases b with ⟨b1, b2⟩
  simp only [keyLt, Prod.mk.injEq]
  omega

theorem keyLt_of_ne {a b : Int × Int} (h1 : ¬ keyLt a b) (h2 : a ≠ b) :
    keyLt b a := by
  rcases keyLt_trichot a b with h | h | h
  · exact absurd h h1
  · exact absurd h h2
  · exact h

/-! ### Structure lemmas -/

theorem keysOf_eq_map (t : interval_tree α) :
    keysOf t = (nodesOf t).map Prod.fst := by
  induction t with
  | leaf => rfl
  | node l s e last ivs r ihl ihr => simp [keysOf, nodesOf, ihl, ihr]

theorem allIvs_eq_bind (t : interval_tree α) :
    allIvs t = (nodesOf t).flatMap Prod.snd := by
  induction t with
  | leaf => rfl
  | node l s e last ivs r ihl ihr => simp [allIvs, nodesOf, ihl, ihr]

theorem mem_allIvs_iff {t : interval_tree α} {iv : interval α} :
    iv ∈ allIvs t ↔ ∃ p ∈ nodesOf t, iv ∈ p.2 := by
  rw [allIvs_eq_bind]; simp [List.mem_flatMap]

theorem Ordered_left {l r : interval_tree α} {s e last : Int}
    {ivs : List (interval α)} (h : Ordered (node l s e last ivs r)) :
    Ordered l := h.2.2.1

theorem Ordered_right {l r : interval_tree α} {s e last : Int}
    {ivs : List (interval α)} (h : Ordered (node l s e last ivs r)) :
    Ordered r := h.2.2.2

theorem NodesOK_left {l r : interval_tree α} {s e last : Int}
    {ivs : List (interval α)} (h : NodesOK (node l s e last ivs r)) :
    NodesOK l := by
  intro p hp; exact h p (by simp [nodesOf]; tauto)

theorem NodesOK_right {l r : interval_tree α} {s e last : Int}
    {ivs : List (interval α)} (h : NodesOK (node l s e last ivs r)) :
    NodesOK r := by
  intro p hp; exact h p (by simp [nodesOf]; tauto)

theorem NodesOK.here {l r : interval_tree α} {s e last : Int}
    {ivs : List (interval α)} (h : NodesOK (node l s e last ivs r)) :
    nodeOK s e ivs := h ((s, e), ivs) (by simp [nodesOf])

theorem Sep_left {l r : interval_tree α} {s e last : Int}
    {ivs : List (interval α)} (h : Sep (node l s e last ivs r)) : Sep l := by
  intro p hp q hq h1 h2
  exact h p (by simp [nodesOf]; tauto) q (by simp [nodesOf]; tauto) h1 h2

theorem Sep_right {l r : interval_tree α} {s e last : Int}
    {ivs : List (interval α)} (h : Sep (node l s e last ivs r)) : Sep r := by
  intro p hp q hq h1 h2
  exact h p (by simp [nodesOf]; tauto) q (by simp [nodesOf]; tauto) h1 h2

/-! ### Characterisation of `RB_NFIND` and `RB_PREVK` -/

theorem RB_NFIND_mem {t : interval_tree α} {k k' : Int × Int}
    (h : RB_NFIND t k = some k') : k' ∈ keysOf t := by
  induction t with
  | leaf => simp [RB_NFIND] at h
  | node l s e last ivs r ihl ihr =>
    simp only [RB_NFIND] at h
    by_cases h1 : keyLt k (s, e)
    · rw [if_pos h1] at h
      cases hfl : RB_NFIND l k with
      | some k2 =>
        rw [hfl] at h
        injection h with h; subst h
        simp only [keysOf, List.mem_append]
        exact Or.inl (Or.inl (ihl hfl))
      | none =>
        rw [hfl] at h
        injection h with h; subst h
        simp [keysOf]
    · rw [if_neg h1] at h
      by_cases h2 : keyLt (s, e) k
      · rw [if_pos h2] at h
        simp only [keysOf, List.mem_append]
        exact Or.inr (ihr h)
      · rw [if_neg h2] at h
        injection h with h; subst h
        simp [keysOf]

theorem RB_NFIND_ge {t : interval_tree α} {k k' : Int × Int}
    (h : RB_NFIND t k = some k') : ¬ keyLt k' k := by
  induction t with
  | leaf => simp [RB_NFIND] at h
  | node l s e last ivs r ihl ihr =>
    simp only [RB_NFIND] at h
    by_cases h1 : keyLt k (s, e)
    · rw [if_pos h1] at h
      cases hfl : RB_NFIND l k with
      | some k2 =>
        rw [hfl] at h; injection h with h; subst h; exact ihl hfl
      | none =>
        rw [hfl] at h; injection h with h; subst h; exact keyLt_asymm h1
    · rw [if_neg h1] at h
      by_cases h2 : keyLt (s, e) k
      · rw [if_pos h2] at h; exact ihr h
      · rw [if_neg h2] at h
        injection h with h; subst h
        exact h2

theorem RB_NFIND_none_aux {t : interval_tree α} (ho : Ordered t)
    {k : Int × Int} (h : RB_NFIND t k = none) :
    ∀ k'' ∈ keysOf t, keyLt k'' k := by
  induction t with
  | leaf => simp [keysOf]
  | node l s e last ivs r ihl ihr =>
    obtain ⟨hlk, hrk, hol, hor⟩ := ho
    simp only [RB_NFIND] at h
    by_cases h1 : keyLt k (s, e)
    · rw [if_pos h1] at h
      cases hfl : RB_NFIND l k with
      | some k2 => rw [hfl] at h; exact absurd h (by simp)
      | none => rw [hfl] at h; exact absurd h (by simp)
    · rw [if_neg h1] at h
      by_cases h2 : keyLt (s, e) k
      · rw [if_pos h2] at h
        intro k'' hk''
        simp only [keysOf, List.mem_append, List.mem_singleton] at hk''
        rcases hk'' with (hk'' | hk'') | hk''
        · exact keyLt_trans (hlk _ hk'') h2
        · subst hk''; exact h2
        · exact ihr hor h k'' hk''
      · rw [if_neg h2] at h; exact absurd h (by simp)

theorem RB_NFIND_least {t : interval_tree α} (ho : Ordered t)
    {k k' : Int × Int} (h : RB_NFIND t k = some k') :
    ∀ k'' ∈ keysOf t, ¬ keyLt k'' k → ¬ keyLt k'' k' := by
  induction t with
  | leaf => simp [RB_NFIND] at h
  | node l s e last ivs r ihl ihr =>
    obtain ⟨hlk, hrk, hol, hor⟩ := ho
    simp only [RB_NFIND] at h
    intro k'' hk'' hge
    simp only [keysOf, List.mem_append, List.mem_singleton] at hk''
    by_cases h1 : keyLt k (s, e)
    · rw [if_pos h1] at h
      cases hfl : RB_NFIND l k with
      | some k2 =>
        rw [hfl] at h; injection h with h; subst h
        rcases hk'' with (hk'' | hk'') | hk''
        · exact ihl hol hfl k'' hk'' hge
        · subst hk''
          have := RB_NFIND_mem hfl
          exact keyLt_asymm (hlk _ this)
        · have h3 := RB_NFIND_mem hfl
          have h4 : keyLt k2 (s, e) := hlk _ h3
          intro hc
          exact keyLt_asymm (keyLt_trans h4 (hrk _ hk'')) hc
      | none =>
        rw [hfl] at h; injection h with h; subst h
        rcases hk'' with (hk'' | hk'') | hk''
        · exact absurd (RB_NFIND_none_aux hol hfl k'' hk'') hge
        · subst hk''; exact keyLt_irrefl _
        · exact keyLt_asymm (hrk _ hk'')
    · rw [if_neg h1] at h
      by_cases h2 : keyLt (s, e) k
      · rw [if_pos h2] at h
        rcases hk'' with (hk'' | hk'') | hk''
        · exact absurd (keyLt_trans (hlk _ hk'') h2) hge
        · subst hk''; exact absurd h2 hge
        · exact ihr hor h k'' hk'' hge
      · rw [if_neg h2] at h
        injection h with h; subst h
        rcases hk'' with (hk'' | hk'') | hk''
        · intro hc
          have h3 : keyLt k'' k := by
            have hse : k = (s, e) := by
              rcases keyLt_trichot k (s, e) with h3 | h3 | h3
              · exact absurd h3 h1
              · exact h3
              · exact absurd h3 h2
            rwa [hse]
          exact hge h3
        · subst hk''; exact keyLt_irrefl _
        · exact keyLt_asymm (hrk _ hk'')

theorem RB_PREVK_mem {t : interval_tree α} {k k' : Int × Int}
    (h : RB_PREVK t k = some k') : k' ∈ keysOf t := by
  induction t with
  | leaf => simp [RB_PREVK] at h
  | node l s e last ivs r ihl ihr =>
    simp only [RB_PREVK] at h
    by_cases h1 : keyLt (s, e) k
    · rw [if_pos h1] at h
      cases hfr : RB_PREVK r k with
      | some k2 =>
        rw [hfr] at h; injection h with h; subst h
        simp only [keysOf, List.mem_append]
        exact Or.inr (ihr hfr)
      | none =>
        rw [hfr] at h; injection h with h; subst h
        simp [keysOf]
    · rw [if_neg h1] at h
      simp only [keysOf, List.mem_append]
      exact Or.inl (Or.inl (ihl h))

theorem RB_PREVK_lt {t : interval_tree α} {k k' : Int × Int}
    (h : RB_PREVK t k = some k') : keyLt k' k := by
  induction t with
  | leaf => simp [RB_PREVK] at h
  | node l s e last ivs r ihl ihr =>
    simp only [RB_PREVK] at h
    by_cases h1 : keyLt (s, e) k
    · rw [if_pos h1] at h
      cases hfr : RB_PREVK r k with
      | some k2 => rw [hfr] at h; injection h with h; subst h; exact ihr hfr
      | none => rw [hfr] at h; injection h with h; subst h; exact h1
    · rw [if_neg h1] at h; exact ihl h

theorem RB_PREVK_none_aux {t : interval_tree α} (ho : Ordered t)
    {k : Int × Int} (h : RB_PREVK t k = none) :
    ∀ k'' ∈ keysOf t, ¬ keyLt k'' k := by
  induction t with
  | leaf => simp [keysOf]
  | node l s e last ivs r ihl ihr =>
    obtain ⟨hlk, hrk, hol, hor⟩ := ho
    simp only [RB_PREVK] at h
    by_cases h1 : keyLt (s, e) k
    · rw [if_pos h1] at h
      cases hfr : RB_PREVK r k with
      | some k2 => rw [hfr] at h; exact absurd h (by simp)
      | none => rw [hfr] at h; exact absurd h (by simp)
    · rw [if_neg h1] at h
      intro k'' hk''
      simp only [keysOf, List.mem_append, List.mem_singleton] at hk''
      rcases hk'' with (hk'' | hk'') | hk''
      · exact ihl hol h k'' hk''
      · subst hk''; exact h1
      · exact fun hc => h1 (keyLt_trans (hrk _ hk'') hc)

theorem RB_PREVK_greatest {t : interval_tree α} (ho : Ordered t)
    {k k' : Int × Int} (h : RB_PREVK t k = some k') :
    ∀ k'' ∈ keysOf t, keyLt k'' k → ¬ keyLt k' k'' := by
  induction t with
  | leaf => simp [RB_PREVK] at h
  | node l s e last ivs r ihl ihr =>
    obtain ⟨hlk, hrk, hol, hor⟩ := ho
    simp only [RB_PREVK] at h
    intro k'' hk'' hlt
    simp only [keysOf, List.mem_append, List.mem_singleton] at hk''
    by_cases h1 : keyLt (s, e) k
    · rw [if_pos h1] at h
      cases hfr : RB_PREVK r k with
      | some k2 =>
        rw [hfr] at h; injection h with h; subst h
        rcases hk'' with (hk'' | hk'') | hk''
        · have h3 := RB_PREVK_mem hfr
          intro hc
          exact keyLt_asymm (keyLt_trans (hlk _ hk'') (hrk _ h3)) hc
        · subst hk''
          have h3 := RB_PREVK_mem hfr
          exact keyLt_asymm (hrk _ h3)
        · exact ihr hor hfr k'' hk'' hlt
      | none =>
        rw [hfr] at h; injection h with h; subst h
        rcases hk'' with (hk'' | hk'') | hk''
        · exact keyLt_asymm (hlk _ hk'')
        · subst hk''; exact keyLt_irrefl _
        · exact absurd hlt (RB_PREVK_none_aux hor hfr k'' hk'')
    · rw [if_neg h1] at h
      rcases hk'' with (hk'' | hk'') | hk''
      · exact ihl hol h k'' hk'' hlt
      · subst hk''; exact absurd hlt h1
      · exact absurd hlt (fun hc => h1 (keyLt_trans (hrk _ hk'') hc))

/-! ### Effect of the merge branch of `interval_tree_add` -/

theorem if_lt_eq_max (e x : Int) : (if e < x then x else e) = max e x := by
  rcases le_total e x with h | h
  · rcases lt_or_eq_of_le h with h' | h'
    · simp [h', max_eq_right h]
    · subst h'; simp
  · simp [not_lt.2 h, max_eq_left h]

theorem keyLt_le_snd {a k : Int × Int} {x : Int} (h : keyLt a k)
    (hx : k.2 ≤ x) : keyLt a (k.1, x) := by
  unfold keyLt at *; dsimp only at *; omega

theorem keyLt_of_lt_of_nlt {a b c : Int × Int} (h1 : keyLt a b)
    (h2 : ¬ keyLt c b) : keyLt a c := by
  unfold keyLt at *; omega

theorem Ordered_pairwise {t : interval_tree α} (ho : Ordered t) :
    (keysOf t).Pairwise keyLt := by
  induction t with
  | leaf => simp [keysOf]
  | node l s e last ivs r ihl ihr =>
    obtain ⟨hlk, hrk, hol, hor⟩ := ho
    have h1 : keysOf (node l s e last ivs r) =
        keysOf l ++ ((s, e) :: keysOf r) := by simp [keysOf]
    rw [h1, List.pairwise_append]
    refine ⟨ihl hol, ?_, ?_⟩
    · rw [List.pairwise_cons]
      exact ⟨fun b hb => hrk _ hb, ihr hor⟩
    · intro a ha b hb
      rcases List.mem_cons.1 hb with hb | hb
      · subst hb; exact hlk _ ha
      · exact keyLt_trans (hlk _ ha) (hrk _ hb)

theorem mergeInto_left {l r : interval_tree α} {s e last : Int}
    {ivs : List (interval α)} {k : Int × Int} {iv : interval α}
    (h1 : keyLt k (s, e)) :
    mergeInto (node l s e last ivs r) k iv =
      (node (mergeInto l k iv).1 s e
        (if (mergeInto l k iv).2 && decide (last < iv.end_) then iv.end_
         else last) ivs r,
       (mergeInto l k iv).2 && decide (last < iv.end_)) := by
  simp only [mergeInto, if_pos h1]
  rcases hb : (mergeInto l k iv).2 <;> by_cases h : last < iv.end_ <;>
    simp [hb, h]

theorem mergeInto_right {l r : interval_tree α} {s e last : Int}
    {ivs : List (interval α)} {k : Int × Int} {iv : interval α}
    (h1 : ¬ keyLt k (s, e)) (h2 : keyLt (s, e) k) :
    mergeInto (node l s e last ivs r) k iv =
      (node l s e
        (if (mergeInto r k iv).2 && decide (last < iv.end_) then iv.end_
         else last) ivs (mergeInto r k iv).1,
       (mergeInto r k iv).2 && decide (last < iv.end_)) := by
  simp only [mergeInto, if_neg h1, if_pos h2]
  rcases hb : (mergeInto r k iv).2 <;> by_cases h : last < iv.end_ <;>
    simp [hb, h]

theorem mergeInto_here {l r : interval_tree α} {s e last : Int}
    {ivs : List (interval α)} {k : Int × Int} {iv : interval α}
    (h1 : ¬ keyLt k (s, e)) (h2 : ¬ keyLt (s, e) k) :
    mergeInto (node l s e last ivs r) k iv =
      (node l s (max e iv.end_)
        (if last < iv.end_ then iv.end_ else last) (iv :: ivs) r,
       decide (last < iv.end_)) := by
  simp only [mergeInto, if_neg h1, if_neg h2, if_lt_eq_max]
  by_cases h : last < iv.end_ <;> simp [h] <;> omega

theorem keyLt_here_eq {k : Int × Int} {s e : Int} (h1 : ¬ keyLt k (s, e))
    (h2 : ¬ keyLt (s, e) k) : k = (s, e) := by
  rcases keyLt_trichot k (s, e) with h | h | h
  · exact absurd h h1
  · exact h
  · exact absurd h h2

theorem mergeInto_nodesOf {t : interval_tree α} {k : Int × Int}
    {iv : interval α} (ho : Ordered t) (hk : k ∈ keysOf t) :
    ∃ pre ivs0 post,
      nodesOf t = pre ++ (k, ivs0) :: post ∧
      nodesOf (mergeInto t k iv).1 =
        pre ++ ((k.1, max k.2 iv.end_), iv :: ivs0) :: post := by
  induction t with
  | leaf => simp [keysOf] at hk
  | node l s e last ivs r ihl ihr =>
    obtain ⟨hlk, hrk, hol, hor⟩ := ho
    by_cases h1 : keyLt k (s, e)
    · have hkl : k ∈ keysOf l := by
        simp only [keysOf, List.mem_append, List.mem_singleton] at hk
        rcases hk with (hk | hk) | hk
        · exact hk
        · subst hk; exact absurd h1 (keyLt_irrefl _)
        · exact absurd h1 (keyLt_asymm (hrk _ hk))
      obtain ⟨pre, ivs0, post, hsplit, hsplit'⟩ := ihl hol hkl
      refine ⟨pre, ivs0, post ++ ((s, e), ivs) :: nodesOf r, ?_, ?_⟩
      · simp [nodesOf, hsplit]
      · rw [mergeInto_left h1]
        simp [nodesOf, hsplit']
    · by_cases h2 : keyLt (s, e) k
      · have hkr : k ∈ keysOf r := by
          simp only [keysOf, List.mem_append, List.mem_singleton] at hk
          rcases hk with (hk | hk) | hk
          · exact absurd h2 (keyLt_asymm (hlk _ hk))
          · subst hk; exact absurd h2 (keyLt_irrefl _)
          · exact hk
        obtain ⟨pre, ivs0, post, hsplit, hsplit'⟩ := ihr hor hkr
        refine ⟨nodesOf l ++ ((s, e), ivs) :: pre, ivs0, post, ?_, ?_⟩
        · simp [nodesOf, hsplit]
        · rw [mergeInto_right h1 h2]
          simp [nodesOf, hsplit']
      · have hke := keyLt_here_eq h1 h2
        subst hke
        refine ⟨nodesOf l, ivs, nodesOf r, by simp [nodesOf], ?_⟩
        rw [mergeInto_here h1 h2]
        simp [nodesOf]

theorem mergeInto_keysOf {t : interval_tree α} {k : Int × Int}
    {iv : interval α} (ho : Ordered t) (hk : k ∈ keysOf t) :
    ∃ preK postK,
      keysOf t = preK ++ k :: postK ∧
      keysOf (mergeInto t k iv).1 =
        preK ++ (k.1, max k.2 iv.end_) :: postK := by
  obtain ⟨pre, ivs0, post, h1, h2⟩ := @mergeInto_nodesOf _ _ _ iv ho hk
  refine ⟨pre.map Prod.fst, post.map Prod.fst, ?_, ?_⟩
  · rw [keysOf_eq_map, h1]; simp
  · rw [keysOf_eq_map, h2]; simp

theorem mergeInto_keys_mem {t : interval_tree α} {k : Int × Int}
    {iv : interval α} (ho : Ordered t) (hk : k ∈ keysOf t) :
    ∀ k'' ∈ keysOf (mergeInto t k iv).1,
      k'' ∈ keysOf t ∨ k'' = (k.1, max k.2 iv.end_) := by
  obtain ⟨preK, postK, h1, h2⟩ := @mergeInto_keysOf _ _ _ iv ho hk
  intro k'' hk''
  rw [h2] at hk''
  rw [h1]
  simp only [List.mem_append, List.mem_cons] at hk'' ⊢
  tauto

theorem mergeInto_ordered {t : interval_tree α} {k : Int × Int}
    {iv : interval α} (ho : Ordered t) (hk : k ∈ keysOf t)
    (hfresh : ∀ k'' ∈ keysOf t, k'' ≠ k →
      keyLt k'' k ∨ keyLt (k.1, max k.2 iv.end_) k'') :
    Ordered (mergeInto t k iv).1 := by
  induction t with
  | leaf => simp [keysOf] at hk
  | node l s e last ivs r ihl ihr =>
    obtain ⟨hlk, hrk, hol, hor⟩ := ho
    by_cases h1 : keyLt k (s, e)
    · have hkl : k ∈ keysOf l := by
        simp only [keysOf, List.mem_append, List.mem_singleton] at hk
        rcases hk with (hk | hk) | hk
        · exact hk
        · subst hk; exact absurd h1 (keyLt_irrefl _)
        · exact absurd h1 (keyLt_asymm (hrk _ hk))
      rw [mergeInto_left h1]
      refine ⟨?_, hrk, ?_, hor⟩
      · intro k'' hk''
        rcases mergeInto_keys_mem hol hkl k'' hk'' with h | h
        · exact hlk _ h
        · subst h
          have hse : (s, e) ∈ keysOf (node l s e last ivs r) := by
            simp [keysOf]
          rcases hfresh (s, e) hse (fun hc => keyLt_irrefl _ (hc ▸ h1)) with
            h | h
          · exact absurd h1 (keyLt_asymm h)
          · exact h
      · exact ihl hol hkl (fun k'' hm hne =>
          hfresh k'' (by simp only [keysOf, List.mem_append]; tauto) hne)
    · by_cases h2 : keyLt (s, e) k
      · have hkr : k ∈ keysOf r := by
          simp only [keysOf, List.mem_append, List.mem_singleton] at hk
          rcases hk with (hk | hk) | hk
          · exact absurd h2 (keyLt_asymm (hlk _ hk))
          · subst hk; exact absurd h2 (keyLt_irrefl _)
          · exact hk
        rw [mergeInto_right h1 h2]
        refine ⟨hlk, ?_, hol, ?_⟩
        · intro k'' hk''
          rcases mergeInto_keys_mem hor hkr k'' hk'' with h | h
          · exact hrk _ h
          · subst h; exact keyLt_le_snd h2 (le_max_left _ _)
        · exact ihr hor hkr (fun k'' hm hne =>
            hfresh k'' (by simp only [keysOf, List.mem_append]; tauto) hne)
      · have hke := keyLt_here_eq h1 h2
        subst hke
        rw [mergeInto_here h1 h2]
        refine ⟨?_, ?_, hol, hor⟩
        · intro k'' hk''
          exact keyLt_le_snd (hlk _ hk'') (le_max_left _ _)
        · intro k'' hk''
          have hne : k'' ≠ (s, e) := by
            intro hc; subst hc
            exact keyLt_irrefl _ (hrk _ hk'')
          rcases hfresh k''
            (by simp only [keysOf, List.mem_append]; tauto) hne with h | h
          · exact absurd h (keyLt_asymm (hrk _ hk''))
          · exact h

theorem lastD_ne_leaf {t : interval_tree α} (h : t ≠ leaf) (d d' : Int) :
    lastD t d = lastD t d' := by
  cases t with
  | leaf => exact absurd rfl h
  | node l s e last ivs r => rfl

theorem iteb_false {γ : Sort u} (a b : γ) :
    (if (false : Bool) then a else b) = b := rfl

theorem iteb_true {γ : Sort u} (a b : γ) :
    (if (true : Bool) then a else b) = a := rfl

theorem mergeInto_lastOK {t : interval_tree α} {k : Int × Int}
    {iv : interval α} (hlast : LastOK t) (ho : Ordered t)
    (hk : k ∈ keysOf t) :
    LastOK (mergeInto t k iv).1 ∧
      ((mergeInto t k iv).2 = true →
        (∀ d, lastD (mergeInto t k iv).1 d = iv.end_) ∧
          ∀ d, lastD t d < iv.end_) ∧
      ((mergeInto t k iv).2 = false →
        (∀ d, lastD (mergeInto t k iv).1 d = lastD t d) ∧
          ∀ d, iv.end_ ≤ lastD t d) := by
  induction t with
  | leaf => simp [keysOf] at hk
  | node l s e last ivs r ihl ihr =>
    obtain ⟨hlk, hrk, hol, hor⟩ := ho
    obtain ⟨hL, hLl, hLr⟩ := hlast
    by_cases h1 : keyLt k (s, e)
    · have hkl : k ∈ keysOf l := by
        simp only [keysOf, List.mem_append, List.mem_singleton] at hk
        rcases hk with (hk | hk) | hk
        · exact hk
        · subst hk; exact absurd h1 (keyLt_irrefl _)
        · exact absurd h1 (keyLt_asymm (hrk _ hk))
      obtain ⟨ihL, ihT, ihF⟩ := ihl hLl hol hkl
      rw [mergeInto_left h1]
      dsimp only
      rcases hb : (mergeInto l k iv).2 with _ | _
      · obtain ⟨hsame, hge⟩ := ihF hb
        rw [Bool.false_and, iteb_false]
        refine ⟨⟨?_, ihL, hLr⟩, ?_, ?_⟩
        · rw [hsame e, hL]
        · intro hc; simp at hc
        · intro _
          refine ⟨fun d => by simp only [lastD, hb, Bool.false_and, iteb_false],
            fun d => ?_⟩
          have h3 := hge e
          simp only [lastD]
          rw [hL]
          omega
      · obtain ⟨hup, hlt⟩ := ihT hb
        by_cases h3 : last < iv.end_
        · have hdt : decide (last < iv.end_) = true := by simp [h3]
          rw [hdt, Bool.true_and, iteb_true]
          refine ⟨⟨?_, ihL, hLr⟩, ?_, ?_⟩
          · have h4 := hup e
            have h5 := hlt e
            rw [h4]
            rw [hL] at h3
            omega
          · intro _
            refine ⟨fun d => by simp only [lastD], fun d => ?_⟩
            simp only [lastD]
            omega
          · intro hc; simp at hc
        · have hdt : decide (last < iv.end_) = false := by simp [h3]
          rw [hdt, Bool.and_false, iteb_false]
          refine ⟨⟨?_, ihL, hLr⟩, ?_, ?_⟩
          · have h4 := hup e
            have h5 := hlt e
            rw [h4]
            rw [hL] at h3 ⊢
            omega
          · intro hc; simp at hc
          · intro _
            refine ⟨fun d => by
              simp only [lastD, hb, hdt, Bool.and_false, iteb_false],
              fun d => ?_⟩
            simp only [lastD]
            omega
    · by_cases h2 : keyLt (s, e) k
      · have hkr : k ∈ keysOf r := by
          simp only [keysOf, List.mem_append, List.mem_singleton] at hk
          rcases hk with (hk | hk) | hk
          · exact absurd h2 (keyLt_asymm (hlk _ hk))
          · subst hk; exact absurd h2 (keyLt_irrefl _)
          · exact hk
        obtain ⟨ihL, ihT, ihF⟩ := ihr hLr hor hkr
        rw [mergeInto_right h1 h2]
        dsimp only
        rcases hb : (mergeInto r k iv).2 with _ | _
        · obtain ⟨hsame, hge⟩ := ihF hb
          rw [Bool.false_and, iteb_false]
          refine ⟨⟨?_, hLl, ihL⟩, ?_, ?_⟩
          · rw [hsame e, hL]
          · intro hc; simp at hc
          · intro _
            refine ⟨fun d => by
              simp only [lastD, hb, Bool.false_and, iteb_false], fun d => ?_⟩
            have h3 := hge e
            simp only [lastD]
            rw [hL]
            omega
        · obtain ⟨hup, hlt⟩ := ihT hb
          by_cases h3 : last < iv.end_
          · have hdt : decide (last < iv.end_) = true := by simp [h3]
            rw [hdt, Bool.true_and, iteb_true]
            refine ⟨⟨?_, hLl, ihL⟩, ?_, ?_⟩
            · have h4 := hup e
              have h5 := hlt e
              rw [h4]
              rw [hL] at h3
              omega
            · intro _
              refine ⟨fun d => by simp only [lastD], fun d => ?_⟩
              simp only [lastD]
              omega
            · intro hc; simp at hc
          · have hdt : decide (last < iv.end_) = false := by simp [h3]
            rw [hdt, Bool.and_false, iteb_false]
            refine ⟨⟨?_, hLl, ihL⟩, ?_, ?_⟩
            · have h4 := hup e
              have h5 := hlt e
              rw [h4]
              rw [hL] at h3 ⊢
              omega
            · intro hc; simp at hc
            · intro _
              refine ⟨fun d => by
                simp only [lastD, hb, hdt, Bool.and_false, iteb_false],
                fun d => ?_⟩
              simp only [lastD]
              omega
      · have hke := keyLt_here_eq h1 h2
        subst hke
        rw [mergeInto_here h1 h2]
        dsimp only
        have hel : lastD l (max e iv.end_) = lastD l e ∨
            (lastD l (max e iv.end_) = max e iv.end_ ∧ lastD l e = e) := by
          cases l with
          | leaf => exact Or.inr ⟨rfl, rfl⟩
          | node _ _ _ _ _ _ => exact Or.inl rfl
        have her : lastD r (max e iv.end_) = lastD r e ∨
            (lastD r (max e iv.end_) = max e iv.end_ ∧ lastD r e = e) := by
          cases r with
          | leaf => exact Or.inr ⟨rfl, rfl⟩
          | node _ _ _ _ _ _ => exact Or.inl rfl
        by_cases h3 : last < iv.end_
        · have hdt : decide (last < iv.end_) = true := by simp [h3]
          rw [hdt, if_pos h3]
          refine ⟨⟨?_, hLl, hLr⟩, ?_, ?_⟩
          · rw [hL] at h3
            rcases hel with hel1 | ⟨hel1, hel2⟩ <;>
              rcases her with her1 | ⟨her1, her2⟩ <;>
              rw [hel1, her1] <;> omega
          · intro _
            refine ⟨fun d => by simp only [lastD], fun d => ?_⟩
            simp only [lastD]
            omega
          · intro hc; simp at hc
        · have hdt : decide (last < iv.end_) = false := by simp [h3]
          rw [hdt, if_neg h3]
          refine ⟨⟨?_, hLl, hLr⟩, ?_, ?_⟩
          · rw [hL] at h3
            rcases hel with hel1 | ⟨hel1, hel2⟩ <;>
              rcases her with her1 | ⟨her1, her2⟩ <;>
              rw [hel1, her1, hL] <;> omega
          · intro hc; simp at hc
          · intro _
            refine ⟨fun d => by simp only [lastD], fun d => ?_⟩
            simp only [lastD]
            omega

theorem mergeInto_nodesOK {t : interval_tree α} {k : Int × Int}
    {iv : interval α} (ho : Ordered t) (hn : NodesOK t) (hk : k ∈ keysOf t)
    (hs : iv.start = k.1) (hr : INT_MIN ≤ iv.end_) :
    NodesOK (mergeInto t k iv).1 := by
  obtain ⟨pre, ivs0, post, h1, h2⟩ := @mergeInto_nodesOf _ _ _ iv ho hk
  intro p hp
  rw [h2] at hp
  simp only [List.mem_append, List.mem_cons] at hp
  rcases hp with hp | hp | hp
  · exact hn p (by rw [h1]; simp [hp])
  · subst hp
    have hold : nodeOK k.1 k.2 ivs0 := hn ((k.1, k.2), ivs0)
      (by rw [h1]; simp)
    obtain ⟨hne, hall, ⟨iw, hiw, hiwe⟩, hsx⟩ := hold
    refine ⟨by simp, ?_, ?_, hsx⟩
    · intro i hi
      rcases List.mem_cons.1 hi with hi | hi
      · subst hi; exact ⟨hs, le_max_right _ _, hr⟩
      · obtain ⟨ha, hb, hc⟩ := hall i hi
        exact ⟨ha, le_trans hb (le_max_left _ _), hc⟩
    · rcases le_total k.2 iv.end_ with hc | hc
      · exact ⟨iv, by simp, by simp [max_eq_right hc]⟩
      · exact ⟨iw, by simp [hiw], by rw [hiwe]; simp [max_eq_left hc]⟩
  · exact hn p (by rw [h1]; simp [hp])

theorem mergeInto_sep {t : interval_tree α} {k : Int × Int}
    {iv : interval α} (ho : Ordered t) (hsep : Sep t) (hk : k ∈ keysOf t)
    (hsep_new : ∀ p ∈ nodesOf t, p.1.1 = k.1 → keyLt p.1 k →
      p.1.2 < iv.end_)
    (hgrow : k.2 < iv.end_ → ∀ q ∈ nodesOf t, q.1.1 = k.1 →
      ¬ keyLt k q.1) :
    Sep (mergeInto t k iv).1 := by
  obtain ⟨pre, ivs0, post, h1, h2⟩ := @mergeInto_nodesOf _ _ _ iv ho hk
  have hpw : (nodesOf t).Pairwise (fun a b => keyLt a.1 b.1) := by
    have := Ordered_pairwise ho
    rw [keysOf_eq_map] at this
    exact (List.pairwise_map.1 this)
  rw [h1] at hpw
  have hpre : ∀ p ∈ pre, keyLt p.1 k := fun p hp =>
    (List.pairwise_append.1 hpw).2.2 p hp (k, ivs0) (List.mem_cons_self _ _)
  have hpost : ∀ q ∈ post, keyLt k q.1 := fun q hq =>
    (List.pairwise_cons.1 (List.pairwise_append.1 hpw).2.1).1 q hq
  have hmemold : ∀ p, p ∈ pre ∨ p ∈ post → p ∈ nodesOf t := by
    intro p hp; rw [h1]; rcases hp with hp | hp <;> simp [hp]
  have hkmem : ((k.1, k.2), ivs0) ∈ nodesOf t := by rw [h1]; simp
  intro p hp q hq hstart hlt i hi
  rw [h2] at hp hq
  simp only [List.mem_append, List.mem_cons] at hp hq
  have hpc : (p ∈ pre ∨ p ∈ post) ∨ p = ((k.1, max k.2 iv.end_), iv :: ivs0) := by
    tauto
  have hqc : (q ∈ pre ∨ q ∈ post) ∨ q = ((k.1, max k.2 iv.end_), iv :: ivs0) := by
    tauto
  rcases hpc with hpo | hpu
  · rcases hqc with hqo | hqu
    · exact hsep p (hmemold p hpo) q (hmemold q hqo) hstart hlt i hi
    · -- q is the updated node
      subst hqu
      dsimp only at hlt hstart hi
      have hpltk : keyLt p.1 k := by
        rcases hpo with hp' | hp'
        · exact hpre p hp'
        · -- p ∈ post: k < p.1 < grown key, same start: contradicts hgrow
          exfalso
          have hkp := hpost p hp'
          have hgrow' : k.2 < iv.end_ := by
            have h3 : p.1.1 = k.1 := hstart
            rcases hlt with hlt | hlt
            · omega
            · rcases hkp with hkp | hkp
              · omega
              · have := hlt.2; have := hkp.2; omega
          exact hgrow hgrow' p (hmemold p (Or.inr hp')) hstart hkp
      rcases List.mem_cons.1 hi with hi | hi
      · subst hi
        exact hsep_new p (hmemold p hpo) hstart hpltk
      · exact hsep p (hmemold p hpo) ((k.1, k.2), ivs0) hkmem hstart
          hpltk i hi
  · rcases hqc with hqo | hqu
    · -- p is the updated node
      subst hpu
      dsimp only at hlt hstart
      have hqgt : keyLt k q.1 := by
        rcases hqo with hq' | hq'
        · exfalso
          have := hpre q hq'
          have h3 : keyLt q.1 (k.1, max k.2 iv.end_) :=
            keyLt_le_snd this (le_max_left _ _)
          exact keyLt_asymm hlt h3
        · exact hpost q hq'
      have hqmem := hmemold q hqo
      rcases lt_or_le k.2 iv.end_ with hc | hc
      · exact absurd hqgt (hgrow hc q hqmem (by
          have h3 : (k.1 : Int) = q.1.1 := hstart
          omega))
      · have hmax : max k.2 iv.end_ = k.2 := max_eq_left hc
        have h4 := hsep ((k.1, k.2), ivs0) hkmem q hqmem
          (by have h3 : (k.1 : Int) = q.1.1 := hstart; exact h3)
          (by rw [hmax] at hlt; exact hlt) i hi
        dsimp only
        rw [hmax]
        exact h4
    · subst hpu; subst hqu
      exact absurd hlt (keyLt_irrefl _)

theorem mergeInto_allIvs {t : interval_tree α} {k : Int × Int}
    {iv : interval α} (ho : Ordered t) (hk : k ∈ keysOf t) :
    (allIvs (mergeInto t k iv).1).Perm (iv :: allIvs t) := by
  obtain ⟨pre, ivs0, post, h1, h2⟩ := @mergeInto_nodesOf _ _ _ iv ho hk
  rw [allIvs_eq_bind, allIvs_eq_bind, h1, h2]
  simp only [List.flatMap_append, List.flatMap_cons]
  have h3 : pre.flatMap Prod.snd ++ ((iv :: ivs0) ++ post.flatMap Prod.snd)
      = pre.flatMap Prod.snd ++ iv :: (ivs0 ++ post.flatMap Prod.snd) := by
    simp
  have h4 : (pre.flatMap Prod.snd ++
        iv :: (ivs0 ++ post.flatMap Prod.snd)).Perm
      (iv :: (pre.flatMap Prod.snd ++ (ivs0 ++ post.flatMap Prod.snd))) :=
    List.perm_middle
  rw [h3]
  refine h4.trans ?_
  have h5 : pre.flatMap Prod.snd ++ (ivs0 ++ post.flatMap Prod.snd)
      = pre.flatMap Prod.snd ++ ivs0 ++ post.flatMap Prod.snd := by
    rw [List.append_assoc]
  rw [h5]

/-! ### Effect of the new-node branch of `interval_tree_add` -/

theorem insertNew_keys_mem {t : interval_tree α} {s e : Int}
    {iv : interval α} :
    ∀ k'' ∈ keysOf (insertNew t s e iv), k'' ∈ keysOf t ∨ k'' = (s, e) := by
  induction t with
  | leaf => simp [insertNew, keysOf]
  | node l s0 e0 last ivs r ihl ihr =>
    intro k'' hk''
    by_cases h : keyLt (s, e) (s0, e0)
    · simp only [insertNew, if_pos h, keysOf, List.mem_append,
        List.mem_singleton] at hk''
      rcases hk'' with (hk'' | hk'') | hk''
      · rcases ihl k'' hk'' with h2 | h2
        · exact Or.inl (by simp [keysOf]; tauto)
        · exact Or.inr h2
      · exact Or.inl (by simp [keysOf]; tauto)
      · exact Or.inl (by simp [keysOf]; tauto)
    · simp only [insertNew, if_neg h, keysOf, List.mem_append,
        List.mem_singleton] at hk''
      rcases hk'' with (hk'' | hk'') | hk''
      · exact Or.inl (by simp [keysOf]; tauto)
      · exact Or.inl (by simp [keysOf]; tauto)
      · rcases ihr k'' hk'' with h2 | h2
        · exact Or.inl (by simp [keysOf]; tauto)
        · exact Or.inr h2

theorem insertNew_nodes_mem {t : interval_tree α} {s e : Int}
    {iv : interval α} :
    ∀ p ∈ nodesOf (insertNew t s e iv),
      p ∈ nodesOf t ∨ p = ((s, e), [iv]) := by
  induction t with
  | leaf => simp [insertNew, nodesOf]
  | node l s0 e0 last ivs r ihl ihr =>
    intro p hp
    by_cases h : keyLt (s, e) (s0, e0)
    · simp only [insertNew, if_pos h, nodesOf, List.mem_append,
        List.mem_singleton] at hp
      rcases hp with (hp | hp) | hp
      · rcases ihl p hp with h2 | h2
        · exact Or.inl (by simp [nodesOf]; tauto)
        · exact Or.inr h2
      · exact Or.inl (by simp [nodesOf]; tauto)
      · exact Or.inl (by simp [nodesOf]; tauto)
    · simp only [insertNew, if_neg h, nodesOf, List.mem_append,
        List.mem_singleton] at hp
      rcases hp with (hp | hp) | hp
      · exact Or.inl (by simp [nodesOf]; tauto)
      · exact Or.inl (by simp [nodesOf]; tauto)
      · rcases ihr p hp with h2 | h2
        · exact Or.inl (by simp [nodesOf]; tauto)
        · exact Or.inr h2

theorem insertNew_allIvs {t : interval_tree α} {s e : Int}
    {iv : interval α} :
    (allIvs (insertNew t s e iv)).Perm (iv :: allIvs t) := by
  induction t with
  | leaf => simp [insertNew, allIvs]
  | node l s0 e0 last ivs r ihl ihr =>
    by_cases h : keyLt (s, e) (s0, e0)
    · simp only [insertNew, if_pos h, allIvs]
      have h1 : allIvs (insertNew l s e iv) ++ ivs ++ allIvs r
          = allIvs (insertNew l s e iv) ++ (ivs ++ allIvs r) := by
        rw [List.append_assoc]
      rw [h1]
      refine List.Perm.trans (ihl.append_right (ivs ++ allIvs r)) ?_
      have h2 : (iv :: allIvs l) ++ (ivs ++ allIvs r)
          = iv :: (allIvs l ++ ivs ++ allIvs r) := by simp
      rw [h2]
    · simp only [insertNew, if_neg h, allIvs]
      refine List.Perm.trans
        (List.Perm.append_left (allIvs l ++ ivs) ihr) ?_
      exact List.perm_middle

theorem insertNew_lastD (t : interval_tree α) (s e : Int) (iv : interval α)
    (d : Int) : lastD (insertNew t s e iv) d = max (lastD t e) e := by
  cases t with
  | leaf => simp [insertNew, lastD]
  | node l s0 e0 last ivs r =>
    by_cases h : keyLt (s, e) (s0, e0) <;>
      simp [insertNew, h, lastD]

theorem insertNew_lastOK {t : interval_tree α} {s e : Int}
    {iv : interval α} (hl : LastOK t) : LastOK (insertNew t s e iv) := by
  induction t with
  | leaf =>
    refine ⟨?_, trivial, trivial⟩
    simp only [lastD]
    omega
  | node l s0 e0 last ivs r ihl ihr =>
    obtain ⟨hL, hLl, hLr⟩ := hl
    by_cases h : keyLt (s, e) (s0, e0)
    · simp only [insertNew, if_pos h]
      refine ⟨?_, ihl hLl, hLr⟩
      have hld := insertNew_lastD l s e iv e0
      rw [hld]
      cases l <;> simp only [lastD] at hL ⊢ <;> omega
    · simp only [insertNew, if_neg h]
      refine ⟨?_, hLl, ihr hLr⟩
      have hrd := insertNew_lastD r s e iv e0
      rw [hrd]
      cases r <;> simp only [lastD] at hL ⊢ <;> omega

theorem insertNew_ordered {t : interval_tree α} {s e : Int}
    {iv : interval α} (ho : Ordered t) (hne : (s, e) ∉ keysOf t) :
    Ordered (insertNew t s e iv) := by
  induction t with
  | leaf => exact ⟨by simp [keysOf], by simp [keysOf], trivial, trivial⟩
  | node l s0 e0 last ivs r ihl ihr =>
    obtain ⟨hlk, hrk, hol, hor⟩ := ho
    have hne' : (s, e) ≠ (s0, e0) := by
      intro hc; exact hne (by rw [hc]; simp [keysOf])
    by_cases h : keyLt (s, e) (s0, e0)
    · simp only [insertNew, if_pos h]
      refine ⟨?_, hrk, ?_, hor⟩
      · intro k'' hk''
        rcases insertNew_keys_mem k'' hk'' with h2 | h2
        · exact hlk _ h2
        · subst h2; exact h
      · exact ihl hol (fun hc => hne (by simp [keysOf]; tauto))
    · have h' : keyLt (s0, e0) (s, e) := keyLt_of_ne h hne'
      simp only [insertNew, if_neg h]
      refine ⟨hlk, ?_, hol, ?_⟩
      · intro k'' hk''
        rcases insertNew_keys_mem k'' hk'' with h2 | h2
        · exact hrk _ h2
        · subst h2; exact h'
      · exact ihr hor (fun hc => hne (by simp [keysOf]; tauto))

theorem insertNew_nodesOK {t : interval_tree α} {s e : Int}
    {iv : interval α} (hn : NodesOK t) (hs : iv.start = s)
    (he : iv.end_ = e) (hr : INT_MIN ≤ e) (hsx : s ≤ INT_MAX) :
    NodesOK (insertNew t s e iv) := by
  intro p hp
  rcases insertNew_nodes_mem p hp with h | h
  · exact hn p h
  · subst h
    exact ⟨by simp, fun i hi => by
      rcases List.mem_singleton.1 hi with rfl
      exact ⟨hs, le_of_eq he, he ▸ hr⟩, ⟨iv, by simp, he⟩, hsx⟩

theorem insertNew_sep {t : interval_tree α} {s e : Int} {iv : interval α}
    (hsep : Sep t) (hs : iv.start = s) (he : iv.end_ = e)
    (hnabove : ∀ q ∈ nodesOf t, q.1.1 = s → ¬ keyLt (s, e) q.1) :
    Sep (insertNew t s e iv) := by
  intro p hp q hq hstart hlt i hi
  rcases insertNew_nodes_mem p hp with hp' | hp' <;>
    rcases insertNew_nodes_mem q hq with hq' | hq'
  · exact hsep p hp' q hq' hstart hlt i hi
  · subst hq'
    rcases List.mem_singleton.1 hi with rfl
    rw [he]
    dsimp only at hlt hstart
    rcases hlt with hlt | hlt
    · omega
    · exact hlt.2
  · subst hp'
    dsimp only at hlt hstart
    exact absurd hlt (hnabove q hq' (by omega))
  · subst hp'; subst hq'
    exact absurd hlt (keyLt_irrefl _)

/-! ### Preservation of the invariants by `interval_tree_add` -/

theorem keyLt_eq_of_nlt_nlt {a b : Int × Int} (h1 : ¬ keyLt a b)
    (h2 : ¬ keyLt b a) : a = b := keyLt_here_eq h1 h2

theorem fst_mem_keysOf {t : interval_tree α}
    {p : (Int × Int) × List (interval α)} (hp : p ∈ nodesOf t) :
    p.1 ∈ keysOf t := by
  rw [keysOf_eq_map]
  exact List.mem_map_of_mem Prod.fst hp

theorem interval_tree_add_spec {t : interval_tree α} (hinv : Inv t)
    {start end_ : Int} (hre : INT_MIN ≤ end_) (hrs : start ≤ INT_MAX)
    (ivid : Nat) (d : α) :
    Inv (interval_tree_add t start end_ ivid d) ∧
    (allIvs (interval_tree_add t start end_ ivid d)).Perm
      ((⟨ivid, start, end_, d⟩ : interval α) :: allIvs t) := by
  obtain ⟨ho, hn, hlst, hsp⟩ := hinv
  set k : Int × Int := (start, end_) with hkdef
  set iv : interval α := ⟨ivid, start, end_, d⟩ with hivdef
  have hivs : iv.start = start := rfl
  have hive : iv.end_ = end_ := rfl
  rcases hnf : RB_NFIND t k with _ | k0
  · -- no node at or above the key: always a fresh node (the C quirk)
    have hall := RB_NFIND_none_aux ho hnf
    have hne : k ∉ keysOf t := fun hc => keyLt_irrefl k (hall k hc)
    have hnabove : ∀ q ∈ nodesOf t, q.1.1 = start → ¬ keyLt (start, end_) q.1 :=
      fun q hq _ hc => keyLt_asymm (hall q.1 (fst_mem_keysOf hq)) hc
    have hred : interval_tree_add t start end_ ivid d =
        insertNew t start end_ iv := by
      simp only [interval_tree_add, ← hkdef, ← hivdef, hnf]
    rw [hred]
    exact ⟨⟨insertNew_ordered ho hne,
      insertNew_nodesOK hn hivs hive hre hrs,
      insertNew_lastOK hlst,
      insertNew_sep hsp hivs hive hnabove⟩, insertNew_allIvs⟩
  · have hk0mem := RB_NFIND_mem hnf
    have hk0ge := RB_NFIND_ge hnf
    have hleast := RB_NFIND_least ho hnf
    by_cases hgt : k0.1 > start
    · -- found node starts beyond: step to the predecessor
      have hkk0 : keyLt k k0 := by
        unfold keyLt at hk0ge ⊢; dsimp only at *; omega
      have hknot : k ∉ keysOf t := by
        intro hc
        have h2 := hleast k hc (keyLt_irrefl k)
        exact h2 hkk0
      have hnabove : ∀ q ∈ nodesOf t, q.1.1 = start →
          ¬ keyLt (start, end_) q.1 := by
        intro q hq hq1 hc
        have h2 := hleast q.1 (fst_mem_keysOf hq) (keyLt_asymm hc)
        unfold keyLt at h2 hc
        dsimp only at *
        omega
      rcases hpv : RB_PREVK t k with _ | kp
      · have hred : interval_tree_add t start end_ ivid d =
            insertNew t start end_ iv := by
          simp only [interval_tree_add, ← hkdef, ← hivdef, hnf, hpv,
            if_pos hgt]
        rw [hred]
        exact ⟨⟨insertNew_ordered ho hknot,
          insertNew_nodesOK hn hivs hive hre hrs,
          insertNew_lastOK hlst,
          insertNew_sep hsp hivs hive hnabove⟩, insertNew_allIvs⟩
      · have hkpmem := RB_PREVK_mem hpv
        have hkplt := RB_PREVK_lt hpv
        have hkpgr := RB_PREVK_greatest ho hpv
        by_cases hps : kp.1 = start
        · -- predecessor shares the start: merge, growing the node end
          have hred : interval_tree_add t start end_ ivid d =
              (mergeInto t kp iv).1 := by
            simp only [interval_tree_add, ← hkdef, ← hivdef, hnf, hpv,
              if_pos hgt, if_pos hps]
          have hkp2 : kp.2 < end_ := by
            unfold keyLt at hkplt; dsimp only at hkplt; omega
          have hmax : max kp.2 iv.end_ = end_ := by
            rw [hive]; omega
          have hknew : (kp.1, max kp.2 iv.end_) = k := by
            rw [hmax, hps]
          have hfresh : ∀ k'' ∈ keysOf t, k'' ≠ kp →
              keyLt k'' kp ∨ keyLt (kp.1, max kp.2 iv.end_) k'' := by
            intro k'' hm hne
            rw [hknew]
            by_cases hc : keyLt k'' k
            · exact Or.inl (keyLt_of_ne (hkpgr k'' hm hc) (Ne.symm hne))
            · refine Or.inr (keyLt_of_ne hc ?_)
              intro he; rw [he] at hm; exact hknot hm
          have hsep_new : ∀ p ∈ nodesOf t, p.1.1 = kp.1 →
              keyLt p.1 kp → p.1.2 < iv.end_ := by
            intro p hp hp1 hc
            unfold keyLt at hc
            rw [hive]
            omega
          have hgrow : kp.2 < iv.end_ → ∀ q ∈ nodesOf t, q.1.1 = kp.1 →
              ¬ keyLt kp q.1 := by
            intro _ q hq hq1 hc
            by_cases hxc : keyLt q.1 k
            · exact (hkpgr q.1 (fst_mem_keysOf hq) hxc) hc
            · have h2 := hleast q.1 (fst_mem_keysOf hq) hxc
              unfold keyLt at h2
              dsimp only at *
              omega
          rw [hred]
          refine ⟨⟨mergeInto_ordered ho hkpmem hfresh,
            mergeInto_nodesOK ho hn hkpmem (by rw [hivs, hps]) (hive ▸ hre),
            (mergeInto_lastOK hlst ho hkpmem).1,
            mergeInto_sep ho hsp hkpmem hsep_new hgrow⟩,
            mergeInto_allIvs ho hkpmem⟩
        · -- predecessor has a different start: fresh node
          have hred : interval_tree_add t start end_ ivid d =
              insertNew t start end_ iv := by
            simp only [interval_tree_add, ← hkdef, ← hivdef, hnf, hpv,
              if_pos hgt, if_neg hps]
          rw [hred]
          exact ⟨⟨insertNew_ordered ho hknot,
            insertNew_nodesOK hn hivs hive hre hrs,
            insertNew_lastOK hlst,
            insertNew_sep hsp hivs hive hnabove⟩, insertNew_allIvs⟩
    · -- found node has the same start: plain merge, end does not grow
      have hk01 : k0.1 = start := by
        unfold keyLt at hk0ge; dsimp only at hk0ge; omega
      have hred : interval_tree_add t start end_ ivid d =
          (mergeInto t k0 iv).1 := by
        simp only [interval_tree_add, ← hkdef, ← hivdef, hnf, if_neg hgt,
          if_pos hk01]
      have hk02 : end_ ≤ k0.2 := by
        unfold keyLt at hk0ge; dsimp only at hk0ge; omega
      have hmax : max k0.2 iv.end_ = k0.2 := by rw [hive]; omega
      have hknew : (k0.1, max k0.2 iv.end_) = k0 := by rw [hmax]
      have hfresh : ∀ k'' ∈ keysOf t, k'' ≠ k0 →
          keyLt k'' k0 ∨ keyLt (k0.1, max k0.2 iv.end_) k'' := by
        intro k'' hm hne
        rw [hknew]
        rcases keyLt_trichot k'' k0 with h | h | h
        · exact Or.inl h
        · exact absurd h hne
        · exact Or.inr h
      have hsep_new : ∀ p ∈ nodesOf t, p.1.1 = k0.1 →
          keyLt p.1 k0 → p.1.2 < iv.end_ := by
        intro p hp hp1 hc
        by_cases hxc : keyLt p.1 k
        · unfold keyLt at hxc
          rw [hive]
          dsimp only at *
          omega
        · exact absurd hc (hleast p.1 (fst_mem_keysOf hp) hxc)
      have hgrow : k0.2 < iv.end_ → ∀ q ∈ nodesOf t, q.1.1 = k0.1 →
          ¬ keyLt k0 q.1 := by
        intro hc
        rw [hive] at hc
        omega
      rw [hred]
      refine ⟨⟨mergeInto_ordered ho hk0mem hfresh,
        mergeInto_nodesOK ho hn hk0mem (by rw [hivs, hk01]) (hive ▸ hre),
        (mergeInto_lastOK hlst ho hk0mem).1,
        mergeInto_sep ho hsp hk0mem hsep_new hgrow⟩,
        mergeInto_allIvs ho hk0mem⟩

theorem Inv_leaf : Inv (leaf : interval_tree α) := by
  refine ⟨trivial, ?_, trivial, ?_⟩
  · intro p hp; simp [nodesOf] at hp
  · intro p hp; simp [nodesOf] at hp

/-! ### Delete: supporting lemmas -/

theorem foldMax_aux (ivs : List (interval α)) (acc : Int) :
    (∀ i ∈ ivs,
      i.end_ ≤ ivs.foldl (fun a i => if a < i.end_ then i.end_ else a) acc) ∧
    acc ≤ ivs.foldl (fun a i => if a < i.end_ then i.end_ else a) acc ∧
    (ivs.foldl (fun a i => if a < i.end_ then i.end_ else a) acc = acc ∨
      ∃ i ∈ ivs,
        ivs.foldl (fun a i => if a < i.end_ then i.end_ else a) acc =
          i.end_) := by
  induction ivs generalizing acc with
  | nil => simp
  | cons j t ih =>
    simp only [List.foldl_cons]
    obtain ⟨ih1, ih2, ih3⟩ := ih (if acc < j.end_ then j.end_ else acc)
    refine ⟨?_, ?_, ?_⟩
    · intro i hi
      rcases List.mem_cons.1 hi with hi | hi
      · subst hi
        refine le_trans ?_ ih2
        by_cases h : acc < i.end_ <;> simp [h] <;> omega
      · exact ih1 i hi
    · refine le_trans ?_ ih2
      by_cases h : acc < j.end_ <;> simp [h] <;> omega
    · rcases ih3 with h | ⟨i, hi, hieq⟩
      · by_cases hc : acc < j.end_
        · rw [if_pos hc] at h
          refine Or.inr ⟨j, by simp, ?_⟩
          rw [if_pos hc]
          exact h
        · rw [if_neg hc] at h
          refine Or.inl ?_
          rw [if_neg hc]
          exact h
      · exact Or.inr ⟨i, by simp [hi], hieq⟩

theorem ivsMaxEnd_spec {ivs : List (interval α)} (hne : ivs ≠ [])
    (hlb : ∀ i ∈ ivs, INT_MIN ≤ i.end_) :
    (∀ i ∈ ivs, i.end_ ≤ ivsMaxEnd ivs) ∧
      ∃ i ∈ ivs, i.end_ = ivsMaxEnd ivs := by
  obtain ⟨h1, _, h3⟩ := foldMax_aux ivs INT_MIN
  refine ⟨h1, ?_⟩
  rcases h3 with h | ⟨i, hi, hieq⟩
  · rcases ivs with _ | ⟨j, t⟩
    · exact absurd rfl hne
    · refine ⟨j, by simp, ?_⟩
      have h2 := h1 j (by simp)
      have h4 := hlb j (by simp)
      unfold ivsMaxEnd at *
      omega
  · exact ⟨i, hi, hieq.symm⟩

theorem recomputeLast_eq (e : Int) (l r : interval_tree α) :
    recomputeLast e l r = max e (max (lastD l e) (lastD r e)) := by
  cases l <;> cases r <;> simp only [recomputeLast, lastD]
  all_goals repeat' split
  all_goals omega

theorem extractMin_nodesOf (l : interval_tree α) (s e : Int)
    (ivs : List (interval α)) (r : interval_tree α) :
    (extractMin l s e ivs r).1 :: nodesOf (extractMin l s e ivs r).2 =
      nodesOf l ++ ((s, e), ivs) :: nodesOf r := by
  induction l generalizing s e ivs r with
  | leaf => simp [extractMin, nodesOf]
  | node ll ls le llast livs lr ihl ihr =>
    have key := ihl ls le livs lr
    simp only [extractMin, nodesOf]
    rw [← List.cons_append, ← List.cons_append, key]
    simp

theorem extractMin_keysOf (l : interval_tree α) (s e : Int)
    (ivs : List (interval α)) (r : interval_tree α) :
    (extractMin l s e ivs r).1.1 :: keysOf (extractMin l s e ivs r).2 =
      keysOf l ++ (s, e) :: keysOf r := by
  have hchar := congrArg (List.map Prod.fst) (extractMin_nodesOf l s e ivs r)
  simp only [List.map_cons, List.map_append, ← keysOf_eq_map] at hchar
  simpa using hchar

theorem extractMin_lastOK {l r : interval_tree α} {s e : Int}
    {ivs : List (interval α)} (hll : LastOK l) (hlr : LastOK r) :
    LastOK (extractMin l s e ivs r).2 := by
  induction l generalizing s e ivs r with
  | leaf => exact hlr
  | node ll ls le llast livs lr ihl ihr =>
    obtain ⟨hL, hLl, hLr⟩ := hll
    simp only [extractMin]
    exact ⟨by rw [recomputeLast_eq], ihl hLl hLr, hlr⟩

theorem extractMin_ordered {l : interval_tree α} :
    ∀ {s e : Int} {ivs : List (interval α)} {r : interval_tree α},
      Ordered l → Ordered r →
      (∀ κ ∈ keysOf l, keyLt κ (s, e)) →
      (∀ κ ∈ keysOf r, keyLt (s, e) κ) →
      Ordered (extractMin l s e ivs r).2 := by
  induction l with
  | leaf =>
    intro s e ivs r _ hor _ _
    exact hor
  | node ll ls le llast livs lr ihl ihr =>
    intro s e ivs r hol hor hlk hrk
    obtain ⟨hlk2, hrk2, holl, holr⟩ := hol
    simp only [extractMin]
    refine ⟨?_, hrk, ?_, hor⟩
    · intro κ hκ
      have hchar := extractMin_keysOf ll ls le livs lr
      have h2 : κ ∈ keysOf ll ++ (ls, le) :: keysOf lr := by
        rw [← hchar]
        exact List.mem_cons_of_mem _ hκ
      refine hlk κ ?_
      simp only [keysOf, List.mem_append, List.mem_singleton,
        List.mem_cons] at h2 ⊢
      tauto
    · exact ihl holl holr hlk2 hrk2

theorem removeRoot_nodesOf (l r : interval_tree α) :
    nodesOf (removeRoot l r) = nodesOf l ++ nodesOf r := by
  cases r with
  | leaf => simp [removeRoot, nodesOf]
  | node rl rs re rlast rivs rr =>
    simp only [removeRoot, nodesOf]
    have key := extractMin_nodesOf rl rs re rivs rr
    rw [List.append_assoc, List.singleton_append,
      show ((extractMin rl rs re rivs rr).1.1,
        (extractMin rl rs re rivs rr).1.2) =
        (extractMin rl rs re rivs rr).1 from rfl, key]
    simp

theorem removeRoot_lastOK {l r : interval_tree α} (hll : LastOK l)
    (hlr : LastOK r) : LastOK (removeRoot l r) := by
  cases r with
  | leaf => exact hll
  | node rl rs re rlast rivs rr =>
    obtain ⟨hL, hLl, hLr⟩ := hlr
    simp only [removeRoot]
    exact ⟨by rw [recomputeLast_eq], hll, extractMin_lastOK hLl hLr⟩

theorem keyLt_snd_le {a b : Int × Int} {y : Int} (h : keyLt a b)
    (hy : y ≤ a.2) : keyLt (a.1, y) b := by
  unfold keyLt at *; dsimp only at *; omega

/-- Full behaviour of `delFromNode` under the invariants: the target node is
located, the interval found by address is removed, `end` is recomputed
exactly as `interval_tree_del` does, an emptied node is spliced out, and
`last` is refreshed on the whole path; order and augmentation survive. -/
theorem delFromNode_spec {t : interval_tree α} :
    ∀ {k : Int × Int} {dId : Nat} {t' : interval_tree α},
      Ordered t → NodesOK t → LastOK t → Sep t →
      delFromNode t k dId = some t' →
      Ordered t' ∧ LastOK t' ∧
      ∃ pre ivs found post,
        nodesOf t = pre ++ ((k, ivs) :: post) ∧
        List.find? (fun i => i.id == dId) ivs = some found ∧
        ((ivs.eraseP (fun i => i.id == dId) ≠ [] ∧
            nodesOf t' = pre ++
              (((k.1, if k.2 == found.end_
                  then ivsMaxEnd (ivs.eraseP (fun i => i.id == dId))
                  else k.2),
                ivs.eraseP (fun i => i.id == dId)) :: post)) ∨
          (ivs.eraseP (fun i => i.id == dId) = [] ∧
            nodesOf t' = pre ++ post)) := by
  induction t with
  | leaf => intro k dId t' _ _ _ _ hdel; simp [delFromNode] at hdel
  | node l s e last ivs0 r ihl ihr =>
    intro k dId t' ho hn hl hs hdel
    obtain ⟨hlk, hrk, hol, hor⟩ := ho
    obtain ⟨hL, hLl, hLr⟩ := hl
    by_cases h1 : keyLt k (s, e)
    · simp only [delFromNode, if_pos h1] at hdel
      rcases hdl : delFromNode l k dId with _ | l'
      · rw [hdl] at hdel; exact absurd hdel (by simp)
      · rw [hdl] at hdel
        injection hdel with hdel
        subst hdel
        obtain ⟨hol', hll', pre, ivsT, found, post, hc1, hc2, hc3⟩ :=
          ihl hol (NodesOK_left hn) hLl (Sep_left hs) hdl
        have hkmem : k ∈ keysOf l := by
          rw [keysOf_eq_map, hc1]; simp
        have hnodeT : ((k, ivsT) : (Int × Int) × List (interval α)) ∈
            nodesOf l := by rw [hc1]; simp
        have hTok : nodeOK k.1 k.2 ivsT :=
          (NodesOK_left hn) (k, ivsT) hnodeT
        have hkeysub : ∀ κ ∈ keysOf l', keyLt κ (s, e) := by
          intro κ hκ
          rcases hc3 with ⟨hne, hc3⟩ | ⟨hemp, hc3⟩
          · rw [keysOf_eq_map, hc3] at hκ
            simp only [List.map_append, List.map_cons, List.mem_append,
              List.mem_cons] at hκ
            rcases hκ with hκ | hκ | hκ
            · exact hlk κ (by
                  rw [keysOf_eq_map, hc1]
                  simp only [List.map_append, List.map_cons,
                    List.mem_append, List.mem_cons]
                  tauto)
            · subst hκ
              have hnewle : (if k.2 == found.end_
                  then ivsMaxEnd (ivsT.eraseP (fun i => i.id == dId))
                  else k.2) ≤ k.2 := by
                by_cases hcc : k.2 == found.end_
                · rw [if_pos hcc]
                  obtain ⟨_, hatt⟩ := ivsMaxEnd_spec hne
                    (fun i hi => (hTok.2.1 i
                      (List.mem_of_mem_eraseP hi)).2.2)
                  obtain ⟨j, hj, hje⟩ := hatt
                  rw [← hje]
                  exact (hTok.2.1 j (List.mem_of_mem_eraseP hj)).2.1
                · rw [if_neg hcc]
              exact keyLt_snd_le (hlk k hkmem) hnewle
            · exact hlk κ (by
                  rw [keysOf_eq_map, hc1]
                  simp only [List.map_append, List.map_cons,
                    List.mem_append, List.mem_cons]
                  tauto)
          · rw [keysOf_eq_map, hc3] at hκ
            simp only [List.map_append, List.mem_append] at hκ
            exact hlk κ (by
                  rw [keysOf_eq_map, hc1]
                  simp only [List.map_append, List.map_cons,
                    List.mem_append, List.mem_cons]
                  tauto)
        refine ⟨⟨hkeysub, hrk, hol', hor⟩,
          ⟨by rw [recomputeLast_eq], hll', hLr⟩,
          pre, ivsT, found, post ++ ((s, e), ivs0) :: nodesOf r, ?_, hc2, ?_⟩
        · simp [nodesOf, hc1]
        · rcases hc3 with ⟨hne, hc3⟩ | ⟨hemp, hc3⟩
          · exact Or.inl ⟨hne, by simp [nodesOf, hc3]⟩
          · exact Or.inr ⟨hemp, by simp [nodesOf, hc3]⟩
    · by_cases h2 : keyLt (s, e) k
      · simp only [delFromNode, if_neg h1, if_pos h2] at hdel
        rcases hdl : delFromNode r k dId with _ | r'
        · rw [hdl] at hdel; exact absurd hdel (by simp)
        · rw [hdl] at hdel
          injection hdel with hdel
          subst hdel
          obtain ⟨hor', hlr', pre, ivsT, found, post, hc1, hc2, hc3⟩ :=
            ihr hor (NodesOK_right hn) hLr (Sep_right hs) hdl
          have hkmem : k ∈ keysOf r := by
            rw [keysOf_eq_map, hc1]; simp
          have hnodeT : ((k, ivsT) : (Int × Int) × List (interval α)) ∈
              nodesOf r := by rw [hc1]; simp
          have hTok : nodeOK k.1 k.2 ivsT :=
            (NodesOK_right hn) (k, ivsT) hnodeT
          have hkeysub : ∀ κ ∈ keysOf r', keyLt (s, e) κ := by
            intro κ hκ
            rcases hc3 with ⟨hne, hc3⟩ | ⟨hemp, hc3⟩
            · rw [keysOf_eq_map, hc3] at hκ
              simp only [List.map_append, List.map_cons, List.mem_append,
                List.mem_cons] at hκ
              rcases hκ with hκ | hκ | hκ
              · exact hrk κ (by
                  rw [keysOf_eq_map, hc1]
                  simp only [List.map_append, List.map_cons,
                    List.mem_append, List.mem_cons]
                  tauto)
              · subst hκ
                by_cases hss : s = k.1
                · -- same start below: Sep forces e < every end in the node
                  have hself : (((s, e), ivs0) :
                      (Int × Int) × List (interval α)) ∈
                      nodesOf (node l s e last ivs0 r) := by
                    simp [nodesOf]
                  have hTin : ((k, ivsT) :
                      (Int × Int) × List (interval α)) ∈
                      nodesOf (node l s e last ivs0 r) := by
                    simp only [nodesOf, List.mem_append, List.mem_cons]
                    tauto
                  have hends := hs ((s, e), ivs0) hself (k, ivsT) hTin
                    (by dsimp only; omega) (by dsimp only; exact h2)
                  by_cases hcc : k.2 == found.end_
                  · rw [if_pos hcc]
                    obtain ⟨_, hatt⟩ := ivsMaxEnd_spec hne
                      (fun i hi => (hTok.2.1 i
                        (List.mem_of_mem_eraseP hi)).2.2)
                    obtain ⟨j, hj, hje⟩ := hatt
                    have := hends j (List.mem_of_mem_eraseP hj)
                    dsimp only at this
                    unfold keyLt
                    dsimp only
                    omega
                  · rw [if_neg hcc]
                    unfold keyLt at h2 ⊢
                    dsimp only at *
                    omega
                · unfold keyLt at h2 ⊢
                  dsimp only at *
                  omega
              · exact hrk κ (by
                  rw [keysOf_eq_map, hc1]
                  simp only [List.map_append, List.map_cons,
                    List.mem_append, List.mem_cons]
                  tauto)
            · rw [keysOf_eq_map, hc3] at hκ
              simp only [List.map_append, List.mem_append] at hκ
              exact hrk κ (by
                  rw [keysOf_eq_map, hc1]
                  simp only [List.map_append, List.map_cons,
                    List.mem_append, List.mem_cons]
                  tauto)
          refine ⟨⟨hlk, hkeysub, hol, hor'⟩,
            ⟨by rw [recomputeLast_eq], hLl, hlr'⟩,
            nodesOf l ++ ((s, e), ivs0) :: pre, ivsT, found, post, ?_,
            hc2, ?_⟩
          · simp [nodesOf, hc1]
          · rcases hc3 with ⟨hne, hc3⟩ | ⟨hemp, hc3⟩
            · exact Or.inl ⟨hne, by simp [nodesOf, hc3]⟩
            · exact Or.inr ⟨hemp, by simp [nodesOf, hc3]⟩
      · -- the target node
        have hke := keyLt_here_eq h1 h2
        simp only [delFromNode, if_neg h1, if_neg h2] at hdel
        rcases hfind : ivs0.find? (fun i => i.id == dId) with _ | found
        · simp only [hfind] at hdel
          exact Option.noConfusion hdel
        · simp only [hfind] at hdel
          have hok : nodeOK s e ivs0 := NodesOK.here hn
          by_cases hemp : (ivs0.eraseP (fun i => i.id == dId)).isEmpty
          · rw [if_pos hemp] at hdel
            injection hdel with hdel
            subst hdel
            have hempl : ivs0.eraseP (fun i => i.id == dId) = [] :=
              List.isEmpty_iff.1 hemp
            refine ⟨?_, removeRoot_lastOK hLl hLr, nodesOf l, ivs0, found,
              nodesOf r, by simp [nodesOf, hke], hfind,
              Or.inr ⟨hempl, removeRoot_nodesOf l r⟩⟩
            -- Ordered (removeRoot l r)
            cases r with
            | leaf => exact hol
            | node rl rs re rlast rivs rr =>
              obtain ⟨hrk2, hrk3, horl, horr⟩ := id hor
              simp only [removeRoot]
              have hkeych := extractMin_keysOf rl rs re rivs rr
              have hminmem : (extractMin rl rs re rivs rr).1.1 ∈
                  keysOf (node rl rs re rlast rivs rr) := by
                have h9 : keysOf (node rl rs re rlast rivs rr) =
                    keysOf rl ++ (rs, re) :: keysOf rr := by
                  simp [keysOf]
                rw [h9, ← hkeych]
                simp
              refine ⟨?_, ?_, hol, ?_⟩
              · intro κ hκ
                exact keyLt_trans (hlk κ hκ) (hrk _ hminmem)
              · intro κ hκ
                have hpw := Ordered_pairwise hor
                rw [show keysOf (node rl rs re rlast rivs rr) =
                  keysOf rl ++ (rs, re) :: keysOf rr by simp [keysOf],
                  ← hkeych] at hpw
                exact (List.pairwise_cons.1 hpw).1 κ hκ
              · exact extractMin_ordered horl horr hrk2 hrk3
          · rw [if_neg hemp] at hdel
            injection hdel with hdel
            subst hdel
            have hnemp : ivs0.eraseP (fun i => i.id == dId) ≠ [] := by
              intro hc; rw [hc] at hemp; simp at hemp
            refine ⟨?_, ⟨by rw [recomputeLast_eq], hLl, hLr⟩,
              nodesOf l, ivs0, found, nodesOf r,
              by simp [nodesOf, hke], hfind, Or.inl ⟨hnemp, by
                simp [nodesOf, hke]⟩⟩
            have hnewle : (if e == found.end_
                then ivsMaxEnd (ivs0.eraseP (fun i => i.id == dId))
                else e) ≤ e := by
              by_cases hcc : e == found.end_
              · rw [if_pos hcc]
                obtain ⟨_, hatt⟩ := ivsMaxEnd_spec hnemp
                  (fun i hi => (hok.2.1 i (List.mem_of_mem_eraseP hi)).2.2)
                obtain ⟨j, hj, hje⟩ := hatt
                rw [← hje]
                exact (hok.2.1 j (List.mem_of_mem_eraseP hj)).2.1
              · rw [if_neg hcc]
            refine ⟨?_, ?_, hol, hor⟩
            · -- left keys stay below the (possibly shrunk) node key
              intro κ hκ
              by_cases hss : κ.1 = s
              · by_cases hcc : e == found.end_
                · rw [if_pos hcc]
                  obtain ⟨_, hatt⟩ := ivsMaxEnd_spec hnemp
                    (fun i hi => (hok.2.1 i (List.mem_of_mem_eraseP hi)).2.2)
                  obtain ⟨j, hj, hje⟩ := hatt
                  have hκnode : ∃ p ∈ nodesOf l, p.1 = κ := by
                    rw [keysOf_eq_map] at hκ
                    obtain ⟨p, hp, hpe⟩ := List.mem_map.1 hκ
                    exact ⟨p, hp, hpe⟩
                  obtain ⟨p, hp, hpe⟩ := hκnode
                  have hpmem : p ∈ nodesOf (node l s e last ivs0 r) := by
                    simp only [nodesOf, List.mem_append, List.mem_cons]
                    left; left; exact hp
                  have hself : (((s, e), ivs0) :
                      (Int × Int) × List (interval α)) ∈
                      nodesOf (node l s e last ivs0 r) := by
                    simp [nodesOf]
                  have hends := hs p hpmem ((s, e), ivs0) hself
                    (by dsimp only; rw [hpe]; exact hss)
                    (by rw [hpe]; exact hlk κ hκ)
                  have hj2 := hends j (List.mem_of_mem_eraseP hj)
                  unfold keyLt
                  dsimp only
                  rw [hpe] at hj2
                  omega
                · rw [if_neg hcc]
                  exact hlk κ hκ
              · have := hlk κ hκ
                unfold keyLt at this ⊢
                dsimp only at *
                omega
            · intro κ hκ
              exact keyLt_snd_le (hrk κ hκ) hnewle

/-- A `find?` hit splits the list at the first match, and `eraseP` removes
exactly that element. -/
theorem find_eraseP_decomp {β : Type} {p : β → Bool} :
    ∀ {l : List β} {a : β}, l.find? p = some a →
      ∃ l₁ l₂, l = l₁ ++ a :: l₂ ∧ (∀ b ∈ l₁, ¬ p b) ∧
        l.eraseP p = l₁ ++ l₂ := by
  intro l
  induction l with
  | nil => intro a h; simp at h
  | cons x xs ih =>
    intro a h
    by_cases hx : p x
    · rw [List.find?_cons_of_pos _ hx] at h
      injection h with h
      subst h
      exact ⟨[], xs, rfl, by simp, by simp [List.eraseP_cons, hx]⟩
    · rw [List.find?_cons_of_neg _ hx] at h
      obtain ⟨l₁, l₂, h1, h2, h3⟩ := ih h
      refine ⟨x :: l₁, l₂, by rw [List.cons_append, h1], ?_, ?_⟩
      · intro b hb
        rcases List.mem_cons.1 hb with hb | hb
        · subst hb; exact hx
        · exact h2 b hb
      · simp [List.eraseP_cons, hx, h3]

/-- After a delete that leaves the node nonempty, the recomputed node `end`
never exceeds the old one. -/
theorem del_newEnd_le {k : Int × Int} {dId : Nat} {ivs : List (interval α)}
    {found : interval α} (hok : nodeOK k.1 k.2 ivs)
    (hfind : ivs.find? (fun i => i.id == dId) = some found)
    (hne : ivs.eraseP (fun i => i.id == dId) ≠ []) :
    (if k.2 == found.end_ then ivsMaxEnd (ivs.eraseP (fun i => i.id == dId))
      else k.2) ≤ k.2 := by
  by_cases hc : k.2 == found.end_
  · rw [if_pos hc]
    obtain ⟨_, j, hj, hje⟩ := ivsMaxEnd_spec hne
      (fun i hi => (hok.2.1 i (List.mem_of_mem_eraseP hi)).2.2)
    rw [← hje]
    exact (hok.2.1 j (List.mem_of_mem_eraseP hj)).2.1
  · rw [if_neg hc]

/-- If every interval of the node ends strictly beyond `x`, so does the
recomputed node `end`. -/
theorem del_newEnd_gt {k : Int × Int} {dId : Nat} {ivs : List (interval α)}
    {found : interval α} (hok : nodeOK k.1 k.2 ivs)
    (hfind : ivs.find? (fun i => i.id == dId) = some found)
    (hne : ivs.eraseP (fun i => i.id == dId) ≠ []) {x : Int}
    (hall : ∀ i ∈ ivs, x < i.end_) :
    x < (if k.2 == found.end_
      then ivsMaxEnd (ivs.eraseP (fun i => i.id == dId)) else k.2) := by
  by_cases hc : k.2 == found.end_
  · rw [if_pos hc]
    obtain ⟨_, j, hj, hje⟩ := ivsMaxEnd_spec hne
      (fun i hi => (hok.2.1 i (List.mem_of_mem_eraseP hi)).2.2)
    rw [← hje]
    exact hall j (List.mem_of_mem_eraseP hj)
  · rw [if_neg hc]
    obtain ⟨j, hj, hje⟩ := hok.2.2.1
    rw [← hje]
    exact hall j hj

/-- `NodesOK` survives a delete, given the node-level characterization
produced by `delFromNode_spec`. -/
theorem nodesOK_of_del_char {t t' : interval_tree α} {k : Int × Int}
    {dId : Nat} {pre post : List ((Int × Int) × List (interval α))}
    {ivs : List (interval α)} {found : interval α}
    (hn : NodesOK t)
    (h1 : nodesOf t = pre ++ ((k, ivs) :: post))
    (h2 : ivs.find? (fun i => i.id == dId) = some found)
    (h3 : (ivs.eraseP (fun i => i.id == dId) ≠ [] ∧
        nodesOf t' = pre ++
          (((k.1, if k.2 == found.end_
              then ivsMaxEnd (ivs.eraseP (fun i => i.id == dId))
              else k.2),
            ivs.eraseP (fun i => i.id == dId)) :: post)) ∨
      (ivs.eraseP (fun i => i.id == dId) = [] ∧
        nodesOf t' = pre ++ post)) :
    NodesOK t' := by
  have hok : nodeOK k.1 k.2 ivs := hn (k, ivs) (by rw [h1]; simp)
  intro q hq
  rcases h3 with ⟨hne, hchar⟩ | ⟨hemp, hchar⟩
  · rw [hchar] at hq
    rcases List.mem_append.1 hq with hq | hq
    · exact hn q (by rw [h1]; exact List.mem_append_left _ hq)
    · rcases List.mem_cons.1 hq with hq | hq
      · subst hq
        dsimp only
        refine ⟨hne, ?_, ?_, hok.2.2.2⟩
        · intro i hi
          obtain ⟨ha, hb, hc⟩ := hok.2.1 i (List.mem_of_mem_eraseP hi)
          refine ⟨ha, ?_, hc⟩
          by_cases hcc : k.2 == found.end_
          · rw [if_pos hcc]
            exact (ivsMaxEnd_spec hne (fun j hj =>
              (hok.2.1 j (List.mem_of_mem_eraseP hj)).2.2)).1 i hi
          · rw [if_neg hcc]; exact hb
        · by_cases hcc : k.2 == found.end_
          · rw [if_pos hcc]
            exact (ivsMaxEnd_spec hne (fun j hj =>
              (hok.2.1 j (List.mem_of_mem_eraseP hj)).2.2)).2
          · rw [if_neg hcc]
            obtain ⟨j, hj, hje⟩ := hok.2.2.1
            have hjne : j ≠ found := by
              intro hcon
              apply hcc
              rw [← hcon, hje]
              exact beq_self_eq_true k.2
            obtain ⟨l₁, l₂, hdec, _, herase⟩ := find_eraseP_decomp h2
            refine ⟨j, ?_, hje⟩
            rw [herase]
            rw [hdec] at hj
            rcases List.mem_append.1 hj with hj | hj
            · exact List.mem_append_left _ hj
            · rcases List.mem_cons.1 hj with hj | hj
              · exact absurd hj hjne
              · exact List.mem_append_right _ hj
      · exact hn q (by
          rw [h1]
          exact List.mem_append_right _ (List.mem_cons_of_mem _ hq))
  · rw [hchar] at hq
    rcases List.mem_append.1 hq with hq | hq
    · exact hn q (by rw [h1]; exact List.mem_append_left _ hq)
    · exact hn q (by
        rw [h1]
        exact List.mem_append_right _ (List.mem_cons_of_mem _ hq))

/-- In an ordered tree the node keys are pairwise distinct, so an entry of
`pre ++ post` never carries the deleted node's key. -/
theorem key_not_in_rest {t : interval_tree α} (ho : Ordered t)
    {k : Int × Int} {ivs : List (interval α)}
    {pre post : List ((Int × Int) × List (interval α))}
    (h1 : nodesOf t = pre ++ ((k, ivs) :: post)) :
    ∀ q ∈ pre ++ post, q.1 ≠ k := by
  have hpw := Ordered_pairwise ho
  rw [keysOf_eq_map, h1] at hpw
  simp only [List.map_append, List.map_cons] at hpw
  intro q hq hqe
  rcases List.mem_append.1 hq with hq | hq
  · have := (List.pairwise_append.1 hpw).2.2 q.1
      (List.mem_map_of_mem _ hq) k (List.mem_cons_self _ _)
    rw [hqe] at this
    exact keyLt_irrefl k this
  · have h5 := (List.pairwise_append.1 hpw).2.1
    have := (List.pairwise_cons.1 h5).1 q.1 (List.mem_map_of_mem _ hq)
    rw [hqe] at this
    exact keyLt_irrefl k this

/-- `Sep` survives a delete. -/
theorem sep_of_del_char {t t' : interval_tree α} {k : Int × Int}
    {dId : Nat} {pre post : List ((Int × Int) × List (interval α))}
    {ivs : List (interval α)} {found : interval α}
    (ho : Ordered t) (hn : NodesOK t) (hs : Sep t)
    (h1 : nodesOf t = pre ++ ((k, ivs) :: post))
    (h2 : ivs.find? (fun i => i.id == dId) = some found)
    (h3 : (ivs.eraseP (fun i => i.id == dId) ≠ [] ∧
        nodesOf t' = pre ++
          (((k.1, if k.2 == found.end_
              then ivsMaxEnd (ivs.eraseP (fun i => i.id == dId))
              else k.2),
            ivs.eraseP (fun i => i.id == dId)) :: post)) ∨
      (ivs.eraseP (fun i => i.id == dId) = [] ∧
        nodesOf t' = pre ++ post)) :
    Sep t' := by
  have hok : nodeOK k.1 k.2 ivs := hn (k, ivs) (by rw [h1]; simp)
  have hkm : ((k, ivs) : (Int × Int) × List (interval α)) ∈ nodesOf t := by
    rw [h1]; simp
  have hold : ∀ x ∈ pre ++ post, x ∈ nodesOf t := by
    intro x hx
    rw [h1]
    rcases List.mem_append.1 hx with hx | hx
    · exact List.mem_append_left _ hx
    · exact List.mem_append_right _ (List.mem_cons_of_mem _ hx)
  have hkey := key_not_in_rest ho h1
  intro p hp q hq hstart hlt i hi
  rcases h3 with ⟨hne, hchar⟩ | ⟨hemp, hchar⟩
  · set e2 : Int := (if k.2 == found.end_
      then ivsMaxEnd (ivs.eraseP (fun i => i.id == dId)) else k.2) with he2
    set ivs2 := ivs.eraseP (fun i => i.id == dId) with hivs2
    have he2le : e2 ≤ k.2 := by
      have := del_newEnd_le hok h2 hne
      rw [← he2] at this
      exact this
    rw [hchar] at hp hq
    have hmp : p ∈ pre ++ post ∨ p = ((k.1, e2), ivs2) := by
      rcases List.mem_append.1 hp with h | h
      · exact Or.inl (List.mem_append_left _ h)
      · rcases List.mem_cons.1 h with h | h
        · exact Or.inr h
        · exact Or.inl (List.mem_append_right _ h)
    have hmq : q ∈ pre ++ post ∨ q = ((k.1, e2), ivs2) := by
      rcases List.mem_append.1 hq with h | h
      · exact Or.inl (List.mem_append_left _ h)
      · rcases List.mem_cons.1 h with h | h
        · exact Or.inr h
        · exact Or.inl (List.mem_append_right _ h)
    rcases hmp with hmp | hmp <;> rcases hmq with hmq | hmq
    · exact hs p (hold p hmp) q (hold q hmq) hstart hlt i hi
    · subst hmq
      dsimp only at hstart hlt hi
      have hklt : keyLt p.1 k := by
        unfold keyLt at hlt ⊢
        dsimp only at hlt
        omega
      exact hs p (hold p hmp) (k, ivs) hkm hstart hklt i
        (by rw [hivs2] at hi; exact List.mem_of_mem_eraseP hi)
    · subst hmp
      dsimp only at hstart hlt ⊢
      have hqk := hkey q hmq
      rcases lt_trichotomy q.1.2 k.2 with hqq | hqq | hqq
      · have hql : keyLt q.1 k := by unfold keyLt; omega
        have hall : ∀ j ∈ ivs, q.1.2 < j.end_ :=
          hs q (hold q hmq) (k, ivs) hkm hstart.symm hql
        have hgt := del_newEnd_gt hok h2 hne hall
        rw [← he2] at hgt
        exfalso
        unfold keyLt at hlt
        dsimp only at hlt
        omega
      · exact absurd (Prod.ext hstart.symm hqq) hqk
      · have hql : keyLt k q.1 := by unfold keyLt; omega
        have hall := hs (k, ivs) hkm q (hold q hmq) hstart hql i hi
        dsimp only at hall
        omega
    · subst hmp
      subst hmq
      exact absurd hlt (keyLt_irrefl _)
  · rw [hchar] at hp hq
    exact hs p (hold p hp) q (hold q hq) hstart hlt i hi

/-- Extracting the first hit of a list out of an in-place list update, as a
permutation. -/
theorem perm_extract {β : Type} (P l₁ l₂ Q : List β) (a : β) :
    (P ++ ((l₁ ++ a :: l₂) ++ Q)).Perm (a :: (P ++ ((l₁ ++ l₂) ++ Q))) := by
  have h := @List.perm_middle β a (P ++ l₁) (l₂ ++ Q)
  have e1 : (P ++ l₁) ++ a :: (l₂ ++ Q) = P ++ ((l₁ ++ a :: l₂) ++ Q) := by
    simp [List.append_assoc]
  have e2 : a :: ((P ++ l₁) ++ (l₂ ++ Q)) = a :: (P ++ ((l₁ ++ l₂) ++ Q)) := by
    simp [List.append_assoc]
  rw [e1, e2] at h
  exact h

/-- A delete removes exactly the found interval from the stored multiset. -/
theorem allIvs_of_del_char {t t' : interval_tree α} {k : Int × Int}
    {dId : Nat} {pre post : List ((Int × Int) × List (interval α))}
    {ivs : List (interval α)} {found : interval α}
    (h1 : nodesOf t = pre ++ ((k, ivs) :: post))
    (h2 : ivs.find? (fun i => i.id == dId) = some found)
    (h3 : (ivs.eraseP (fun i => i.id == dId) ≠ [] ∧
        nodesOf t' = pre ++
          (((k.1, if k.2 == found.end_
              then ivsMaxEnd (ivs.eraseP (fun i => i.id == dId))
              else k.2),
            ivs.eraseP (fun i => i.id == dId)) :: post)) ∨
      (ivs.eraseP (fun i => i.id == dId) = [] ∧
        nodesOf t' = pre ++ post)) :
    (allIvs t).Perm (found :: allIvs t') := by
  obtain ⟨l₁, l₂, hdec, _, herase⟩ := find_eraseP_decomp h2
  rcases h3 with ⟨hne, hchar⟩ | ⟨hemp, hchar⟩
  · rw [allIvs_eq_bind, allIvs_eq_bind, h1, hchar]
    simp only [List.flatMap_append, List.flatMap_cons]
    rw [herase, hdec]
    exact perm_extract _ _ _ _ _
  · obtain ⟨hl1, hl2⟩ := List.append_eq_nil.1 (by rw [← herase]; exact hemp)
    subst hl1
    subst hl2
    rw [allIvs_eq_bind, allIvs_eq_bind, h1, hchar]
    simp only [List.flatMap_append, List.flatMap_cons]
    rw [hdec]
    simp only [List.nil_append, List.singleton_append]
    exact List.perm_middle

/-- `delFromNode` preserves the full invariant and removes exactly one
interval, whose `id` matches the searched address. -/
theorem delFromNode_inv {t t' : interval_tree α} {k : Int × Int} {dId : Nat}
    (hinv : Inv t) (hdel : delFromNode t k dId = some t') :
    Inv t' ∧ ∃ found : interval α,
      (found.id == dId) = true ∧ (allIvs t).Perm (found :: allIvs t') := by
  obtain ⟨ho, hn, hL, hsp⟩ := hinv
  obtain ⟨ho2, hL2, pre, ivs, found, post, h1, h2, h3⟩ :=
    delFromNode_spec ho hn hL hsp hdel
  refine ⟨⟨ho2, nodesOK_of_del_char hn h1 h2 h3, hL2,
    sep_of_del_char ho hn hsp h1 h2 h3⟩, found,
    ?_, allIvs_of_del_char h1 h2 h3⟩
  have hfd := List.find?_some h2
  simpa using hfd

/-- A successful `interval_tree_del` preserves the invariant and removes
exactly one interval carrying the searched address. -/
theorem interval_tree_del_spec {t t' : interval_tree α}
    {ivrec : interval α} (hinv : Inv t)
    (hdel : interval_tree_del t ivrec = some t') :
    Inv t' ∧ ∃ found : interval α,
      (found.id == ivrec.id) = true ∧
      (allIvs t).Perm (found :: allIvs t') := by
  unfold interval_tree_del at hdel
  rcases hfind : RB_NFIND t (ivrec.start, ivrec.end_) with _ | kk
  · rw [hfind] at hdel
    exact Option.noConfusion hdel
  · rw [hfind] at hdel
    exact delFromNode_inv hinv hdel

/-- Under the invariants, `RB_NFIND` on a stored interval's own key lands
exactly on the node holding it: the key separation recorded by `Sep` rules
out any smaller same-start node key above the interval's `end`. -/
theorem RB_NFIND_stored {t : interval_tree α} (ho : Ordered t)
    (hn : NodesOK t) (hs : Sep t)
    {p : (Int × Int) × List (interval α)} (hp : p ∈ nodesOf t)
    {iv : interval α} (hiv : iv ∈ p.2) :
    RB_NFIND t (iv.start, iv.end_) = some p.1 := by
  obtain ⟨hs1, hs2, hs3⟩ := (hn p hp).2.1 iv hiv
  have hkmem : p.1 ∈ keysOf t := fst_mem_keysOf hp
  have hnlt : ¬ keyLt p.1 (iv.start, iv.end_) := by
    unfold keyLt
    dsimp only
    omega
  rcases hf : RB_NFIND t (iv.start, iv.end_) with _ | kk
  · exact absurd (RB_NFIND_none_aux ho hf p.1 hkmem) hnlt
  · have hkkmem := RB_NFIND_mem hf
    have hkkge := RB_NFIND_ge hf
    have hleast := RB_NFIND_least ho hf p.1 hkmem hnlt
    rcases keyLt_trichot kk p.1 with h | h | h
    · exfalso
      rw [keysOf_eq_map] at hkkmem
      obtain ⟨q, hq, hqe⟩ := List.mem_map.1 hkkmem
      rw [← hqe] at h hkkge
      have hq2 : q.1.2 < iv.end_ :=
        hs q hq p hp
          (by unfold keyLt at h hkkge; omega) h iv hiv
      unfold keyLt at h hkkge
      omega
    · rw [h]
    · exact absurd h hleast

/-- Descending by the key of a stored node, `delFromNode` always reaches
that node; when the node's list holds a matching interval the delete
returns a tree (the C function returns `0`, not `-1`). -/
theorem delFromNode_some {t : interval_tree α} (ho : Ordered t) :
    ∀ {p : (Int × Int) × List (interval α)}, p ∈ nodesOf t →
      ∀ {dId : Nat} {found : interval α},
        p.2.find? (fun i => i.id == dId) = some found →
        ∃ t', delFromNode t p.1 dId = some t' := by
  induction t with
  | leaf => intro p hp; simp [nodesOf] at hp
  | node l s e last ivs r ihl ihr =>
    intro p hp dId found hfind
    obtain ⟨hlk, hrk, hol, hor⟩ := ho
    have hp2 : p ∈ nodesOf l ∨ p = ((s, e), ivs) ∨ p ∈ nodesOf r := by
      simp only [nodesOf, List.mem_append, List.mem_cons,
        List.mem_singleton] at hp
      tauto
    rcases hp2 with hp2 | hp2 | hp2
    · have hklt : keyLt p.1 (s, e) := hlk p.1 (fst_mem_keysOf hp2)
      obtain ⟨l2, hl2⟩ := ihl hol hp2 hfind
      exact ⟨node l2 s e (recomputeLast e l2 r) ivs r,
        by simp only [delFromNode, if_pos hklt, hl2]⟩
    · subst hp2
      dsimp only at hfind
      by_cases hemp : (ivs.eraseP (fun i => i.id == dId)).isEmpty
      · refine ⟨removeRoot l r, ?_⟩
        simp only [delFromNode, if_neg (keyLt_irrefl (s, e)), hfind,
          if_pos hemp]
      · refine ⟨node l s
            (if e == found.end_
              then ivsMaxEnd (ivs.eraseP (fun i => i.id == dId)) else e)
            (recomputeLast
              (if e == found.end_
                then ivsMaxEnd (ivs.eraseP (fun i => i.id == dId)) else e)
              l r)
            (ivs.eraseP (fun i => i.id == dId)) r, ?_⟩
        simp only [delFromNode, if_neg (keyLt_irrefl (s, e)), hfind,
          if_neg hemp]
    · have hklt : keyLt (s, e) p.1 := hrk p.1 (fst_mem_keysOf hp2)
      obtain ⟨r2, hr2⟩ := ihr hor hp2 hfind
      exact ⟨node l s e (recomputeLast e l r2) ivs r2, by
        simp only [delFromNode, if_neg (keyLt_asymm hklt),
          if_pos hklt, hr2]⟩

/-- Deleting an interval that is stored in the tree always succeeds,
preserves the invariants and address-uniqueness, and removes exactly that
interval. -/
theorem interval_tree_del_success {t : interval_tree α} (hinv : Inv t)
    (hnd : IdsNodup t) {iv : interval α} (hmem : iv ∈ allIvs t) :
    ∃ t', interval_tree_del t iv = some t' ∧ Inv t' ∧ IdsNodup t' ∧
      (allIvs t).Perm (iv :: allIvs t') := by
  obtain ⟨p, hp, hivp⟩ := mem_allIvs_iff.1 hmem
  rcases hfd : p.2.find? (fun i => i.id == iv.id) with _ | found
  · exfalso
    have := List.find?_eq_none.1 hfd iv hivp
    simp at this
  · obtain ⟨t', ht2⟩ := delFromNode_some hinv.1 hp hfd
    have hdel : interval_tree_del t iv = some t' := by
      unfold interval_tree_del
      rw [RB_NFIND_stored hinv.1 hinv.2.1 hinv.2.2.2 hp hivp]
      exact ht2
    obtain ⟨hinv2, found2, hfid, hperm⟩ := interval_tree_del_spec hinv hdel
    have hfmem : found2 ∈ allIvs t :=
      hperm.mem_iff.2 (List.mem_cons_self _ _)
    have hfeq : found2 = iv := by
      have hinj := List.inj_on_of_nodup_map hnd
      exact hinj hfmem hmem (by simpa using hfid)
    subst hfeq
    refine ⟨t', hdel, hinv2, ?_, hperm⟩
    have hmap := hperm.map interval.id
    have := hmap.nodup_iff.1 hnd
    exact (List.nodup_cons.1 (by simpa using this)).2

/-- Every stored interval ends at or below the subtree's `last`. -/
theorem end_le_lastD {t : interval_tree α} (hn : NodesOK t) (hL : LastOK t) :
    ∀ i ∈ allIvs t, ∀ d : Int, i.end_ ≤ lastD t d := by
  induction t with
  | leaf => intro i hi; simp [allIvs] at hi
  | node l s e last ivs r ihl ihr =>
    intro i hi d
    simp only [allIvs, List.mem_append] at hi
    obtain ⟨hlst, hLl, hLr⟩ := hL
    dsimp only [lastD]
    rcases hi with (hi | hi) | hi
    · have := ihl (NodesOK_left hn) hLl i hi e
      omega
    · have := ((NodesOK.here hn).2.1 i hi).2.1
      omega
    · have := ihr (NodesOK_right hn) hLr i hi e
      omega

/-- Every interval stored in a right subtree starts at or after the parent
node's `start`. -/
theorem start_ge_of_right {r : interval_tree α} (hn : NodesOK r)
    {s e : Int} (hrk : ∀ k ∈ keysOf r, keyLt (s, e) k) :
    ∀ i ∈ allIvs r, s ≤ i.start := by
  intro i hi
  obtain ⟨p, hp, hip⟩ := mem_allIvs_iff.1 hi
  obtain ⟨ha, _, _⟩ := (hn p hp).2.1 i hip
  have h2 := hrk p.1 (fst_mem_keysOf hp)
  unfold keyLt at h2
  omega

/-- The left-descent guard of `interval_recurse`: when the left child is
skipped because its `last` falls short of the query start, no interval of
that subtree passes the range test. -/
theorem recurse_left_prune {l : interval_tree α} (hn : NodesOK l)
    (hL : LastOK l) {lo hi : Int}
    (hrec : interval_recurse l lo hi =
      (allIvs l).filter (fun i => i.start ≤ hi ∧ i.end_ ≥ lo)) :
    (match l with
      | leaf => []
      | node _ _ _ llast _ _ =>
        if llast ≥ lo then interval_recurse l lo hi else []) =
      (allIvs l).filter (fun i => i.start ≤ hi ∧ i.end_ ≥ lo) := by
  cases l with
  | leaf => simp [allIvs]
  | node ll ls le llast livs lr =>
    show (if llast ≥ lo then
        interval_recurse (node ll ls le llast livs lr) lo hi else []) =
      (allIvs (node ll ls le llast livs lr)).filter
        (fun i => i.start ≤ hi ∧ i.end_ ≥ lo)
    by_cases hll : llast ≥ lo
    · rw [if_pos hll]
      exact hrec
    · rw [if_neg hll]
      symm
      rw [List.filter_eq_nil_iff]
      intro i hi2
      have := end_le_lastD hn hL i hi2 lo
      dsimp only [lastD] at this
      simp only [decide_eq_true_eq]
      intro hcon
      omega

/-- The right-descent guard of `interval_recurse`: when the right child is
skipped because the node starts past the query end, no interval of the
right subtree passes the range test. -/
theorem recurse_right_prune {r : interval_tree α} (hn : NodesOK r)
    {lo hi s e : Int} (hrk : ∀ k ∈ keysOf r, keyLt (s, e) k)
    (hrec : interval_recurse r lo hi =
      (allIvs r).filter (fun i => i.start ≤ hi ∧ i.end_ ≥ lo)) :
    (match r with
      | leaf => []
      | node _ _ _ _ _ _ =>
        if s ≤ hi then interval_recurse r lo hi else []) =
      (allIvs r).filter (fun i => i.start ≤ hi ∧ i.end_ ≥ lo) := by
  cases r with
  | leaf => simp [allIvs]
  | node rl rs re rlast rivs rr =>
    show (if s ≤ hi then
        interval_recurse (node rl rs re rlast rivs rr) lo hi else []) =
      (allIvs (node rl rs re rlast rivs rr)).filter
        (fun i => i.start ≤ hi ∧ i.end_ ≥ lo)
    by_cases hsh : s ≤ hi
    · rw [if_pos hsh]
      exact hrec
    · rw [if_neg hsh]
      symm
      rw [List.filter_eq_nil_iff]
      intro i hi2
      have := start_ge_of_right hn hrk i hi2
      simp only [decide_eq_true_eq]
      intro hcon
      omega

/-- The pruned traversal `interval_recurse` returns exactly the brute-force
filter of the stored intervals, in storage order: each pruning step only
ever skips intervals that fail the range test. -/
theorem interval_recurse_eq_filter {t : interval_tree α} (ho : Ordered t)
    (hn : NodesOK t) (hL : LastOK t) (lo hi : Int) :
    interval_recurse t lo hi =
      (allIvs t).filter (fun i => i.start ≤ hi ∧ i.end_ ≥ lo) := by
  induction t with
  | leaf => rfl
  | node l s e last ivs r ihl ihr =>
    obtain ⟨hlk, hrk, hol, hor⟩ := ho
    obtain ⟨hlst, hLl, hLr⟩ := hL
    have hok := NodesOK.here hn
    have hA := recurse_left_prune (NodesOK_left hn) hLl (ihl hol (NodesOK_left hn) hLl)
    have hC := recurse_right_prune (NodesOK_right hn) hrk (ihr hor (NodesOK_right hn) hLr)
    have hB : (if hi ≥ s ∧ lo ≤ e then
          ivs.filter (fun i => i.start ≤ hi ∧ i.end_ ≥ lo)
        else []) =
        ivs.filter (fun i => i.start ≤ hi ∧ i.end_ ≥ lo) := by
      by_cases hc : hi ≥ s ∧ lo ≤ e
      · rw [if_pos hc]
      · rw [if_neg hc]
        symm
        rw [List.filter_eq_nil_iff]
        intro i hi2
        obtain ⟨ha, hb, _⟩ := hok.2.1 i hi2
        simp only [decide_eq_true_eq]
        intro hcon
        exact hc ⟨by omega, by omega⟩
    rw [show allIvs (node l s e last ivs r) = allIvs l ++ ivs ++ allIvs r
      from rfl]
    rw [List.filter_append, List.filter_append, ← hA, ← hB, ← hC]
    rfl

/-- One call of the public mutation API: `interval_tree_add`, or
`interval_tree_del` (which leaves the tree unchanged when it returns
`-1`). -/
inductive TreeOp (α : Type) where
  | add (start end_ : Int) (ivid : Nat) (d : α)
  | del (ivrec : interval α)

/-- The `int`-range facts the C caller gets for free from the types of
`interval.start` and `interval.end`. -/
def TreeOp.valid : TreeOp α → Prop
  | .add s e _ _ => INT_MIN ≤ e ∧ s ≤ INT_MAX
  | .del _ => True

/-- Run one API call; a failing delete returns `-1` and leaves the tree
unchanged. -/
def runOp (t : interval_tree α) : TreeOp α → interval_tree α
  | .add s e i d => interval_tree_add t s e i d
  | .del ivrec => (interval_tree_del t ivrec).getD t

/-- Run a sequence of API calls starting from a given tree. -/
def runOps (t : interval_tree α) (ops : List (TreeOp α)) : interval_tree α :=
  ops.foldl runOp t

/-- Every tree reachable by the public API keeps the full invariant. -/
theorem runOps_inv {ops : List (TreeOp α)} :
    ∀ {t : interval_tree α}, Inv t → (∀ op ∈ ops, op.valid) →
      Inv (runOps t ops) := by
  induction ops with
  | nil => intro t h _; exact h
  | cons op rest ih =>
    intro t h hv
    have h1 : Inv (runOp t op) := by
      cases op with
      | add s e i d =>
        have hvo := hv _ (List.mem_cons_self _ _)
        exact (interval_tree_add_spec h hvo.1 hvo.2 i d).1
      | del ivrec =>
        rcases hdel : interval_tree_del t ivrec with _ | t2
        · simpa [runOp, hdel] using h
        · have := (interval_tree_del_spec h hdel).1
          simpa [runOp, hdel] using this
    have h2 := ih h1 (fun op2 hop => hv op2 (List.mem_cons_of_mem _ hop))
    simpa [runOps] using h2

/-- The insertion pattern of the specification's stress test: intervals are
added one at a time, each fresh `interval` record getting a fresh address
(modelled by consecutive `id`s). -/
def buildAux (t : interval_tree Unit) (n : Nat) :
    List (Int × Int) → interval_tree Unit
  | [] => t
  | sp :: rest => buildAux (interval_tree_add t sp.1 sp.2 n ()) (n + 1) rest

/-- Build a tree from a list of `(start, end)` pairs starting from the
empty tree. -/
def buildTree (specs : List (Int × Int)) : interval_tree Unit :=
  buildAux leaf 0 specs

/-- Delete a staged list of intervals one at a time, failing (like the C
`-1` return) if any single delete fails. -/
def deleteAll (t : interval_tree Unit) :
    List (interval Unit) → Option (interval_tree Unit)
  | [] => some t
  | iv :: rest =>
    match interval_tree_del t iv with
    | none => none
    | some t2 => deleteAll t2 rest

/-- Building from fresh addresses preserves the invariant, address
uniqueness, and the stored multiset. -/
theorem buildAux_spec :
    ∀ (specs : List (Int × Int)) (t : interval_tree Unit) (n : Nat),
      (∀ sp ∈ specs, INT_MIN ≤ sp.2 ∧ sp.1 ≤ INT_MAX) → Inv t →
      (∀ j ∈ (allIvs t).map interval.id, j < n) → IdsNodup t →
      Inv (buildAux t n specs) ∧ IdsNodup (buildAux t n specs) := by
  intro specs
  induction specs with
  | nil => intro t n _ h1 _ h3; exact ⟨h1, h3⟩
  | cons sp rest ih =>
    intro t n hv h1 hbound h3
    have hvsp := hv sp (List.mem_cons_self _ _)
    obtain ⟨hinv2, hperm⟩ := interval_tree_add_spec h1 hvsp.1 hvsp.2 n ()
    have hmap := hperm.map interval.id
    have hbound2 : ∀ j ∈ (allIvs (interval_tree_add t sp.1 sp.2 n ())).map
        interval.id, j < n + 1 := by
      intro j hj
      have hj2 := hmap.subset hj
      simp only [List.map_cons] at hj2
      rcases List.mem_cons.1 hj2 with hj2 | hj2
      · omega
      · have := hbound j hj2
        omega
    have hnd2 : IdsNodup (interval_tree_add t sp.1 sp.2 n ()) := by
      unfold IdsNodup
      rw [hmap.nodup_iff]
      simp only [List.map_cons]
      refine List.nodup_cons.2 ⟨?_, h3⟩
      intro hcon
      exact absurd (hbound n hcon) (lt_irrefl n)
    exact ih _ _ (fun q hq => hv q (List.mem_cons_of_mem _ hq))
      hinv2 hbound2 hnd2

/-- Deleting a staged copy of everything stored empties the tree, with
every single delete succeeding. -/
theorem deleteAll_empties :
    ∀ (staged : List (interval Unit)) (t : interval_tree Unit),
      Inv t → IdsNodup t → staged.Perm (allIvs t) →
      deleteAll t staged = some leaf := by
  intro staged
  induction staged with
  | nil =>
    intro t h1 _ hperm
    have hnil : allIvs t = [] := List.Perm.eq_nil hperm.symm
    cases t with
    | leaf => rfl
    | node l s e last ivs r =>
      exfalso
      have hivs := (NodesOK.here h1.2.1).1
      simp only [allIvs, List.append_eq_nil] at hnil
      exact hivs hnil.1.2
  | cons iv rest ih =>
    intro t h1 h2 hperm
    have hmem : iv ∈ allIvs t := hperm.mem_iff.1 (List.mem_cons_self _ _)
    obtain ⟨t2, hdel, hinv2, hnd2, hperm2⟩ :=
      interval_tree_del_success h1 h2 hmem
    have hr : rest.Perm (allIvs t2) :=
      List.Perm.cons_inv (hperm.trans hperm2)
    simp only [deleteAll, hdel]
    exact ih t2 hinv2 hnd2 hr

/-! ## Claims C1, C2, C5: the interval tree -/

/-- **C1.** For every interval tree built by a sequence of
`interval_tree_add` calls and every query range `[lo, hi]`, the range
traversal realising `interval_range_iter` / `interval_iter_next`
(`interval_recurse`) yields exactly the brute-force list of stored
intervals `{iv : iv.start ≤ hi ∧ iv.end ≥ lo}` (so in particular the same
multiset); after inserting `[0,10]`, `[5,15]`, `[20,25]`, querying `[7,8]`
yields exactly `{[0,10], [5,15]}` (unordered) and querying `[16,19]`
yields nothing. -/
theorem C1_iter_equals_bruteforce (specs : List (Int × Int))
    (hv : ∀ sp ∈ specs, INT_MIN ≤ sp.2 ∧ sp.1 ≤ INT_MAX) (lo hi : Int) :
    interval_recurse (buildTree specs) lo hi =
      (allIvs (buildTree specs)).filter
        (fun i => i.start ≤ hi ∧ i.end_ ≥ lo) ∧
    (interval_recurse (buildTree [(0, 10), (5, 15), (20, 25)]) 7 8).Perm
      [⟨0, 0, 10, ()⟩, ⟨1, 5, 15, ()⟩] ∧
    interval_recurse (buildTree [(0, 10), (5, 15), (20, 25)]) 16 19
      = [] := by
  have hb := buildAux_spec specs leaf 0 hv Inv_leaf
    (by simp [allIvs]) (by simp [IdsNodup, allIvs])
  exact ⟨interval_recurse_eq_filter hb.1.1 hb.1.2.1 hb.1.2.2.1 lo hi,
    by decide, by decide⟩

/-- Witness for C1 at a concrete build and query. -/
theorem C1_iter_equals_bruteforce_witness :
    (∀ sp ∈ [((0 : Int), (10 : Int)), (5, 15), (20, 25)],
      INT_MIN ≤ sp.2 ∧ sp.1 ≤ INT_MAX) ∧
    (interval_recurse (buildTree [(0, 10), (5, 15), (20, 25)]) 7 8 =
      (allIvs (buildTree [(0, 10), (5, 15), (20, 25)])).filter
        (fun i => i.start ≤ 8 ∧ i.end_ ≥ 7) ∧
    (interval_recurse (buildTree [(0, 10), (5, 15), (20, 25)]) 7 8).Perm
      [⟨0, 0, 10, ()⟩, ⟨1, 5, 15, ()⟩] ∧
    interval_recurse (buildTree [(0, 10), (5, 15), (20, 25)]) 16 19
      = []) :=
  ⟨by decide,
   C1_iter_equals_bruteforce [(0, 10), (5, 15), (20, 25)] (by decide) 7 8⟩

/-- **C2.** For every tree reachable from the empty tree by any sequence of
`interval_tree_add` and `interval_tree_del` calls, every node satisfies
`last = max(end, left.last, right.last)`, absent children contributing
nothing.  (The `RB_INSERT`/`RB_REMOVE` rebalancing lives in the missing
`tree.h`; it is modelled from the spec, which requires `last` to be
restored on every structural change, as the embedding's insertion and
deletion paths do.) -/
theorem C2_last_invariant (ops : List (TreeOp α))
    (hv : ∀ op ∈ ops, op.valid) : LastOK (runOps leaf ops) :=
  (runOps_inv Inv_leaf hv).2.2.1

/-- Witness for C2 at a concrete add/add/del sequence. -/
theorem C2_last_invariant_witness :
    (∀ op ∈ [TreeOp.add 0 10 0 (), TreeOp.add 5 15 1 (),
        TreeOp.del (⟨0, 0, 10, ()⟩ : interval Unit)], op.valid) ∧
    LastOK (runOps leaf [TreeOp.add 0 10 0 (), TreeOp.add 5 15 1 (),
        TreeOp.del (⟨0, 0, 10, ()⟩ : interval Unit)]) :=
  ⟨by
    intro op hop
    fin_cases hop
    · exact ⟨by decide, by decide⟩
    · exact ⟨by decide, by decide⟩
    · exact trivial,
   C2_last_invariant _ (by
    intro op hop
    fin_cases hop
    · exact ⟨by decide, by decide⟩
    · exact ⟨by decide, by decide⟩
    · exact trivial)⟩

/-- **C5.** Insert N intervals, stage every stored interval via the
full-range traversal (the iterate-then-delete pattern), then call
`interval_tree_del` on each staged interval: every delete succeeds, the
resulting tree is empty, and the consistency check reports no error on
it. -/
theorem C5_insert_iterate_delete (specs : List (Int × Int))
    (hv : ∀ sp ∈ specs, INT_MIN ≤ sp.2 ∧ sp.1 ≤ INT_MAX) :
    ∃ t2, deleteAll (buildTree specs)
        (interval_recurse (buildTree specs) INT_MIN INT_MAX) = some t2 ∧
      t2 = leaf ∧ interval_tree_check t2 = 0 := by
  unfold buildTree
  have hb := buildAux_spec specs leaf 0 hv Inv_leaf
    (by simp [allIvs]) (by simp [IdsNodup, allIvs])
  have hrec : interval_recurse (buildAux leaf 0 specs) INT_MIN INT_MAX =
      allIvs (buildAux leaf 0 specs) := by
    rw [interval_recurse_eq_filter hb.1.1 hb.1.2.1 hb.1.2.2.1]
    apply List.filter_eq_self.2
    intro i hi
    obtain ⟨p, hp, hip⟩ := mem_allIvs_iff.1 hi
    have hok := hb.1.2.1 p hp
    obtain ⟨ha, hb2, hc2⟩ := hok.2.1 i hip
    have hd2 := hok.2.2.2
    simp only [decide_eq_true_eq]
    exact ⟨by omega, by omega⟩
  rw [hrec]
  exact ⟨leaf, deleteAll_empties _ _ hb.1 hb.2 (List.Perm.refl _),
    rfl, rfl⟩

/-- Witness for C5 at a concrete build. -/
theorem C5_insert_iterate_delete_witness :
    (∀ sp ∈ [((0 : Int), (10 : Int)), (5, 15), (20, 25)],
      INT_MIN ≤ sp.2 ∧ sp.1 ≤ INT_MAX) ∧
    ∃ t2, deleteAll (buildTree [(0, 10), (5, 15), (20, 25)])
        (interval_recurse (buildTree [(0, 10), (5, 15), (20, 25)])
          INT_MIN INT_MAX) = some t2 ∧
      t2 = leaf ∧ interval_tree_check t2 = 0 :=
  ⟨by decide,
   C5_insert_iterate_delete [(0, 10), (5, 15), (20, 25)] (by decide)⟩

end interval_tree

/-! ## Loop/buffer lemmas shared by the `find_haplotypes.c` embedding -/

theorem setI_length {γ : Type} (l : List γ) (i : Int) (v : γ) :
    (setI l i v).length = l.length := by
  unfold setI
  split
  · rfl
  · exact List.length_set l i.toNat v

theorem getI_setI_eq {γ : Type} (d : γ) {l : List γ} {i : Int} (h0 : 0 ≤ i)
    (hl : i < l.length) (v : γ) : getI d (setI l i v) i = v := by
  unfold getI setI
  rw [if_neg (by omega), if_neg (by omega), List.getD_eq_getElem?_getD,
    List.getElem?_set_self (by omega)]
  rfl

theorem getI_setI_ne {γ : Type} (d : γ) (l : List γ) {i j : Int}
    (hne : i ≠ j) (v : γ) : getI d (setI l i v) j = getI d l j := by
  unfold getI setI
  by_cases hi : i < 0
  · rw [if_pos hi]
  · rw [if_neg hi]
    by_cases hj : j < 0
    · rw [if_pos hj, if_pos hj]
    · rw [if_neg hj, if_neg hj, List.getD_eq_getElem?_getD,
        List.getD_eq_getElem?_getD, List.getElem?_set_ne (by omega)]

theorem getI_setI_oob {γ : Type} (d : γ) (l : List γ) (i : Int) {j : Int}
    (h : ¬ (0 ≤ j ∧ j < l.length)) (v : γ) :
    getI d (setI l i v) j = getI d l j := by
  by_cases hij : i = j
  · subst hij
    unfold getI setI
    by_cases hi : i < 0
    · simp only [if_pos hi]
    · simp only [if_neg hi]
      rw [List.getD_eq_getElem?_getD, List.getD_eq_getElem?_getD,
        List.getElem?_set, if_pos rfl, if_neg (by omega),
        List.getElem?_eq_none (by omega)]
  · exact getI_setI_ne d l hij v

/-- Reading a buffer after a counted loop of at-most-one-write-per-index
updates: position `j` holds the updated value exactly when its unique
writer `j + base` ran and its guard held, and is otherwise untouched. -/
theorem forRange_selfWrite_get {γ : Type} (d : γ) (base : Int)
    (P : Int → Prop) [DecidablePred P] (w : Int → γ → γ) (j : Int)
    (lo hi : Int) :
    ∀ buf : List γ,
      getI d (forRange lo hi
        (fun i b => if P i then setI b (i - base) (w i (getI d b (i - base)))
          else b) buf) j =
      if lo ≤ j + base ∧ j + base ≤ hi ∧ P (j + base) ∧ 0 ≤ j ∧
          j < buf.length
        then w (j + base) (getI d buf j) else getI d buf j := by
  intro buf
  by_cases hle : lo ≤ hi
  · rw [forRange_step _ _ _ _ hle,
      forRange_selfWrite_get d base P w j (lo + 1) hi _]
    by_cases hP : P lo
    · rw [if_pos hP]
      by_cases hj : j + base = lo
      · by_cases hb : 0 ≤ j ∧ j < buf.length
        · rw [if_neg (by rw [setI_length]; omega)]
          have hjb : lo - base = j := by omega
          rw [hjb, getI_setI_eq d hb.1 hb.2, hj]
          rw [if_pos ⟨le_refl lo, by omega, hP, hb.1, hb.2⟩]
        · rw [if_neg (by
            rw [setI_length]
            intro hc
            exact hb ⟨hc.2.2.2.1, hc.2.2.2.2⟩)]
          rw [getI_setI_oob d buf _ hb]
          rw [if_neg (fun hc => hb ⟨hc.2.2.2.1, hc.2.2.2.2⟩)]
      · rw [getI_setI_ne d buf (by omega), setI_length]
        by_cases hc : lo + 1 ≤ j + base ∧ j + base ≤ hi ∧ P (j + base) ∧
            0 ≤ j ∧ j < buf.length
        · rw [if_pos hc, if_pos ⟨by omega, hc.2.1, hc.2.2.1, hc.2.2.2⟩]
        · rw [if_neg hc,
            if_neg (fun hd => hc ⟨by omega, hd.2.1, hd.2.2.1, hd.2.2.2⟩)]
    · rw [if_neg hP]
      by_cases hc : lo + 1 ≤ j + base ∧ j + base ≤ hi ∧ P (j + base) ∧
          0 ≤ j ∧ j < buf.length
      · rw [if_pos hc, if_pos ⟨by omega, hc.2.1, hc.2.2.1, hc.2.2.2⟩]
      · rw [if_neg hc]
        have hnd : ¬ (lo ≤ j + base ∧ j + base ≤ hi ∧ P (j + base) ∧
            0 ≤ j ∧ j < (buf.length : Int)) := by
          intro hd
          by_cases hje : j + base = lo
          · exact hP (hje ▸ hd.2.2.1)
          · exact hc ⟨by omega, hd.2.1, hd.2.2.1, hd.2.2.2⟩
        rw [if_neg hnd]
  · rw [forRange_stop _ _ _ _ hle, if_neg (by omega)]
termination_by (hi + 1 - lo).toNat
decreasing_by omega

/-- A counted loop whose body acts componentwise on a pair runs the two
component loops independently. -/
theorem forRange_prod {A B : Type} (lo hi : Int) (f : Int → A → A)
    (g : Int → B → B) :
    ∀ p : A × B,
      forRange lo hi (fun i q => (f i q.1, g i q.2)) p =
        (forRange lo hi f p.1, forRange lo hi g p.2) := by
  intro p
  by_cases hle : lo ≤ hi
  · rw [forRange_step _ _ _ _ hle, forRange_step _ _ f _ hle,
      forRange_step _ _ g _ hle]
    exact forRange_prod (lo + 1) hi f g (f lo p.1, g lo p.2)
  · rw [forRange_stop _ _ _ _ hle, forRange_stop _ _ f _ hle,
      forRange_stop _ _ g _ hle]
termination_by (hi + 1 - lo).toNat
decreasing_by omega

/-- The inclusive integer range `[lo, hi]` as a list, the index set of a C
`for (i = lo; i <= hi; i++)` scan. -/
def intRange (lo hi : Int) : List Int :=
  (List.range (hi + 1 - lo).toNat).map (fun (k : Nat) => lo + (k : Int))

theorem mem_intRange {lo hi i : Int} :
    i ∈ intRange lo hi ↔ lo ≤ i ∧ i ≤ hi := by
  unfold intRange
  constructor
  · intro h
    rw [List.mem_map] at h
    obtain ⟨k, hk, he⟩ := h
    rw [List.mem_range] at hk
    omega
  · intro h
    rw [List.mem_map]
    exact ⟨(i - lo).toNat, List.mem_range.2 (by omega), by omega⟩

/-- Reading a buffer after a counted loop of unconditional one-write-per-
index updates. -/
theorem forRange_write_get_all {γ : Type} (d : γ) (base : Int)
    (v : Int → γ) (j : Int) (lo hi : Int) :
    ∀ buf : List γ,
      getI d (forRange lo hi (fun i b => setI b (i - base) (v i)) buf) j =
      if lo ≤ j + base ∧ j + base ≤ hi ∧ 0 ≤ j ∧ j < buf.length
        then v (j + base) else getI d buf j := by
  intro buf
  by_cases hle : lo ≤ hi
  · rw [forRange_step _ _ _ _ hle, forRange_write_get_all d base v j (lo + 1) hi _]
    by_cases hj : j + base = lo
    · by_cases hb : 0 ≤ j ∧ j < buf.length
      · rw [if_neg (by rw [setI_length]; omega)]
        have hjb : lo - base = j := by omega
        rw [hjb, getI_setI_eq d hb.1 hb.2, hj]
        rw [if_pos ⟨le_refl lo, by omega, hb.1, hb.2⟩]
      · rw [if_neg (by
          rw [setI_length]
          intro hc
          exact hb ⟨hc.2.2.1, hc.2.2.2⟩)]
        rw [getI_setI_oob d buf _ hb]
        rw [if_neg (fun hc => hb ⟨hc.2.2.1, hc.2.2.2⟩)]
    · rw [getI_setI_ne d buf (by omega), setI_length]
      by_cases hc : lo + 1 ≤ j + base ∧ j + base ≤ hi ∧ 0 ≤ j ∧
          j < buf.length
      · rw [if_pos hc, if_pos ⟨by omega, hc.2.1, hc.2.2⟩]
      · rw [if_neg hc, if_neg (fun hd => hc ⟨by omega, hd.2.1, hd.2.2⟩)]
  · rw [forRange_stop _ _ _ _ hle, if_neg (by omega)]
termination_by (hi + 1 - lo).toNat
decreasing_by omega

/-- `forRange_selfWrite_get` specialised to writes whose value ignores the
buffer. -/
theorem forRange_write_get {γ : Type} (d : γ) (base : Int)
    (P : Int → Prop) [DecidablePred P] (v : Int → γ) (j lo hi : Int)
    (buf : List γ) :
    getI d (forRange lo hi
      (fun i b => if P i then setI b (i - base) (v i) else b) buf) j =
    if lo ≤ j + base ∧ j + base ≤ hi ∧ P (j + base) ∧ 0 ≤ j ∧
        j < buf.length
      then v (j + base) else getI d buf j :=
  forRange_selfWrite_get d base P (fun i _ => v i) j lo hi buf

namespace find_haplotypes

open interval_tree

/-- `haplotype_str` (find_haplotypes.c lines 42-51).  `snps` and `count`
are the two parallel buffers indexed relative to `start`; `recs = none`
models a NULL `Array` handle and `snps = []` a NULL character buffer; the
`next` link is represented by the lists the callers build. -/
structure haplotype_str where
  snps : List Char
  count : List Int
  nseq : Int
  start : Int
  end_ : Int
  recs : Option (List Int)
deriving DecidableEq, Repr

/-- Read `hs->snps[i - hs->start]` at the absolute position `i`. -/
def hsChar (h : haplotype_str) (i : Int) : Char :=
  getI '?' h.snps (i - h.start)

/-- The record array's contents; a NULL handle reads as empty. -/
def recsD (h : haplotype_str) : List Int := h.recs.getD []

/-- Buffer well-formedness every reachable `haplotype_str` keeps: `snps`
and `count` span exactly `[start, end]`. -/
def HsWF (h : haplotype_str) : Prop :=
  h.snps.length = (h.end_ - h.start + 1).toNat ∧
  h.count.length = (h.end_ - h.start + 1).toNat ∧ h.start ≤ h.end_ + 1

instance (h : haplotype_str) : Decidable (HsWF h) := by
  unfold HsWF; infer_instance

/-- The state `haplotype_str_add` works on: the interval tree keyed by
`(start, end)` whose payload records live behind their addresses in
`store` (`id` → record), so that in-place mutation of a record updates
`store` and leaves the tree untouched, exactly as the C pointer graph
behaves. -/
structure HapIndex where
  tree : interval_tree Unit
  store : List (Nat × haplotype_str)
  nextId : Nat

/-- Follow an interval's payload pointer. -/
def lookupHs (store : List (Nat × haplotype_str)) (n : Nat) :
    Option haplotype_str :=
  List.lookup n store

/-- Mutate the record behind address `n` in place. -/
def storeSet (store : List (Nat × haplotype_str)) (n : Nat)
    (hs : haplotype_str) : List (Nat × haplotype_str) :=
  store.map (fun p => if p.1 == n then (p.1, hs) else p)

/-- The overlap agreement loop of `haplotype_str_add` (lines 95-105): walk
`i`/`j` in lockstep, failing at the first position where both strings hold
a base (not `-`) and the bases differ; `true` means the loop reached
`i_end + 1`, the test on line 107. -/
def agree_loopN (snps tsnps : List Char) : Nat → Int → Int → Bool
  | 0, _, _ => true
  | n + 1, i, j =>
    if getI '?' tsnps j ≠ '-' ∧ getI '?' snps i ≠ '-' then
      if getI '?' tsnps j == getI '?' snps i then
        agree_loopN snps tsnps n (i + 1) (j + 1)
      else false
    else agree_loopN snps tsnps n (i + 1) (j + 1)

def agree_loop (snps tsnps : List Char) (i_end : Int) (i j : Int) : Bool :=
  agree_loopN snps tsnps (i_end + 1 - i).toNat i j

theorem agree_loop_eq (snps tsnps : List Char) (i_end i j : Int) :
    agree_loop snps tsnps i_end i j =
      if i ≤ i_end then
        if getI '?' tsnps j ≠ '-' ∧ getI '?' snps i ≠ '-' then
          if getI '?' tsnps j == getI '?' snps i then
            agree_loop snps tsnps i_end (i + 1) (j + 1)
          else false
        else agree_loop snps tsnps i_end (i + 1) (j + 1)
      else true := by
  by_cases h : i ≤ i_end
  · rw [if_pos h]
    unfold agree_loop
    rw [show (i_end + 1 - i).toNat = (i_end + 1 - (i + 1)).toNat + 1 by
      omega]
    rfl
  · rw [if_neg h]
    unfold agree_loop
    rw [show (i_end + 1 - i).toNat = 0 by omega]
    rfl

/-- One candidate test of the scan in `haplotype_str_add` (strict mode,
`ALLOW_CONTAINMENTS` off): the `(start, end)` gate of line 79, the index
arithmetic of lines 83-91, the agreement loop, and the re-check of line
115 that makes this candidate the final `best_hs` (the scan breaks). -/
def cand_ok (snps : List Char) (start end_ : Int)
    (t : haplotype_str) : Bool :=
  if start ≠ t.start ∨ end_ ≠ t.end_ then false
  else
    let i0 := max t.start start
    let i_end0 := min t.end_ end_
    let j := max 0 (i0 - t.start)
    let i := max 0 (i0 - start)
    let i_end := min end_ i_end0 - start
    if agree_loop snps t.snps i_end i j then
      t.start == start && t.end_ == end_
    else false

/-- The record after the merge branch of `haplotype_str_add` (lines
155-185): one loop writes the fragment's bases over `snps` and bumps
`count` at exactly those positions, then `nseq++` and the non-NULL record
numbers are pushed. -/
def mergedHs (snps : List Char) (start end_ rec1 rec2 : Int)
    (t : haplotype_str) : haplotype_str :=
  let sc := forRange start end_ (fun i p =>
    if getI '?' snps (i - start) ≠ '-' then
      (setI p.1 (i - t.start) (getI '?' snps (i - start)),
       setI p.2 (i - t.start) (getI 0 p.2 (i - t.start) + 1))
    else p) (t.snps, t.count)
  { t with
    snps := sc.1
    count := sc.2
    nseq := t.nseq + 1
    recs := some ((recsD t) ++
      (if rec1 ≠ 0 then [rec1] else []) ++
      (if rec2 ≠ 0 then [rec2] else [])) }

/-- The record built by the new-string branch (lines 190-207): `snps` is
copied from the fragment over the fresh (`malloc`ed) buffer, `count` over
the zeroed (`calloc`ed) one. -/
def newHs (snps : List Char) (start end_ rec1 rec2 : Int) : haplotype_str :=
  let len := (end_ - start + 1).toNat
  let sc := forRange start end_ (fun i p =>
    (setI p.1 (i - start) (getI '?' snps (i - start)),
     if getI '?' snps (i - start) ≠ '-' then setI p.2 (i - start) 1
     else p.2)) (List.replicate len '?', List.replicate len (0 : Int))
  { snps := sc.1
    count := sc.2
    nseq := 1
    start := start
    end_ := end_
    recs := some ((if rec1 ≠ 0 then [rec1] else []) ++
      (if rec2 ≠ 0 then [rec2] else [])) }

/-- The function `haplotype_str_add` (lines 62-210, strict mode): scan the
range iterator for the first exact-extent candidate that agrees with the
fragment; merge the fragment into it (lines 136-185) or start a new
haplotype string (lines 190-207).  `rec1 = 0` / `rec2 = 0` model NULL
`tg_rec`s (lines 180-183, 204-207). -/
def haplotype_str_add (ix : HapIndex) (snps : List Char) (start end_ : Int)
    (rec1 rec2 : Int) : HapIndex :=
  match (interval_recurse ix.tree start end_).find? (fun iv =>
      match lookupHs ix.store iv.id with
      | none => false
      | some t => cand_ok snps start end_ t) with
  | some iv =>
    match lookupHs ix.store iv.id with
    | none => ix
    | some t =>
      let t2 := mergedHs snps start end_ rec1 rec2 t
      { ix with store := storeSet ix.store iv.id t2 }
  | none =>
    { tree := interval_tree_add ix.tree start end_ ix.nextId (),
      store := (ix.nextId, newHs snps start end_ rec1 rec2) :: ix.store,
      nextId := ix.nextId + 1 }

/-- The state invariant the `find_haplotypes.c` pipeline keeps: the tree is
a valid interval tree, and every stored interval's payload pointer
dereferences to a well-formed `haplotype_str` whose extent equals the
tree key. -/
def HapWF (ix : HapIndex) : Prop :=
  Inv ix.tree ∧
  ∀ iv ∈ allIvs ix.tree, ∃ t, lookupHs ix.store iv.id = some t ∧
    t.start = iv.start ∧ t.end_ = iv.end_ ∧ HsWF t

/-- The fragment agrees with a stored string wherever both hold a base
(relative coordinates, equal extents). -/
def StrAgrees (snps : List Char) (start end_ : Int)
    (t : haplotype_str) : Prop :=
  ∀ k : Int, 0 ≤ k → k ≤ end_ - start →
    getI '?' t.snps k ≠ '-' → getI '?' snps k ≠ '-' →
    getI '?' t.snps k = getI '?' snps k

theorem agree_loop_eq_true {snps tsnps : List Char} {i_end : Int} :
    ∀ {i : Int}, agree_loop snps tsnps i_end i i = true ↔
      ∀ k, i ≤ k → k ≤ i_end →
        getI '?' tsnps k ≠ '-' → getI '?' snps k ≠ '-' →
        getI '?' tsnps k = getI '?' snps k := by
  intro i
  by_cases hle : i ≤ i_end
  · rw [agree_loop_eq]
    rw [if_pos hle]
    by_cases hd : getI '?' tsnps i ≠ '-' ∧ getI '?' snps i ≠ '-'
    · rw [if_pos hd]
      by_cases he : getI '?' tsnps i == getI '?' snps i
      · rw [if_pos he, agree_loop_eq_true]
        constructor
        · intro h k hk1 hk2 h1 h2
          rcases eq_or_lt_of_le hk1 with hk | hk
          · rw [← hk]
            exact eq_of_beq he
          · exact h k (by omega) hk2 h1 h2
        · intro h k hk1 hk2 h1 h2
          exact h k (by omega) hk2 h1 h2
      · rw [if_neg he]
        constructor
        · intro h
          exact absurd h (by simp)
        · intro h
          exact absurd (h i (le_refl i) hle hd.1 hd.2)
            (by simpa using he)
    · rw [if_neg hd, agree_loop_eq_true]
      constructor
      · intro h k hk1 hk2 h1 h2
        rcases eq_or_lt_of_le hk1 with hk | hk
        · exact absurd ⟨by rw [← hk] at h1; exact h1,
            by rw [← hk] at h2; exact h2⟩ hd
        · exact h k (by omega) hk2 h1 h2
      · intro h k hk1 hk2 h1 h2
        exact h k (by omega) hk2 h1 h2
  · rw [agree_loop_eq, if_neg hle]
    constructor
    · intro _ k hk1 hk2
      omega
    · intro _
      rfl
termination_by i => (i_end + 1 - i).toNat
decreasing_by
  all_goals omega

theorem cand_ok_iff {snps : List Char} {start end_ : Int}
    {t : haplotype_str} :
    cand_ok snps start end_ t = true ↔
      t.start = start ∧ t.end_ = end_ ∧
      StrAgrees snps start end_ t := by
  unfold cand_ok
  by_cases hg : start ≠ t.start ∨ end_ ≠ t.end_
  · rw [if_pos hg]
    constructor
    · intro h
      exact absurd h (by simp)
    · intro h
      rcases hg with hg | hg
      · exact absurd h.1.symm hg
      · exact absurd h.2.1.symm hg
  · rw [if_neg hg]
    push_neg at hg
    obtain ⟨hg1, hg2⟩ := hg
    subst hg1
    subst hg2
    simp only [max_self, min_self, sub_self, max_eq_right (le_refl (0 : Int))]
    by_cases ha : agree_loop snps t.snps (t.end_ - t.start) 0 0
    · rw [if_pos ha]
      rw [agree_loop_eq_true] at ha
      simp only [beq_self_eq_true, Bool.and_self, true_iff,
        eq_self_iff_true, true_and]
      intro k hk1 hk2
      exact ha k hk1 hk2
    · rw [if_neg ha]
      constructor
      · intro h
        exact absurd h (by simp)
      · intro h
        refine absurd ?_ ha
        rw [agree_loop_eq_true]
        intro k hk1 hk2
        exact h.2.2 k hk1 hk2

theorem merge_step_split (snps : List Char) (start base : Int) :
    (fun (i : Int) (p : List Char × List Int) =>
      if getI '?' snps (i - start) ≠ '-' then
        (setI p.1 (i - base) (getI '?' snps (i - start)),
         setI p.2 (i - base) (getI 0 p.2 (i - base) + 1))
      else p) =
    (fun i q =>
      ((fun (i : Int) b => if getI '?' snps (i - start) ≠ '-' then
          setI b (i - base) (getI '?' snps (i - start)) else b) i q.1,
       (fun (i : Int) b => if getI '?' snps (i - start) ≠ '-' then
          setI b (i - base) (getI 0 b (i - base) + 1) else b) i q.2)) := by
  funext i p
  by_cases h : getI '?' snps (i - start) ≠ '-'
  · simp only [if_pos h]
  · simp only [if_neg h]

theorem new_step_split (snps : List Char) (start : Int) :
    (fun (i : Int) (p : List Char × List Int) =>
      (setI p.1 (i - start) (getI '?' snps (i - start)),
       if getI '?' snps (i - start) ≠ '-' then setI p.2 (i - start) 1
       else p.2)) =
    (fun i q =>
      ((fun (i : Int) b => setI b (i - start) (getI '?' snps (i - start)))
        i q.1,
       (fun (i : Int) b => if getI '?' snps (i - start) ≠ '-' then
          setI b (i - start) (1 : Int) else b) i q.2)) := rfl

theorem mergedHs_snps_get {snps : List Char} {start end_ rec1 rec2 : Int}
    {t : haplotype_str} (hts : t.start = start) (hte : t.end_ = end_)
    (hwf : HsWF t) (k : Int) :
    getI '?' (mergedHs snps start end_ rec1 rec2 t).snps k =
      if 0 ≤ k ∧ k ≤ end_ - start ∧ getI '?' snps k ≠ '-'
        then getI '?' snps k else getI '?' t.snps k := by
  unfold mergedHs
  rw [merge_step_split snps start t.start]
  try beta_reduce
  rw [forRange_prod start end_
    (fun (i : Int) b => if getI '?' snps (i - start) ≠ '-' then
      setI b (i - t.start) (getI '?' snps (i - start)) else b)
    (fun (i : Int) b => if getI '?' snps (i - start) ≠ '-' then
      setI b (i - t.start) (getI 0 b (i - t.start) + 1) else b)
    (t.snps, t.count)]
  dsimp only
  rw [forRange_write_get '?' t.start
    (fun i => getI '?' snps (i - start) ≠ '-')
    (fun i => getI '?' snps (i - start)) k start end_ t.snps]
  have hlen : (t.snps.length : Int) = end_ - start + 1 := by
    have h3 := hwf.2.2
    rw [hwf.1]
    omega
  by_cases hc : 0 ≤ k ∧ k ≤ end_ - start ∧ getI '?' snps k ≠ '-'
  · rw [if_pos (by
      refine ⟨by omega, by omega, ?_, hc.1, by omega⟩
      rw [hts, show k + start - start = k by omega]
      exact hc.2.2), if_pos hc]
    rw [hts, show k + start - start = k by omega]
  · rw [if_neg (by
      intro hd
      rw [hts, show k + start - start = k by omega] at hd
      exact hc ⟨hd.2.2.2.1, by omega, hd.2.2.1⟩), if_neg hc]

theorem mergedHs_count_get {snps : List Char} {start end_ rec1 rec2 : Int}
    {t : haplotype_str} (hts : t.start = start) (hte : t.end_ = end_)
    (hwf : HsWF t) (k : Int) :
    getI 0 (mergedHs snps start end_ rec1 rec2 t).count k =
      if 0 ≤ k ∧ k ≤ end_ - start ∧ getI '?' snps k ≠ '-'
        then getI 0 t.count k + 1 else getI 0 t.count k := by
  unfold mergedHs
  rw [merge_step_split snps start t.start]
  try beta_reduce
  rw [forRange_prod start end_
    (fun (i : Int) b => if getI '?' snps (i - start) ≠ '-' then
      setI b (i - t.start) (getI '?' snps (i - start)) else b)
    (fun (i : Int) b => if getI '?' snps (i - start) ≠ '-' then
      setI b (i - t.start) (getI 0 b (i - t.start) + 1) else b)
    (t.snps, t.count)]
  dsimp only
  rw [forRange_selfWrite_get (0 : Int) t.start
    (fun i => getI '?' snps (i - start) ≠ '-')
    (fun _ cur => cur + 1) k start end_ t.count]
  have hlen : (t.count.length : Int) = end_ - start + 1 := by
    have h3 := hwf.2.2
    rw [hwf.2.1]
    omega
  by_cases hc : 0 ≤ k ∧ k ≤ end_ - start ∧ getI '?' snps k ≠ '-'
  · rw [if_pos (by
      refine ⟨by omega, by omega, ?_, hc.1, by omega⟩
      rw [hts, show k + start - start = k by omega]
      exact hc.2.2), if_pos hc]
  · rw [if_neg (by
      intro hd
      rw [hts, show k + start - start = k by omega] at hd
      exact hc ⟨hd.2.2.2.1, by omega, hd.2.2.1⟩), if_neg hc]

theorem newHs_snps_get {snps : List Char} {start end_ rec1 rec2 : Int}
    (k : Int) :
    getI '?' (newHs snps start end_ rec1 rec2).snps k =
      if 0 ≤ k ∧ k ≤ end_ - start then getI '?' snps k else '?' := by
  simp only [newHs]
  rw [new_step_split snps start]
  try beta_reduce
  rw [forRange_prod start end_
    (fun (i : Int) b => setI b (i - start) (getI '?' snps (i - start)))
    (fun (i : Int) b => if getI '?' snps (i - start) ≠ '-' then
      setI b (i - start) (1 : Int) else b)
    (List.replicate (end_ - start + 1).toNat '?',
      List.replicate (end_ - start + 1).toNat (0 : Int))]
  dsimp only
  rw [forRange_write_get_all '?' start
    (fun i => getI '?' snps (i - start)) k start end_]
  have hlen : ((List.replicate (end_ - start + 1).toNat '?').length : Int) =
      max (end_ - start + 1) 0 := by
    rw [List.length_replicate]
    omega
  by_cases hc : 0 ≤ k ∧ k ≤ end_ - start
  · rw [if_pos (by refine ⟨by omega, by omega, hc.1, by omega⟩),
      show k + start - start = k by omega, if_pos hc]
  · rw [if_neg (by
      intro hd
      exact hc ⟨hd.2.2.1, by omega⟩), if_neg hc]
    unfold getI
    by_cases hk : k < 0
    · rw [if_pos hk]
    · rw [if_neg hk]
      rw [List.getD_eq_getElem?_getD]
      rcases hg : (List.replicate (end_ - start + 1).toNat '?')[k.toNat]?
        with _ | c
      · rfl
      · have := List.getElem?_mem hg
        rw [List.eq_of_mem_replicate this]
        rfl

theorem newHs_count_get {snps : List Char} {start end_ rec1 rec2 : Int}
    (k : Int) :
    getI 0 (newHs snps start end_ rec1 rec2).count k =
      if 0 ≤ k ∧ k ≤ end_ - start ∧ getI '?' snps k ≠ '-'
        then 1 else 0 := by
  simp only [newHs]
  rw [new_step_split snps start]
  try beta_reduce
  rw [forRange_prod start end_
    (fun (i : Int) b => setI b (i - start) (getI '?' snps (i - start)))
    (fun (i : Int) b => if getI '?' snps (i - start) ≠ '-' then
      setI b (i - start) (1 : Int) else b)
    (List.replicate (end_ - start + 1).toNat '?',
      List.replicate (end_ - start + 1).toNat (0 : Int))]
  dsimp only
  rw [forRange_write_get (0 : Int) start
    (fun i => getI '?' snps (i - start) ≠ '-')
    (fun _ => (1 : Int)) k start end_]
  have hlen : ((List.replicate (end_ - start + 1).toNat (0 : Int)).length :
      Int) = max (end_ - start + 1) 0 := by
    rw [List.length_replicate]
    omega
  by_cases hc : 0 ≤ k ∧ k ≤ end_ - start ∧ getI '?' snps k ≠ '-'
  · rw [if_pos (by
      refine ⟨by omega, by omega, ?_, hc.1, by omega⟩
      rw [show k + start - start = k by omega]
      exact hc.2.2), if_pos hc]
  · rw [if_neg (by
      intro hd
      rw [show k + start - start = k by omega] at hd
      exact hc ⟨hd.2.2.2.1, by omega, hd.2.2.1⟩), if_neg hc]
    unfold getI
    by_cases hk : k < 0
    · rw [if_pos hk]
    · rw [if_neg hk]
      rw [List.getD_eq_getElem?_getD]
      rcases hg : (List.replicate (end_ - start + 1).toNat (0 : Int))[k.toNat]?
        with _ | c
      · rfl
      · have := List.getElem?_mem hg
        rw [List.eq_of_mem_replicate this]
        rfl

/-- The exact outcome of one strict-mode `haplotype_str_add` call: either
a same-extent agreeing candidate exists and the fragment is merged into
it, or none exists and a fresh string is inserted. -/
def C3_addSpec (ix : HapIndex) (snps : List Char)
    (start end_ : Int) (rec1 rec2 : Int) : Prop :=
    (∃ iv ∈ allIvs ix.tree, ∃ t, lookupHs ix.store iv.id = some t ∧
      t.start = start ∧ t.end_ = end_ ∧ StrAgrees snps start end_ t ∧
      (haplotype_str_add ix snps start end_ rec1 rec2).tree = ix.tree ∧
      (haplotype_str_add ix snps start end_ rec1 rec2).store =
        storeSet ix.store iv.id (mergedHs snps start end_ rec1 rec2 t) ∧
      (mergedHs snps start end_ rec1 rec2 t).nseq = t.nseq + 1 ∧
      (mergedHs snps start end_ rec1 rec2 t).recs =
        some ((recsD t) ++ (if rec1 ≠ 0 then [rec1] else []) ++
          (if rec2 ≠ 0 then [rec2] else [])) ∧
      (∀ k : Int, 0 ≤ k → k ≤ end_ - start →
        (getI '?' snps k ≠ '-' →
          getI '?' (mergedHs snps start end_ rec1 rec2 t).snps k =
            getI '?' snps k ∧
          getI 0 (mergedHs snps start end_ rec1 rec2 t).count k =
            getI 0 t.count k + 1) ∧
        (getI '?' snps k = '-' →
          getI '?' (mergedHs snps start end_ rec1 rec2 t).snps k =
            getI '?' t.snps k ∧
          getI 0 (mergedHs snps start end_ rec1 rec2 t).count k =
            getI 0 t.count k))) ∨
    ((∀ iv ∈ allIvs ix.tree, ∀ t, lookupHs ix.store iv.id = some t →
        t.start = start → t.end_ = end_ →
        ¬ StrAgrees snps start end_ t) ∧
      (haplotype_str_add ix snps start end_ rec1 rec2).tree =
        interval_tree_add ix.tree start end_ ix.nextId () ∧
      (haplotype_str_add ix snps start end_ rec1 rec2).store =
        (ix.nextId, newHs snps start end_ rec1 rec2) :: ix.store ∧
      (newHs snps start end_ rec1 rec2).nseq = 1 ∧
      (newHs snps start end_ rec1 rec2).start = start ∧
      (newHs snps start end_ rec1 rec2).end_ = end_ ∧
      (newHs snps start end_ rec1 rec2).recs =
        some ((if rec1 ≠ 0 then [rec1] else []) ++
          (if rec2 ≠ 0 then [rec2] else [])) ∧
      (∀ k : Int, 0 ≤ k → k ≤ end_ - start →
        getI '?' (newHs snps start end_ rec1 rec2).snps k =
          getI '?' snps k ∧
        getI 0 (newHs snps start end_ rec1 rec2).count k =
          (if getI '?' snps k ≠ '-' then 1 else 0)))

/-- **C3.** In strict mode, `haplotype_str_add` either merges the fragment
into a stored haplotype string of exactly the same `(start, end)` extent
that agrees with it wherever both hold a base — writing the fragment's
bases over the string, incrementing `count` at exactly those positions,
`nseq += 1`, appending `rec1` and any `rec2` — or, when no such
same-extent agreeing string exists, inserts a fresh string with `nseq = 1`
and `count = 1` exactly at the fragment's non-`-` positions; a candidate
whose extent differs is never merged into. -/
theorem C3_strict_mode_add (ix : HapIndex) (snps : List Char)
    (start end_ : Int) (rec1 rec2 : Int) (hwf : HapWF ix)
    (hse : start ≤ end_) :
    C3_addSpec ix snps start end_ rec1 rec2 := by
  unfold C3_addSpec

  rcases hfind : (interval_recurse ix.tree start end_).find? (fun iv =>
      match lookupHs ix.store iv.id with
      | none => false
      | some t => cand_ok snps start end_ t) with _ | iv
  · right
    have hnone := List.find?_eq_none.1 hfind
    refine ⟨?_, ?_, ?_, rfl, rfl, rfl, rfl, ?_⟩
    · intro iv hmem t hlook hts hte hagree
      have hrec : iv ∈ interval_recurse ix.tree start end_ := by
        rw [interval_recurse_eq_filter hwf.1.1 hwf.1.2.1 hwf.1.2.2.1]
        refine List.mem_filter.2 ⟨hmem, ?_⟩
        obtain ⟨t0, hl0, hs0, he0, _⟩ := hwf.2 iv hmem
        rw [hlook] at hl0
        injection hl0 with hl0
        subst hl0
        simp only [decide_eq_true_eq]
        constructor <;> omega
      have hp := hnone iv hrec
      rw [hlook] at hp
      exact hp (cand_ok_iff.2 ⟨hts, hte, hagree⟩)
    · simp only [haplotype_str_add, hfind]
    · simp only [haplotype_str_add, hfind]
    · intro k hk0 hk1
      refine ⟨?_, ?_⟩
      · rw [newHs_snps_get k, if_pos ⟨hk0, hk1⟩]
      · rw [newHs_count_get k]
        by_cases hch : getI '?' snps k ≠ '-'
        · rw [if_pos ⟨hk0, hk1, hch⟩, if_pos hch]
        · rw [if_neg (fun hc => hch hc.2.2), if_neg hch]
  · left
    have hmemrec := List.mem_of_find?_eq_some hfind
    have hpred := List.find?_some hfind
    rcases hlook : lookupHs ix.store iv.id with _ | t
    · rw [hlook] at hpred
      exact absurd hpred (by simp)
    · rw [hlook] at hpred
      obtain ⟨hts, hte, hagree⟩ := cand_ok_iff.1 hpred
      have hmem : iv ∈ allIvs ix.tree := by
        rw [interval_recurse_eq_filter hwf.1.1 hwf.1.2.1
          hwf.1.2.2.1] at hmemrec
        exact List.mem_of_mem_filter hmemrec
      obtain ⟨t0, hl0, _, _, hwf0⟩ := hwf.2 iv hmem
      rw [hlook] at hl0
      injection hl0 with hl0
      subst hl0
      refine ⟨iv, hmem, t, hlook, hts, hte, hagree, ?_, ?_, rfl, rfl, ?_⟩
      · simp only [haplotype_str_add, hfind, hlook]
      · simp only [haplotype_str_add, hfind, hlook]
      · intro k hk0 hk1
        refine ⟨?_, ?_⟩
        · intro hch
          exact ⟨by
            rw [mergedHs_snps_get hts hte hwf0 k, if_pos ⟨hk0, hk1, hch⟩],
            by
            rw [mergedHs_count_get hts hte hwf0 k,
              if_pos ⟨hk0, hk1, hch⟩]⟩
        · intro hch
          exact ⟨by
            rw [mergedHs_snps_get hts hte hwf0 k,
              if_neg (fun hc => hc.2.2 hch)],
            by
            rw [mergedHs_count_get hts hte hwf0 k,
              if_neg (fun hc => hc.2.2 hch)]⟩

/-- Witness for C3: adding a fragment to the empty index. -/
theorem C3_strict_mode_add_witness :
    HapWF ⟨interval_tree.leaf, [], 0⟩ ∧ (0 : Int) ≤ 1 ∧
    C3_addSpec ⟨interval_tree.leaf, [], 0⟩ [Char.ofNat 65, Char.ofNat 67]
      0 1 5 0 :=
  have hwf : HapWF ⟨interval_tree.leaf, [], 0⟩ :=
    ⟨Inv_leaf, by intro iv h; simp [allIvs] at h⟩
  ⟨hwf, by decide,
    C3_strict_mode_add ⟨interval_tree.leaf, [], 0⟩
      [Char.ofNat 65, Char.ofNat 67] 0 1 5 0 hwf (by decide)⟩

/-- **C8 (corrected).** Re-submitting a stored haplotype string's own
fragment merges it with itself (the merge code, lines 155-185): the
string's bases are unchanged and its record numbers are appended to, but
`nseq` grows by exactly 1 — one more sequence, not a doubling — and
`count` grows by exactly 1 at every defined position.  (The spec's
"`nseq` doubled, `count` doubled" description holds only for a fresh
string with `nseq = 1` and unit counts.) -/
theorem C8_self_merge (a : haplotype_str) (start end_ rec1 rec2 : Int)
    (hwfa : HsWF a) (hts : a.start = start) (hte : a.end_ = end_) :
    (mergedHs a.snps start end_ rec1 rec2 a).nseq = a.nseq + 1 ∧
    (mergedHs a.snps start end_ rec1 rec2 a).recs =
      some ((recsD a) ++ (if rec1 ≠ 0 then [rec1] else []) ++
        (if rec2 ≠ 0 then [rec2] else [])) ∧
    (∀ k : Int, getI '?' (mergedHs a.snps start end_ rec1 rec2 a).snps k =
      getI '?' a.snps k) ∧
    (∀ k : Int, 0 ≤ k → k ≤ end_ - start →
      getI 0 (mergedHs a.snps start end_ rec1 rec2 a).count k =
        getI 0 a.count k + (if getI '?' a.snps k ≠ '-' then 1 else 0)) := by
  refine ⟨rfl, rfl, ?_, ?_⟩
  · intro k
    rw [mergedHs_snps_get hts hte hwfa k]
    by_cases hc : 0 ≤ k ∧ k ≤ end_ - start ∧ getI '?' a.snps k ≠ '-'
    · rw [if_pos hc]
    · rw [if_neg hc]
  · intro k hk0 hk1
    rw [mergedHs_count_get hts hte hwfa k]
    by_cases hch : getI '?' a.snps k ≠ '-'
    · rw [if_pos ⟨hk0, hk1, hch⟩, if_pos hch]
    · rw [if_neg (fun hc => hch hc.2.2), if_neg hch]
      omega

/-- Witness for C8 at a concrete two-base string. -/
theorem C8_self_merge_witness :
    HsWF ⟨['A', 'C'], [2, 2], 2, 0, 1, some [11, 12]⟩ ∧
    (⟨['A', 'C'], [2, 2], 2, 0, 1, some [11, 12]⟩ :
      haplotype_str).start = 0 ∧
    (⟨['A', 'C'], [2, 2], 2, 0, 1, some [11, 12]⟩ :
      haplotype_str).end_ = 1 ∧
    ((mergedHs ['A', 'C'] 0 1 13 0
        ⟨['A', 'C'], [2, 2], 2, 0, 1, some [11, 12]⟩).nseq = 2 + 1 ∧
      (∀ k : Int, 0 ≤ k → k ≤ 1 - 0 →
        getI 0 (mergedHs ['A', 'C'] 0 1 13 0
          ⟨['A', 'C'], [2, 2], 2, 0, 1, some [11, 12]⟩).count k =
          getI 0 ([2, 2] : List Int) k +
            (if getI '?' ['A', 'C'] k ≠ '-' then 1 else 0))) :=
  have h := C8_self_merge ⟨['A', 'C'], [2, 2], 2, 0, 1, some [11, 12]⟩
    0 1 13 0 (by constructor <;> simp [HsWF]) rfl rfl
  ⟨by constructor <;> simp [HsWF], rfl, rfl, h.1, h.2.2.2⟩

/-- Counterexample to C8 as stated: after the same fragment has been
added twice (`nseq = 2`), submitting it again yields `nseq = 3`, not the
doubled `4`; the count entries become `3`, not `4`. -/
theorem C8_counterexample :
    ∃ t, lookupHs (haplotype_str_add (haplotype_str_add (haplotype_str_add
        ⟨interval_tree.leaf, [], 0⟩ ['A', 'C'] 0 1 11 0)
        ['A', 'C'] 0 1 12 0) ['A', 'C'] 0 1 13 0).store 0 = some t ∧
      t.nseq = 3 ∧ ¬ t.nseq = 2 + 2 ∧
      getI 0 t.count 0 = 3 ∧ ¬ getI 0 t.count 0 = 2 + 2 := by
  decide

/-! ## Clustering (`haplotype_str_cluster`, lines 249-527)

The cluster pass works on the doubly-linked list of tree intervals the C
code builds; an item of that list is a `ClItem`: the interval's payload
pointer (`id`), the tree-level `(start, end)` key — which clustering must
never touch (comment at lines 420-425) — and the pointed-to record. -/
structure ClItem where
  id : Nat
  ivStart : Int
  ivEnd : Int
  hs : haplotype_str
deriving DecidableEq, Repr

/-- The mismatch scan (lines 357-364): some overlap position holds two
differing bases, neither a `-`. -/
def cl_mismatch (hs hs2 : haplotype_str) : Bool :=
  (intRange (max hs.start hs2.start) (min hs.end_ hs2.end_)).any (fun i =>
    hsChar hs i ≠ hsChar hs2 i ∧ hsChar hs i ≠ '-' ∧ hsChar hs2 i ≠ '-')

/-- `realloc` to `n` slots: the old contents survive, the tail is
uninitialised (modelled `'?'`). -/
def padTo (l : List Char) (n : Nat) : List Char :=
  l ++ List.replicate (n - l.length) '?'

/-- The buffer merge of lines 375-393: whichever string starts first keeps
its buffer (grown to `nsnp`), and the other string's bases are copied over
it — a base always wins over `-`, and positions beyond the buffer owner's
old `end` are filled unconditionally. -/
def cl_merge_snps (hs hs2 : haplotype_str) : List Char :=
  let nsnp := (max hs.end_ hs2.end_ - min hs.start hs2.start + 1).toNat
  if hs2.start ≤ hs.start then
    forRange (max hs.start hs2.start) hs.end_ (fun i b =>
      if hsChar hs i ≠ '-' ∨ i > hs2.end_ then
        setI b (i - hs2.start) (hsChar hs i) else b)
      (padTo hs2.snps nsnp)
  else
    forRange (max hs.start hs2.start) hs2.end_ (fun i b =>
      if hsChar hs2 i ≠ '-' ∨ i > hs.end_ then
        setI b (i - hs.start) (hsChar hs2 i) else b)
      (padTo hs.snps nsnp)

/-- One merge of `hs2` into the anchor `hs` (lines 374-406): the anchor
takes the merged buffer, the summed `nseq`, the union extent and the
concatenated records; `hs2` becomes the tombstone of lines 399-406
(`nseq = 0`, NULL `snps`, `end = start - 1`, NULL `recs`).  Neither
`count` buffer is touched. -/
def cl_do_merge (hs hs2 : haplotype_str) : haplotype_str × haplotype_str :=
  ({ hs with
     snps := cl_merge_snps hs hs2
     nseq := hs.nseq + hs2.nseq
     start := min hs.start hs2.start
     end_ := max hs.end_ hs2.end_
     recs := some (recsD hs ++ recsD hs2) },
   { hs2 with
     nseq := 0
     snps := []
     end_ := hs2.start - 1
     recs := none })

/-- One pass of the recruitment loop (lines 348-418) for the anchor `g`:
scan the rest of the block list, skipping items that miss the anchor's
pass-start extent (`iv_start`/`iv_end`, line 354) or mismatch it, merging
the others in; returns the grown anchor, the survivors (in order), the
tombstoned (unlinked) items and the `recruited` flag. -/
def cl_sweep (ivS ivE : Int) (g : haplotype_str) :
    List ClItem → haplotype_str × List ClItem × List ClItem × Bool
  | [] => (g, [], [], false)
  | h :: rest =>
    if h.ivStart > ivE ∨ h.ivEnd < ivS then
      let p := cl_sweep ivS ivE g rest
      (p.1, h :: p.2.1, p.2.2.1, p.2.2.2)
    else if cl_mismatch g h.hs then
      let p := cl_sweep ivS ivE g rest
      (p.1, h :: p.2.1, p.2.2.1, p.2.2.2)
    else
      let m := cl_do_merge g h.hs
      let p := cl_sweep ivS ivE m.1 rest
      (p.1, p.2.1, { h with hs := m.2 } :: p.2.2.1, true)

/-- The `again` loop of lines 347-433: repeat the sweep while it recruited
something, refreshing the pass extent from the anchor's record (lines
426-427).  A recruiting pass removes at least one item, so
`rest.length + 1` passes always suffice; the fuel only realises that
bound (`cl_anchor_go_fuel` below shows any larger fuel gives the same
result). -/
def cl_anchor_go : Nat → haplotype_str → List ClItem →
    haplotype_str × List ClItem × List ClItem
  | 0, g, rest => (g, rest, [])
  | fuel + 1, g, rest =>
    let p := cl_sweep g.start g.end_ g rest
    if p.2.2.2 then
      let q := cl_anchor_go fuel p.1 p.2.1
      (q.1, q.2.1, p.2.2.1 ++ q.2.2)
    else (p.1, p.2.1, p.2.2.1)

def cl_anchor (g : haplotype_str) (rest : List ClItem) :
    haplotype_str × List ClItem × List ClItem :=
  cl_anchor_go (rest.length + 1) g rest

/-- The outer recruitment loop of lines 339-434: each list item in turn
anchors a recruitment pass over the items after it.  Returns the live
items and the tombstoned ones.  One item is consumed per step, so
`items.length` steps suffice. -/
def cl_outer_go : Nat → List ClItem → List ClItem × List ClItem
  | 0, items => (items, [])
  | _ + 1, [] => ([], [])
  | fuel + 1, a :: rest =>
    let p := cl_anchor a.hs rest
    let q := cl_outer_go fuel p.2.1
    ({ a with hs := p.1 } :: q.1, p.2.2 ++ q.2)

def cl_outer (items : List ClItem) : List ClItem × List ClItem :=
  cl_outer_go items.length items

/-- One subregion (lines 269-459): sort the block — `ivp_sort`'s
`sqrt`-weighted comparator is not modelled numerically, so the order is an
arbitrary `sorter` and every theorem below holds for all of them — then
run the recruitment loops. -/
def cl_subregion (sorter : List ClItem → List ClItem)
    (blk : List ClItem) : List ClItem × List ClItem :=
  cl_outer (sorter blk)

/-- The block scan of `haplotype_str_cluster` (lines 480-519): walking the
iterator order, a new block starts whenever an item's tree `start` passes
the largest tree `end` seen in the current block. -/
def cl_blocks_go (cur : List ClItem) (longest : Int) :
    List ClItem → List (List ClItem)
  | [] => [cur]
  | x :: rest =>
    if x.ivStart > longest then
      cur :: cl_blocks_go [x] x.ivEnd rest
    else cl_blocks_go (cur ++ [x]) (max longest x.ivEnd) rest

def cl_blocks : List ClItem → List (List ClItem)
  | [] => []
  | x :: rest => cl_blocks_go [x] x.ivEnd rest

/-- The function `haplotype_str_cluster` (lines 462-527): split the items
into blocks and cluster each subregion, collecting the live items and the
tombstones. -/
def haplotype_str_cluster (sorter : List ClItem → List ClItem)
    (items : List ClItem) : List ClItem × List ClItem :=
  ((cl_blocks items).map (fun b => cl_subregion sorter b)).foldr
    (fun p acc => (p.1 ++ acc.1, p.2 ++ acc.2)) ([], [])

/-- The part of `HsWF` the cluster pass maintains: the `snps` buffer spans
the extent.  (`count` deliberately falls out of step — that is C10.) -/
def SnpsWF (h : haplotype_str) : Prop :=
  h.snps.length = (h.end_ - h.start + 1).toNat ∧ h.start ≤ h.end_ + 1

instance (h : haplotype_str) : Decidable (SnpsWF h) := by
  unfold SnpsWF; infer_instance

/-- `g` extends `a`: `g` covers `a`'s extent and holds `a`'s base at every
position where `a` holds one. -/
def Extends (g a : haplotype_str) : Prop :=
  g.start ≤ a.start ∧ a.end_ ≤ g.end_ ∧
  ∀ i : Int, a.start ≤ i → i ≤ a.end_ → hsChar a i ≠ '-' →
    hsChar g i = hsChar a i

theorem Extends_refl (a : haplotype_str) : Extends a a :=
  ⟨le_refl _, le_refl _, fun _ _ _ _ => rfl⟩

theorem Extends_trans {g h a : haplotype_str} (h1 : Extends g h)
    (h2 : Extends h a) : Extends g a := by
  obtain ⟨h1s, h1e, h1c⟩ := h1
  obtain ⟨h2s, h2e, h2c⟩ := h2
  refine ⟨by omega, by omega, ?_⟩
  intro i hi1 hi2 hi3
  have hmid := h2c i hi1 hi2 hi3
  have := h1c i (by omega) (by omega) (by rw [hmid]; exact hi3)
  rw [this, hmid]

theorem padTo_length (l : List Char) (n : Nat) :
    (padTo l n).length = max l.length n := by
  unfold padTo
  rw [List.length_append, List.length_replicate]
  omega

/-- Padding with the read default is invisible to `getI`. -/
theorem getI_padTo (l : List Char) (n : Nat) (j : Int) :
    getI '?' (padTo l n) j = getI '?' l j := by
  unfold getI padTo
  by_cases hj : j < 0
  · rw [if_pos hj, if_pos hj]
  · rw [if_neg hj, if_neg hj, List.getD_eq_getElem?_getD,
      List.getD_eq_getElem?_getD]
    by_cases hl : j.toNat < l.length
    · rw [List.getElem?_append_left hl]
    · rw [List.getElem?_eq_none (show l.length ≤ j.toNat by omega),
        List.getElem?_append_right (show l.length ≤ j.toNat by omega)]
      rcases hg : (List.replicate (n - l.length) '?')[j.toNat - l.length]?
        with _ | c
      · rfl
      · have hcq := List.eq_of_mem_replicate (List.getElem?_mem hg)
        rw [hcq]
        rfl

theorem forRange_length_inv {γ : Type} (f : Int → List γ → List γ)
    (hf : ∀ i b, (f i b).length = b.length) :
    ∀ (lo hi : Int) (buf : List γ),
      (forRange lo hi f buf).length = buf.length := by
  intro lo hi
  by_cases hle : lo ≤ hi
  · intro buf
    rw [forRange_step _ _ _ _ hle,
      forRange_length_inv f hf (lo + 1) hi (f lo buf), hf]
  · intro buf
    rw [forRange_stop _ _ _ _ hle]
termination_by lo hi => (hi + 1 - lo).toNat
decreasing_by omega

theorem cl_mismatch_false {hs hs2 : haplotype_str}
    (h : cl_mismatch hs hs2 = false) :
    ∀ i, max hs.start hs2.start ≤ i → i ≤ min hs.end_ hs2.end_ →
      hsChar hs i ≠ '-' → hsChar hs2 i ≠ '-' →
      hsChar hs i = hsChar hs2 i := by
  intro i hi1 hi2 hc1 hc2
  have := List.any_eq_false.1 h i (mem_intRange.2 ⟨hi1, hi2⟩)
  simp only [decide_eq_true_eq] at this
  by_contra hne
  exact this ⟨hne, hc1, hc2⟩

theorem cl_merge_snps_length {hs hs2 : haplotype_str} (hw1 : SnpsWF hs)
    (hw2 : SnpsWF hs2) :
    (cl_merge_snps hs hs2).length =
      (max hs.end_ hs2.end_ - min hs.start hs2.start + 1).toNat := by
  unfold cl_merge_snps
  obtain ⟨hl1, hb1⟩ := hw1
  obtain ⟨hl2, hb2⟩ := hw2
  by_cases hc : hs2.start ≤ hs.start
  · rw [if_pos hc, forRange_length_inv _ (by
      intro i b
      split
      · rw [setI_length]
      · rfl), padTo_length]
    omega
  · rw [if_neg hc, forRange_length_inv _ (by
      intro i b
      split
      · rw [setI_length]
      · rfl), padTo_length]
    omega

/-- The anchor produced by `cl_do_merge` keeps a well-formed `snps` buffer
and extends both of its inputs; its `count` is the anchor's old `count`
and its records are the concatenation. -/
theorem cl_do_merge_spec {hs hs2 : haplotype_str} (hw1 : SnpsWF hs)
    (hw2 : SnpsWF hs2) (hmm2 : cl_mismatch hs hs2 = false) :
    SnpsWF (cl_do_merge hs hs2).1 ∧
    Extends (cl_do_merge hs hs2).1 hs ∧
    Extends (cl_do_merge hs hs2).1 hs2 ∧
    (cl_do_merge hs hs2).1.count = hs.count ∧
    (cl_do_merge hs hs2).1.nseq = hs.nseq + hs2.nseq ∧
    recsD (cl_do_merge hs hs2).1 = recsD hs ++ recsD hs2 := by
  obtain ⟨hl1, hb1⟩ := hw1
  obtain ⟨hl2, hb2⟩ := hw2
  have hagree := cl_mismatch_false hmm2
  have hlen := cl_merge_snps_length ⟨hl1, hb1⟩ ⟨hl2, hb2⟩
  refine ⟨⟨hlen, by dsimp [cl_do_merge]; omega⟩, ?_, ?_, rfl, rfl, rfl⟩
  · -- extends the anchor hs
    refine ⟨min_le_left _ _, le_max_left _ _, ?_⟩
    intro i hi1 hi2 hi3
    show getI '?' (cl_merge_snps hs hs2)
      (i - min hs.start hs2.start) = hsChar hs i
    unfold cl_merge_snps
    by_cases hc : hs2.start ≤ hs.start
    · rw [if_pos hc]
      rw [forRange_write_get '?' hs2.start
        (fun i => hsChar hs i ≠ '-' ∨ i > hs2.end_)
        (fun i => hsChar hs i) (i - min hs.start hs2.start)
        (max hs.start hs2.start) hs.end_ _]
      rw [if_pos (by
        rw [padTo_length]
        refine ⟨?_, ?_, ?_, ?_, ?_⟩
        · omega
        · omega
        · rw [show i - min hs.start hs2.start + hs2.start = i by omega]
          exact Or.inl hi3
        · omega
        · omega)]
      rw [show i - min hs.start hs2.start + hs2.start = i by omega]
    · rw [if_neg hc]
      rw [forRange_write_get '?' hs.start
        (fun i => hsChar hs2 i ≠ '-' ∨ i > hs.end_)
        (fun i => hsChar hs2 i) (i - min hs.start hs2.start)
        (max hs.start hs2.start) hs2.end_ _]
      rw [show i - min hs.start hs2.start + hs.start = i by omega]
      by_cases hin : max hs.start hs2.start ≤ i ∧ i ≤ hs2.end_ ∧
          (hsChar hs2 i ≠ '-' ∨ i > hs.end_) ∧
          0 ≤ i - min hs.start hs2.start ∧
          i - min hs.start hs2.start < ((padTo hs.snps
            (max hs.end_ hs2.end_ - min hs.start hs2.start + 1).toNat).length
            : Int)
      · rw [if_pos hin]
        rcases hin.2.2.1 with hd | hd
        · exact (hagree i (by omega) (by omega) hi3 hd).symm
        · omega
      · rw [if_neg hin]
        rw [getI_padTo]
        show getI '?' hs.snps (i - min hs.start hs2.start) = hsChar hs i
        rw [show min hs.start hs2.start = hs.start by omega]
        rfl
  · -- extends the merged-away hs2
    refine ⟨min_le_right _ _, le_max_right _ _, ?_⟩
    intro i hi1 hi2 hi3
    show getI '?' (cl_merge_snps hs hs2)
      (i - min hs.start hs2.start) = hsChar hs2 i
    unfold cl_merge_snps
    by_cases hc : hs2.start ≤ hs.start
    · rw [if_pos hc]
      rw [forRange_write_get '?' hs2.start
        (fun i => hsChar hs i ≠ '-' ∨ i > hs2.end_)
        (fun i => hsChar hs i) (i - min hs.start hs2.start)
        (max hs.start hs2.start) hs.end_ _]
      rw [show i - min hs.start hs2.start + hs2.start = i by omega]
      by_cases hin : max hs.start hs2.start ≤ i ∧ i ≤ hs.end_ ∧
          (hsChar hs i ≠ '-' ∨ i > hs2.end_) ∧
          0 ≤ i - min hs.start hs2.start ∧
          i - min hs.start hs2.start < ((padTo hs2.snps
            (max hs.end_ hs2.end_ - min hs.start hs2.start + 1).toNat).length
            : Int)
      · rw [if_pos hin]
        rcases hin.2.2.1 with hd | hd
        · exact hagree i (by omega) (by omega) hd hi3
        · omega
      · rw [if_neg hin]
        rw [getI_padTo]
        show getI '?' hs2.snps (i - min hs.start hs2.start) = hsChar hs2 i
        rw [show min hs.start hs2.start = hs2.start by omega]
        rfl
    · rw [if_neg hc]
      rw [forRange_write_get '?' hs.start
        (fun i => hsChar hs2 i ≠ '-' ∨ i > hs.end_)
        (fun i => hsChar hs2 i) (i - min hs.start hs2.start)
        (max hs.start hs2.start) hs2.end_ _]
      rw [if_pos (by
        rw [padTo_length]
        refine ⟨?_, ?_, ?_, ?_, ?_⟩
        · omega
        · omega
        · rw [show i - min hs.start hs2.start + hs.start = i by omega]
          exact Or.inl hi3
        · omega
        · omega)]
      rw [show i - min hs.start hs2.start + hs.start = i by omega]

/-- Everything one recruitment pass guarantees: the anchor stays
well-formed, extends its old self, keeps its `count`, and every record it
holds traces to itself or to a merged-in item it extends; survivors are
untouched list members, tombstones have the lines-399-406 shape with the
tree-key fields and `count` of their source, and the pass only splits the
list. -/
theorem cl_sweep_spec (ivS ivE : Int) :
    ∀ (rest : List ClItem) (g : haplotype_str), SnpsWF g →
      (∀ x ∈ rest, SnpsWF x.hs) →
      SnpsWF (cl_sweep ivS ivE g rest).1 ∧
      Extends (cl_sweep ivS ivE g rest).1 g ∧
      (cl_sweep ivS ivE g rest).1.count = g.count ∧
      (∀ r ∈ recsD (cl_sweep ivS ivE g rest).1,
        r ∈ recsD g ∨ ∃ x ∈ rest, r ∈ recsD x.hs ∧
          Extends (cl_sweep ivS ivE g rest).1 x.hs) ∧
      (∀ x ∈ (cl_sweep ivS ivE g rest).2.1, x ∈ rest) ∧
      (∀ x ∈ (cl_sweep ivS ivE g rest).2.2.1, ∃ y ∈ rest,
        x.id = y.id ∧ x.ivStart = y.ivStart ∧ x.ivEnd = y.ivEnd ∧
        x.hs.count = y.hs.count ∧ x.hs.start = y.hs.start ∧
        x.hs.nseq = 0 ∧ x.hs.snps = [] ∧
        x.hs.end_ = x.hs.start - 1 ∧ x.hs.recs = none) ∧
      (((cl_sweep ivS ivE g rest).2.1.map ClItem.id) ++
        ((cl_sweep ivS ivE g rest).2.2.1.map ClItem.id)).Perm
        (rest.map ClItem.id) := by
  intro rest
  induction rest with
  | nil =>
    intro g hg _
    refine ⟨hg, Extends_refl g, rfl, fun r hr => Or.inl hr, ?_, ?_, ?_⟩
    · intro x hx
      exact absurd hx (List.not_mem_nil x)
    · intro x hx
      exact absurd hx (List.not_mem_nil x)
    · exact List.Perm.refl _
  | cons h rest ih =>
    intro g hg hall
    have hallr : ∀ x ∈ rest, SnpsWF x.hs :=
      fun x hx => hall x (List.mem_cons_of_mem _ hx)
    by_cases hgate : h.ivStart > ivE ∨ h.ivEnd < ivS
    · obtain ⟨h1, h2, h3, h4, h5, h6, h7⟩ := ih g hg hallr
      have hred : cl_sweep ivS ivE g (h :: rest) =
          ((cl_sweep ivS ivE g rest).1,
           h :: (cl_sweep ivS ivE g rest).2.1,
           (cl_sweep ivS ivE g rest).2.2.1,
           (cl_sweep ivS ivE g rest).2.2.2) := by
        simp only [cl_sweep, if_pos hgate]
      rw [hred]
      refine ⟨h1, h2, h3, ?_, ?_, ?_, ?_⟩
      · intro r hr
        rcases h4 r hr with hr | ⟨x, hx, hrx, hex⟩
        · exact Or.inl hr
        · exact Or.inr ⟨x, List.mem_cons_of_mem _ hx, hrx, hex⟩
      · intro x hx
        rcases List.mem_cons.1 hx with hx | hx
        · exact hx ▸ List.mem_cons_self _ _
        · exact List.mem_cons_of_mem _ (h5 x hx)
      · intro x hx
        obtain ⟨y, hy, hrest⟩ := h6 x hx
        exact ⟨y, List.mem_cons_of_mem _ hy, hrest⟩
      · simpa using h7.cons h.id
    · by_cases hmm2 : cl_mismatch g h.hs
      · obtain ⟨h1, h2, h3, h4, h5, h6, h7⟩ := ih g hg hallr
        have hred : cl_sweep ivS ivE g (h :: rest) =
            ((cl_sweep ivS ivE g rest).1,
             h :: (cl_sweep ivS ivE g rest).2.1,
             (cl_sweep ivS ivE g rest).2.2.1,
             (cl_sweep ivS ivE g rest).2.2.2) := by
          simp only [cl_sweep, if_neg hgate, if_pos hmm2]
        rw [hred]
        refine ⟨h1, h2, h3, ?_, ?_, ?_, ?_⟩
        · intro r hr
          rcases h4 r hr with hr | ⟨x, hx, hrx, hex⟩
          · exact Or.inl hr
          · exact Or.inr ⟨x, List.mem_cons_of_mem _ hx, hrx, hex⟩
        · intro x hx
          rcases List.mem_cons.1 hx with hx | hx
          · exact hx ▸ List.mem_cons_self _ _
          · exact List.mem_cons_of_mem _ (h5 x hx)
        · intro x hx
          obtain ⟨y, hy, hrest⟩ := h6 x hx
          exact ⟨y, List.mem_cons_of_mem _ hy, hrest⟩
        · simpa using h7.cons h.id
      · have hmmf : cl_mismatch g h.hs = false := by
          rwa [Bool.not_eq_true] at hmm2
        obtain ⟨hmwf, hmg, hmh, hmc, hmn, hmr⟩ :=
          cl_do_merge_spec hg (hall h (List.mem_cons_self _ _)) hmmf
        obtain ⟨h1, h2, h3, h4, h5, h6, h7⟩ :=
          ih (cl_do_merge g h.hs).1 hmwf hallr
        have hred : cl_sweep ivS ivE g (h :: rest) =
            ((cl_sweep ivS ivE (cl_do_merge g h.hs).1 rest).1,
             (cl_sweep ivS ivE (cl_do_merge g h.hs).1 rest).2.1,
             { h with hs := (cl_do_merge g h.hs).2 } ::
               (cl_sweep ivS ivE (cl_do_merge g h.hs).1 rest).2.2.1,
             true) := by
          simp only [cl_sweep, if_neg hgate, if_neg hmm2]
        rw [hred]
        refine ⟨h1, Extends_trans h2 hmg, by rw [h3, hmc], ?_, ?_, ?_, ?_⟩
        · intro r hr
          rcases h4 r hr with hr | ⟨x, hx, hrx, hex⟩
          · rw [hmr] at hr
            rcases List.mem_append.1 hr with hr | hr
            · exact Or.inl hr
            · exact Or.inr ⟨h, List.mem_cons_self _ _, hr,
                Extends_trans h2 hmh⟩
          · exact Or.inr ⟨x, List.mem_cons_of_mem _ hx, hrx, hex⟩
        · intro x hx
          exact List.mem_cons_of_mem _ (h5 x hx)
        · intro x hx
          rcases List.mem_cons.1 hx with hx | hx
          · subst hx
            refine ⟨h, List.mem_cons_self _ _, rfl, rfl, rfl, rfl, rfl,
              rfl, rfl, ?_, rfl⟩
            show (h.hs.start - 1 : Int) = h.hs.start - 1
            rfl
          · obtain ⟨y, hy, hrest⟩ := h6 x hx
            exact ⟨y, List.mem_cons_of_mem _ hy, hrest⟩
        · refine List.Perm.trans ?_ (h7.cons h.id)
          simpa using List.perm_middle

theorem perm_rotate {β : Type} {a b c d : List β}
    (h : (a ++ c).Perm d) : (a ++ (b ++ c)).Perm (d ++ b) := by
  have h1 : (a ++ (b ++ c)).Perm (a ++ (c ++ b)) :=
    List.Perm.append_left a List.perm_append_comm
  refine h1.trans ?_
  rw [show a ++ (c ++ b) = (a ++ c) ++ b from
    (List.append_assoc a c b).symm]
  exact h.append_right b

theorem cl_sweep_keep_length (ivS ivE : Int) :
    ∀ (rest : List ClItem) (g : haplotype_str),
      (cl_sweep ivS ivE g rest).2.1.length ≤ rest.length ∧
      ((cl_sweep ivS ivE g rest).2.2.2 = true →
        (cl_sweep ivS ivE g rest).2.1.length < rest.length) := by
  intro rest
  induction rest with
  | nil =>
    intro g
    exact ⟨le_refl _, by intro h; exact absurd h (by simp [cl_sweep])⟩
  | cons h rest ih =>
    intro g
    by_cases hgate : h.ivStart > ivE ∨ h.ivEnd < ivS
    · have hred : cl_sweep ivS ivE g (h :: rest) =
          ((cl_sweep ivS ivE g rest).1,
           h :: (cl_sweep ivS ivE g rest).2.1,
           (cl_sweep ivS ivE g rest).2.2.1,
           (cl_sweep ivS ivE g rest).2.2.2) := by
        simp only [cl_sweep, if_pos hgate]
      rw [hred]
      obtain ⟨ha, hb⟩ := ih g
      exact ⟨by simpa using ha, fun hf => by simpa using hb hf⟩
    · by_cases hmm2 : cl_mismatch g h.hs
      · have hred : cl_sweep ivS ivE g (h :: rest) =
            ((cl_sweep ivS ivE g rest).1,
             h :: (cl_sweep ivS ivE g rest).2.1,
             (cl_sweep ivS ivE g rest).2.2.1,
             (cl_sweep ivS ivE g rest).2.2.2) := by
          simp only [cl_sweep, if_neg hgate, if_pos hmm2]
        rw [hred]
        obtain ⟨ha, hb⟩ := ih g
        exact ⟨by simpa using ha, fun hf => by simpa using hb hf⟩
      · have hred : cl_sweep ivS ivE g (h :: rest) =
            ((cl_sweep ivS ivE (cl_do_merge g h.hs).1 rest).1,
             (cl_sweep ivS ivE (cl_do_merge g h.hs).1 rest).2.1,
             { h with hs := (cl_do_merge g h.hs).2 } ::
               (cl_sweep ivS ivE (cl_do_merge g h.hs).1 rest).2.2.1,
             true) := by
          simp only [cl_sweep, if_neg hgate, if_neg hmm2]
        rw [hred]
        obtain ⟨ha, _⟩ := ih (cl_do_merge g h.hs).1
        refine ⟨?_, fun _ => ?_⟩
        · simp only [List.length_cons]
          omega
        · simp only [List.length_cons]
          omega

/-- The fuel of `cl_anchor_go` only realises the termination bound: any
fuel above the list length gives the same result, so `cl_anchor` computes
the C `goto again` loop exactly. -/
theorem cl_anchor_go_fuel :
    ∀ (fuel fuel2 : Nat) (g : haplotype_str) (rest : List ClItem),
      rest.length < fuel → rest.length < fuel2 →
      cl_anchor_go fuel g rest = cl_anchor_go fuel2 g rest := by
  intro fuel
  induction fuel with
  | zero => intro fuel2 g rest h1; omega
  | succ fuel ih =>
    intro fuel2 g rest h1 h2
    rcases fuel2 with _ | fuel2
    · omega
    · show cl_anchor_go (fuel + 1) g rest = cl_anchor_go (fuel2 + 1) g rest
      simp only [cl_anchor_go]
      by_cases hf : (cl_sweep g.start g.end_ g rest).2.2.2
      · rw [if_pos hf, if_pos hf]
        have hlt := (cl_sweep_keep_length g.start g.end_ rest g).2 hf
        rw [ih fuel2 (cl_sweep g.start g.end_ g rest).1
          (cl_sweep g.start g.end_ g rest).2.1 (by omega) (by omega)]
      · rw [if_neg hf, if_neg hf]

/-- `cl_anchor_go` inherits every sweep guarantee. -/
theorem cl_anchor_go_spec :
    ∀ (fuel : Nat) (g : haplotype_str) (rest : List ClItem), SnpsWF g →
      (∀ x ∈ rest, SnpsWF x.hs) →
      SnpsWF (cl_anchor_go fuel g rest).1 ∧
      Extends (cl_anchor_go fuel g rest).1 g ∧
      (cl_anchor_go fuel g rest).1.count = g.count ∧
      (∀ r ∈ recsD (cl_anchor_go fuel g rest).1,
        r ∈ recsD g ∨ ∃ x ∈ rest, r ∈ recsD x.hs ∧
          Extends (cl_anchor_go fuel g rest).1 x.hs) ∧
      (∀ x ∈ (cl_anchor_go fuel g rest).2.1, x ∈ rest) ∧
      (∀ x ∈ (cl_anchor_go fuel g rest).2.2, ∃ y ∈ rest,
        x.id = y.id ∧ x.ivStart = y.ivStart ∧ x.ivEnd = y.ivEnd ∧
        x.hs.count = y.hs.count ∧ x.hs.start = y.hs.start ∧
        x.hs.nseq = 0 ∧ x.hs.snps = [] ∧
        x.hs.end_ = x.hs.start - 1 ∧ x.hs.recs = none) ∧
      (((cl_anchor_go fuel g rest).2.1.map ClItem.id) ++
        ((cl_anchor_go fuel g rest).2.2.map ClItem.id)).Perm
        (rest.map ClItem.id) := by
  intro fuel
  induction fuel with
  | zero =>
    intro g rest hg _
    refine ⟨hg, Extends_refl g, rfl, fun r hr => Or.inl hr,
      fun x hx => hx, ?_, ?_⟩
    · intro x hx
      exact absurd hx (List.not_mem_nil x)
    · simp [cl_anchor_go]
  | succ fuel ih =>
    intro g rest hg hall
    obtain ⟨s1, s2, s3, s4, s5, s6, s7⟩ :=
      cl_sweep_spec g.start g.end_ rest g hg hall
    by_cases hf : (cl_sweep g.start g.end_ g rest).2.2.2
    · have hred : cl_anchor_go (fuel + 1) g rest =
          ((cl_anchor_go fuel (cl_sweep g.start g.end_ g rest).1
            (cl_sweep g.start g.end_ g rest).2.1).1,
           (cl_anchor_go fuel (cl_sweep g.start g.end_ g rest).1
            (cl_sweep g.start g.end_ g rest).2.1).2.1,
           (cl_sweep g.start g.end_ g rest).2.2.1 ++
             (cl_anchor_go fuel (cl_sweep g.start g.end_ g rest).1
              (cl_sweep g.start g.end_ g rest).2.1).2.2) := by
        simp only [cl_anchor_go, if_pos hf]
      obtain ⟨a1, a2, a3, a4, a5, a6, a7⟩ :=
        ih (cl_sweep g.start g.end_ g rest).1
          (cl_sweep g.start g.end_ g rest).2.1 s1
          (fun x hx => hall x (s5 x hx))
      rw [hred]
      refine ⟨a1, Extends_trans a2 s2, by rw [a3, s3], ?_, ?_, ?_, ?_⟩
      · intro r hr
        rcases a4 r hr with hr | ⟨x, hx, hrx, hex⟩
        · rcases s4 r hr with hr | ⟨x, hx, hrx, hex⟩
          · exact Or.inl hr
          · exact Or.inr ⟨x, hx, hrx, Extends_trans a2 hex⟩
        · exact Or.inr ⟨x, s5 x hx, hrx, hex⟩
      · intro x hx
        exact s5 x (a5 x hx)
      · intro x hx
        rcases List.mem_append.1 hx with hx | hx
        · exact s6 x hx
        · obtain ⟨y, hy, hrest⟩ := a6 x hx
          exact ⟨y, s5 y hy, hrest⟩
      · rw [List.map_append]
        exact (perm_rotate a7).trans s7
    · have hred : cl_anchor_go (fuel + 1) g rest =
          ((cl_sweep g.start g.end_ g rest).1,
           (cl_sweep g.start g.end_ g rest).2.1,
           (cl_sweep g.start g.end_ g rest).2.2.1) := by
        simp only [cl_anchor_go, if_neg hf]
      rw [hred]
      exact ⟨s1, s2, s3, s4, s5, s6, s7⟩

/-- The outer loop's guarantees: every live item keeps its list slot's
`id`, tree keys and `count`, extends its own source string, and holds only
records traceable to an input item it extends; every tombstone keeps its
source's `id`, tree keys, `count` and `start` and has the tombstone
shape; `id`s are only repartitioned between the two outputs. -/
theorem cl_outer_go_spec :
    ∀ (fuel : Nat) (items : List ClItem), (∀ x ∈ items, SnpsWF x.hs) →
      (∀ x ∈ (cl_outer_go fuel items).1, ∃ y ∈ items,
        x.id = y.id ∧ x.ivStart = y.ivStart ∧ x.ivEnd = y.ivEnd ∧
        x.hs.count = y.hs.count ∧ Extends x.hs y.hs ∧
        ∀ r ∈ recsD x.hs, ∃ z ∈ items, r ∈ recsD z.hs ∧
          Extends x.hs z.hs) ∧
      (∀ x ∈ (cl_outer_go fuel items).2, ∃ y ∈ items,
        x.id = y.id ∧ x.ivStart = y.ivStart ∧ x.ivEnd = y.ivEnd ∧
        x.hs.count = y.hs.count ∧ x.hs.start = y.hs.start ∧
        x.hs.nseq = 0 ∧ x.hs.snps = [] ∧
        x.hs.end_ = x.hs.start - 1 ∧ x.hs.recs = none) ∧
      (((cl_outer_go fuel items).1.map ClItem.id) ++
        ((cl_outer_go fuel items).2.map ClItem.id)).Perm
        (items.map ClItem.id) := by
  intro fuel
  induction fuel with
  | zero =>
    intro items _
    refine ⟨?_, ?_, by simp [cl_outer_go]⟩
    · intro x hx
      exact ⟨x, hx, rfl, rfl, rfl, rfl, Extends_refl _,
        fun r hr => ⟨x, hx, hr, Extends_refl _⟩⟩
    · intro x hx
      exact absurd hx (List.not_mem_nil x)
  | succ fuel ih =>
    intro items hall
    rcases items with _ | ⟨a, rest⟩
    · refine ⟨?_, ?_, by simp [cl_outer_go]⟩
      · intro x hx
        exact absurd hx (List.not_mem_nil x)
      · intro x hx
        exact absurd hx (List.not_mem_nil x)
    · have hwa : SnpsWF a.hs := hall a (List.mem_cons_self _ _)
      have hwr : ∀ x ∈ rest, SnpsWF x.hs :=
        fun x hx => hall x (List.mem_cons_of_mem _ hx)
      obtain ⟨p1, p2, p3, p4, p5, p6, p7⟩ :=
        cl_anchor_go_spec (rest.length + 1) a.hs rest hwa hwr
      obtain ⟨q1, q2, q3⟩ := ih (cl_anchor a.hs rest).2.1
        (fun x hx => hwr x (p5 x hx))
      have hred : cl_outer_go (fuel + 1) (a :: rest) =
          ({ a with hs := (cl_anchor a.hs rest).1 } ::
            (cl_outer_go fuel (cl_anchor a.hs rest).2.1).1,
           (cl_anchor a.hs rest).2.2 ++
            (cl_outer_go fuel (cl_anchor a.hs rest).2.1).2) := by
        simp only [cl_outer_go]
      rw [hred]
      refine ⟨?_, ?_, ?_⟩
      · intro x hx
        rcases List.mem_cons.1 hx with hx | hx
        · subst hx
          refine ⟨a, List.mem_cons_self _ _, rfl, rfl, rfl, p3, p2, ?_⟩
          intro r hr
          rcases p4 r hr with hr | ⟨z, hz, hrz, hez⟩
          · exact ⟨a, List.mem_cons_self _ _, hr, p2⟩
          · exact ⟨z, List.mem_cons_of_mem _ hz, hrz, hez⟩
        · obtain ⟨y, hy, hrest⟩ := q1 x hx
          obtain ⟨e1, e2, e3, e4, e5, e6⟩ := hrest
          refine ⟨y, List.mem_cons_of_mem _ (p5 y hy), e1, e2, e3, e4,
            e5, ?_⟩
          intro r hr
          obtain ⟨z, hz, hrz, hez⟩ := e6 r hr
          exact ⟨z, List.mem_cons_of_mem _ (p5 z hz), hrz, hez⟩
      · intro x hx
        rcases List.mem_append.1 hx with hx | hx
        · obtain ⟨y, hy, hrest⟩ := p6 x hx
          exact ⟨y, List.mem_cons_of_mem _ hy, hrest⟩
        · obtain ⟨y, hy, hrest⟩ := q2 x hx
          exact ⟨y, List.mem_cons_of_mem _ (p5 y hy), hrest⟩
      · simp only [List.map_cons, List.map_append, List.cons_append]
        refine List.Perm.cons a.id ?_
        exact (perm_rotate q3).trans p7

/-- The block scan only regroups the list. -/
theorem cl_blocks_go_join :
    ∀ (rest cur : List ClItem) (longest : Int),
      (cl_blocks_go cur longest rest).flatten = cur ++ rest := by
  intro rest
  induction rest with
  | nil => intro cur longest; simp [cl_blocks_go]
  | cons x rest ih =>
    intro cur longest
    by_cases hx : x.ivStart > longest
    · simp only [cl_blocks_go, if_pos hx, List.flatten_cons]
      rw [ih [x] x.ivEnd]
      simp
    · simp only [cl_blocks_go, if_neg hx]
      rw [ih (cur ++ [x]) (max longest x.ivEnd)]
      simp

theorem cl_blocks_join (items : List ClItem) :
    (cl_blocks items).flatten = items := by
  rcases items with _ | ⟨x, rest⟩
  · rfl
  · show (cl_blocks_go [x] x.ivEnd rest).flatten = x :: rest
    rw [cl_blocks_go_join]
    rfl

theorem cl_blocks_mem {items : List ClItem} {b : List ClItem}
    (hb : b ∈ cl_blocks items) : ∀ x ∈ b, x ∈ items := by
  intro x hx
  rw [← cl_blocks_join items]
  exact List.mem_flatten.2 ⟨b, hb, hx⟩

/-- `haplotype_str_cluster`'s live/dead outputs, blockwise. -/
theorem cluster_parts (sorter : List ClItem → List ClItem) :
    ∀ (bs : List (List ClItem)),
      ((bs.map (fun b => cl_subregion sorter b)).foldr
        (fun p acc => (p.1 ++ acc.1, p.2 ++ acc.2)) ([], [])).1 =
        (bs.map (fun b => (cl_subregion sorter b).1)).flatten ∧
      ((bs.map (fun b => cl_subregion sorter b)).foldr
        (fun p acc => (p.1 ++ acc.1, p.2 ++ acc.2)) ([], [])).2 =
        (bs.map (fun b => (cl_subregion sorter b).2)).flatten := by
  intro bs
  induction bs with
  | nil => exact ⟨rfl, rfl⟩
  | cons b bs ih =>
    simp only [List.map_cons, List.foldr_cons, List.flatten_cons]
    exact ⟨by rw [ih.1], by rw [ih.2]⟩

theorem perm_interleave {β : Type} {a b c d e f : List β}
    (h1 : (a ++ c).Perm e) (h2 : (b ++ d).Perm f) :
    ((a ++ b) ++ (c ++ d)).Perm (e ++ f) := by
  have hre : (a ++ b) ++ (c ++ d) = a ++ ((b ++ c) ++ d) := by
    simp [List.append_assoc]
  have hre2 : a ++ ((c ++ b) ++ d) = (a ++ c) ++ (b ++ d) := by
    simp [List.append_assoc]
  have hmid : ((a ++ b) ++ (c ++ d)).Perm ((a ++ c) ++ (b ++ d)) := by
    rw [hre, ← hre2]
    exact List.Perm.append_left a
      (List.Perm.append_right d List.perm_append_comm)
  exact hmid.trans (h1.append h2)

theorem cluster_perm_aux (sorter : List ClItem → List ClItem)
    (hsorter : ∀ b, (sorter b).Perm b) :
    ∀ bs : List (List ClItem), (∀ b ∈ bs, ∀ x ∈ b, SnpsWF x.hs) →
      ((((bs.map (fun b => (cl_subregion sorter b).1)).flatten).map
          ClItem.id) ++
        (((bs.map (fun b => (cl_subregion sorter b).2)).flatten).map
          ClItem.id)).Perm (bs.flatten.map ClItem.id) := by
  intro bs
  induction bs with
  | nil => intro _; simp
  | cons b bs ihb =>
    intro hall
    simp only [List.map_cons, List.flatten_cons, List.map_append]
    refine perm_interleave ?_
      (ihb (fun c hc => hall c (List.mem_cons_of_mem _ hc)))
    have hwf : ∀ x ∈ sorter b, SnpsWF x.hs :=
      fun x hx => hall b (List.mem_cons_self _ _) x ((hsorter b).mem_iff.1 hx)
    obtain ⟨_, _, o3⟩ := cl_outer_go_spec (sorter b).length (sorter b) hwf
    exact o3.trans ((hsorter b).map ClItem.id)

/-- Full trace for the cluster pass: every live group keeps its slot's
`id`, tree keys and `count` and extends every input whose records it
absorbed; every tombstone has the merged-away shape; `id`s are only
repartitioned. -/
theorem cluster_spec (sorter : List ClItem → List ClItem)
    (hsorter : ∀ b, (sorter b).Perm b) (items : List ClItem)
    (hall : ∀ x ∈ items, SnpsWF x.hs) :
    (∀ x ∈ (haplotype_str_cluster sorter items).1, ∃ y ∈ items,
      x.id = y.id ∧ x.ivStart = y.ivStart ∧ x.ivEnd = y.ivEnd ∧
      x.hs.count = y.hs.count ∧ Extends x.hs y.hs ∧
      ∀ r ∈ recsD x.hs, ∃ z ∈ items, r ∈ recsD z.hs ∧
        Extends x.hs z.hs) ∧
    (∀ x ∈ (haplotype_str_cluster sorter items).2, ∃ y ∈ items,
      x.id = y.id ∧ x.ivStart = y.ivStart ∧ x.ivEnd = y.ivEnd ∧
      x.hs.count = y.hs.count ∧ x.hs.start = y.hs.start ∧
      x.hs.nseq = 0 ∧ x.hs.snps = [] ∧
      x.hs.end_ = x.hs.start - 1 ∧ x.hs.recs = none) ∧
    (((haplotype_str_cluster sorter items).1.map ClItem.id) ++
      ((haplotype_str_cluster sorter items).2.map ClItem.id)).Perm
      (items.map ClItem.id) := by
  obtain ⟨hl, hd⟩ := cluster_parts sorter (cl_blocks items)
  have hblk : ∀ b ∈ cl_blocks items,
      (∀ x ∈ (cl_subregion sorter b).1, ∃ y ∈ items,
        x.id = y.id ∧ x.ivStart = y.ivStart ∧ x.ivEnd = y.ivEnd ∧
        x.hs.count = y.hs.count ∧ Extends x.hs y.hs ∧
        ∀ r ∈ recsD x.hs, ∃ z ∈ items, r ∈ recsD z.hs ∧
          Extends x.hs z.hs) ∧
      (∀ x ∈ (cl_subregion sorter b).2, ∃ y ∈ items,
        x.id = y.id ∧ x.ivStart = y.ivStart ∧ x.ivEnd = y.ivEnd ∧
        x.hs.count = y.hs.count ∧ x.hs.start = y.hs.start ∧
        x.hs.nseq = 0 ∧ x.hs.snps = [] ∧
        x.hs.end_ = x.hs.start - 1 ∧ x.hs.recs = none) := by
    intro b hb
    have hmemb : ∀ x ∈ sorter b, x ∈ items := by
      intro x hx
      exact cl_blocks_mem hb x ((hsorter b).mem_iff.1 hx)
    obtain ⟨o1, o2, _⟩ := cl_outer_go_spec (sorter b).length (sorter b)
      (fun x hx => hall x (hmemb x hx))
    constructor
    · intro x hx
      obtain ⟨y, hy, hrest⟩ := o1 x hx
      obtain ⟨e1, e2, e3, e4, e5, e6⟩ := hrest
      refine ⟨y, hmemb y hy, e1, e2, e3, e4, e5, ?_⟩
      intro r hr
      obtain ⟨z, hz, hrz, hez⟩ := e6 r hr
      exact ⟨z, hmemb z hz, hrz, hez⟩
    · intro x hx
      obtain ⟨y, hy, hrest⟩ := o2 x hx
      exact ⟨y, hmemb y hy, hrest⟩
  refine ⟨?_, ?_, ?_⟩
  · intro x hx
    rw [show (haplotype_str_cluster sorter items).1 =
      ((cl_blocks items).map (fun b => (cl_subregion sorter b).1)).flatten
      from hl] at hx
    obtain ⟨l, hlmem, hxl⟩ := List.mem_flatten.1 hx
    obtain ⟨b, hb, hbe⟩ := List.mem_map.1 hlmem
    exact (hblk b hb).1 x (hbe ▸ hxl)
  · intro x hx
    rw [show (haplotype_str_cluster sorter items).2 =
      ((cl_blocks items).map (fun b => (cl_subregion sorter b).2)).flatten
      from hd] at hx
    obtain ⟨l, hlmem, hxl⟩ := List.mem_flatten.1 hx
    obtain ⟨b, hb, hbe⟩ := List.mem_map.1 hlmem
    exact (hblk b hb).2 x (hbe ▸ hxl)
  · rw [show (haplotype_str_cluster sorter items).1 =
      ((cl_blocks items).map (fun b => (cl_subregion sorter b).1)).flatten
      from hl,
      show (haplotype_str_cluster sorter items).2 =
      ((cl_blocks items).map (fun b => (cl_subregion sorter b).2)).flatten
      from hd]
    conv_rhs => rw [show items = (cl_blocks items).flatten from
      (cl_blocks_join items).symm]
    exact cluster_perm_aux sorter hsorter (cl_blocks items)
      (fun b hb x hx => hall x (cl_blocks_mem hb x hx))

/-- Two strings disagree at some jointly-defined position. -/
def Conflict (a b : haplotype_str) : Prop :=
  ∃ i : Int, a.start ≤ i ∧ i ≤ a.end_ ∧ b.start ≤ i ∧ i ≤ b.end_ ∧
    hsChar a i ≠ '-' ∧ hsChar b i ≠ '-' ∧ hsChar a i ≠ hsChar b i

theorem Extends_conflict {g a b : haplotype_str} (hc : Conflict a b)
    (ha : Extends g a) (hb : Extends g b) : False := by
  obtain ⟨i, h1, h2, h3, h4, h5, h6, h7⟩ := hc
  have ea := ha.2.2 i h1 h2 h5
  have eb := hb.2.2 i h3 h4 h6
  exact h7 (ea.symm.trans eb)

/-- Records `ra` and `rb` never share a live group after clustering. -/
def C4_separated (sorter : List ClItem → List ClItem)
    (items : List ClItem) (ra rb : Int) : Prop :=
  ∀ g ∈ (haplotype_str_cluster sorter items).1,
    ¬(ra ∈ recsD g.hs ∧ rb ∈ recsD g.hs)

/-- C4: for any input to `haplotype_str_cluster` holding two fragments
that disagree at a position where both are defined, and any sort order,
the two fragments' records never end up in the same live haplotype group
— no matter what other fragments (bridging wildcards included) are
present — provided each of the two record numbers occurs in its own
fragment only. -/
theorem C4_conflict_separation (sorter : List ClItem → List ClItem)
    (hsorter : ∀ b, (sorter b).Perm b) (items : List ClItem)
    (hall : ∀ x ∈ items, SnpsWF x.hs) (xa xb : ClItem)
    (hxa : xa ∈ items) (hxb : xb ∈ items) (hc : Conflict xa.hs xb.hs)
    (ra rb : Int) (hra : ra ∈ recsD xa.hs) (hrb : rb ∈ recsD xb.hs)
    (hua : ∀ z ∈ items, ra ∈ recsD z.hs → z.hs = xa.hs)
    (hub : ∀ z ∈ items, rb ∈ recsD z.hs → z.hs = xb.hs) :
    C4_separated sorter items ra rb := by
  intro g hg hboth
  obtain ⟨hga, hgb⟩ := hboth
  obtain ⟨y, hy, _, _, _, _, _, htr⟩ :=
    (cluster_spec sorter hsorter items hall).1 g hg
  obtain ⟨za, hza, hraz, heza⟩ := htr ra hga
  obtain ⟨zb, hzb, hrbz, hezb⟩ := htr rb hgb
  exact Extends_conflict hc (hua za hza hraz ▸ heza)
    (hub zb hzb hrbz ▸ hezb)

def clW_hsA : haplotype_str :=
  ⟨['A', 'C', '-', '-', '-'], [1, 1, 0, 0, 0], 1, 0, 4, some [101]⟩

def clW_hsT : haplotype_str :=
  ⟨['T', 'C', '-', '-', '-'], [1, 1, 0, 0, 0], 1, 0, 4, some [102]⟩

def clW_hsC : haplotype_str :=
  ⟨['-', 'C', '-', '-', '-'], [0, 1, 0, 0, 0], 1, 0, 4, some [103]⟩

def clW_items : List ClItem :=
  [⟨0, 0, 4, clW_hsA⟩, ⟨1, 0, 4, clW_hsT⟩, ⟨2, 0, 4, clW_hsC⟩]

theorem C4_conflict_separation_witness :
    (101 : Int) ∈ recsD clW_hsA ∧
    C4_separated (fun b => b) clW_items 101 102 :=
  ⟨by decide,
    C4_conflict_separation (fun b => b) (fun b => List.Perm.refl b)
      clW_items (by decide) ⟨0, 0, 4, clW_hsA⟩ ⟨1, 0, 4, clW_hsT⟩
      (by decide) (by decide) ⟨0, by decide⟩ 101 102 (by decide)
      (by decide) (by decide) (by decide)⟩

/-- Every tombstone has the merged-away shape, keeps its slot's tree
keys and `start`, and its `id` is gone from the live list. -/
def C6_tombSpec (sorter : List ClItem → List ClItem)
    (items : List ClItem) : Prop :=
  ∀ d ∈ (haplotype_str_cluster sorter items).2,
    d.hs.nseq = 0 ∧ d.hs.snps = [] ∧ d.hs.end_ = d.hs.start - 1 ∧
    d.hs.recs = none ∧
    (∃ y ∈ items, d.id = y.id ∧ d.ivStart = y.ivStart ∧
      d.ivEnd = y.ivEnd ∧ d.hs.start = y.hs.start) ∧
    d.id ∉ (haplotype_str_cluster sorter items).1.map ClItem.id

/-- C6: whenever the cluster pass merges a string away, the merged-away
string ends with `nseq = 0`, empty `snps`, `end = start - 1` and empty
`recs`, it is unlinked from the block list (its `id` is absent from the
live output, given distinct input `id`s), and its interval-tree keys are
unchanged. -/
theorem C6_tombstone_frame (sorter : List ClItem → List ClItem)
    (hsorter : ∀ b, (sorter b).Perm b) (items : List ClItem)
    (hall : ∀ x ∈ items, SnpsWF x.hs)
    (hnodup : (items.map ClItem.id).Nodup) :
    C6_tombSpec sorter items := by
  intro d hd
  obtain ⟨c1, c2, c3⟩ := cluster_spec sorter hsorter items hall
  obtain ⟨y, hy, e1, e2, e3, _, e5, e6, e7, e8, e9⟩ := c2 d hd
  have hnd : (((haplotype_str_cluster sorter items).1.map ClItem.id) ++
      ((haplotype_str_cluster sorter items).2.map ClItem.id)).Nodup :=
    c3.nodup_iff.2 hnodup
  have hdisj := (List.nodup_append.1 hnd).2.2
  refine ⟨e6, e7, e8, e9, ⟨y, hy, e1, e2, e3, e5⟩, ?_⟩
  intro hmem
  exact hdisj hmem (List.mem_map_of_mem ClItem.id hd)

theorem C6_tombstone_frame_witness :
    (clW_items.map ClItem.id).Nodup ∧
    C6_tombSpec (fun b => b) clW_items :=
  ⟨by decide,
    C6_tombstone_frame (fun b => b) (fun b => List.Perm.refl b)
      clW_items (by decide) (by decide)⟩

/-- Clustering leaves every string's `count` array exactly as it was;
in consequence, a live anchor whose extent changed no longer satisfies
`count.length = end - start + 1`. -/
def C10_countSpec (sorter : List ClItem → List ClItem)
    (items : List ClItem) : Prop :=
  (∀ g ∈ (haplotype_str_cluster sorter items).1, ∃ y ∈ items,
    g.id = y.id ∧ g.hs.count = y.hs.count ∧ Extends g.hs y.hs ∧
    (y.hs.count.length = (y.hs.end_ - y.hs.start + 1).toNat →
      (g.hs.end_ - g.hs.start + 1).toNat ≠
        (y.hs.end_ - y.hs.start + 1).toNat →
      g.hs.count.length ≠ (g.hs.end_ - g.hs.start + 1).toNat)) ∧
  (∀ d ∈ (haplotype_str_cluster sorter items).2, ∃ y ∈ items,
    d.id = y.id ∧ d.hs.count = y.hs.count)

/-- C10: `haplotype_str_cluster` never modifies any string's `count`
array — live and tombstoned outputs keep their source's `count`
verbatim — so once an anchor's extent grows, its `count` length no
longer equals `end - start + 1`. -/
theorem C10_count_frame (sorter : List ClItem → List ClItem)
    (hsorter : ∀ b, (sorter b).Perm b) (items : List ClItem)
    (hall : ∀ x ∈ items, SnpsWF x.hs) :
    C10_countSpec sorter items := by
  obtain ⟨c1, c2, _⟩ := cluster_spec sorter hsorter items hall
  constructor
  · intro g hg
    obtain ⟨y, hy, e1, _, _, e4, e5, _⟩ := c1 g hg
    refine ⟨y, hy, e1, e4, e5, ?_⟩
    intro hlen hne
    rw [e4, hlen]
    exact Ne.symm hne
  · intro d hd
    obtain ⟨y, hy, e1, _, _, e4, _⟩ := c2 d hd
    exact ⟨y, hy, e1, e4⟩

theorem C10_count_frame_witness :
    SnpsWF clW_hsA ∧ C10_countSpec (fun b => b) clW_items :=
  ⟨by decide,
    C10_count_frame (fun b => b) (fun b => List.Perm.refl b)
      clW_items (by decide)⟩

/-! ### `haplotype_str_filter` (lines 221-246) and `haplotype_str_reclist`
(lines 555-569) -/

/-- Deref a payload pointer; the all-dead record stands for a dangling
pointer (unreachable under `HapWF`). -/
def hsD (store : List (Nat × haplotype_str)) (n : Nat) : haplotype_str :=
  (lookupHs store n).getD ⟨[], [], 0, 0, -1, none⟩

/-- The staging test of line 228: `hs->nseq < min_count` read through the
payload pointer. -/
def stagedP (store : List (Nat × haplotype_str)) (min_count : Int)
    (iv : interval Unit) : Bool :=
  match lookupHs store iv.id with
  | none => false
  | some hs => hs.nseq < min_count

/-- The deferred deletion loop of lines 235-243: delete each staged
interval in turn (the return code is ignored, so a failing delete leaves
the tree as is). -/
def delList (t : interval_tree Unit) :
    List (interval Unit) → interval_tree Unit
  | [] => t
  | iv :: rest => delList ((interval_tree_del t iv).getD t) rest

/-- The function `haplotype_str_filter` (lines 221-246): the iterator
pass prepends every interval whose string has `nseq < min_count` to
`iv_list` — so the staged list holds the reverse yield order — then the
second loop deletes each staged interval and frees its string. -/
def haplotype_str_filter (ix : HapIndex) (min_count : Int) : HapIndex :=
  let staged := ((interval_recurse ix.tree INT_MIN INT_MAX).filter
    (stagedP ix.store min_count)).reverse
  { ix with
    tree := delList ix.tree staged
    store := ix.store.filter
      (fun p => !(staged.any (fun iv => iv.id == p.1))) }

/-- The loop of `haplotype_str_reclist` (lines 559-566) over the yielded
intervals: strings with `nseq = 0` are skipped; otherwise the
record-array handle is pushed (NULL or not) and NULLed in the string. -/
def reclist_go (store : List (Nat × haplotype_str)) :
    List (interval Unit) →
      List (Option (List Int)) × List (Nat × haplotype_str)
  | [] => ([], store)
  | iv :: rest =>
    match lookupHs store iv.id with
    | none => reclist_go store rest
    | some hs =>
      if hs.nseq = 0 then reclist_go store rest
      else
        let p := reclist_go
          (storeSet store iv.id { hs with recs := none }) rest
        (hs.recs :: p.1, p.2)

def haplotype_str_reclist (ix : HapIndex) :
    List (Option (List Int)) × HapIndex :=
  let p := reclist_go ix.store (interval_recurse ix.tree INT_MIN INT_MAX)
  (p.1, { ix with store := p.2 })

theorem interval_recurse_full {t : interval_tree Unit} (hinv : Inv t) :
    interval_recurse t INT_MIN INT_MAX = allIvs t := by
  rw [interval_recurse_eq_filter hinv.1 hinv.2.1 hinv.2.2.1]
  apply List.filter_eq_self.2
  intro i hi
  obtain ⟨p, hp, hip⟩ := mem_allIvs_iff.1 hi
  have hok := hinv.2.1 p hp
  obtain ⟨ha, hb2, hc2⟩ := hok.2.1 i hip
  have hd2 := hok.2.2.2
  simp only [decide_eq_true_eq]
  exact ⟨by omega, by omega⟩

theorem lookupHs_cons (k : Nat) (v : haplotype_str)
    (rest : List (Nat × haplotype_str)) (n : Nat) :
    lookupHs ((k, v) :: rest) n =
      if n == k then some v else lookupHs rest n := by
  cases h : n == k
  · simp [lookupHs, List.lookup, h]
  · simp [lookupHs, List.lookup, h]

theorem storeSet_cons (k : Nat) (v hs : haplotype_str)
    (rest : List (Nat × haplotype_str)) (m : Nat) :
    storeSet ((k, v) :: rest) m hs =
      (if k == m then (k, hs) else (k, v)) :: storeSet rest m hs := rfl

theorem lookupHs_storeSet_ne (hs : haplotype_str) :
    ∀ (store : List (Nat × haplotype_str)) {n m : Nat}, n ≠ m →
      lookupHs (storeSet store m hs) n = lookupHs store n := by
  intro store
  induction store with
  | nil => intro n m _; rfl
  | cons p rest ih =>
    intro n m hnm
    rcases p with ⟨k, v⟩
    rw [storeSet_cons]
    by_cases hkm : k = m
    · subst hkm
      rw [if_pos (by simp), lookupHs_cons, lookupHs_cons]
      rw [if_neg (by simpa using hnm)]
      rw [if_neg (by simpa using hnm)]
      exact ih hnm
    · rw [if_neg (by simpa using hkm), lookupHs_cons, lookupHs_cons]
      by_cases hnk : n = k
      · subst hnk
        rw [if_pos (by simp)]
        rw [if_pos (by simp)]
      · rw [if_neg (by simpa using hnk)]
        rw [if_neg (by simpa using hnk)]
        exact ih hnm

theorem lookupHs_storeSet_eq (hs : haplotype_str) :
    ∀ (store : List (Nat × haplotype_str)) {m : Nat}
      {t : haplotype_str}, lookupHs store m = some t →
      lookupHs (storeSet store m hs) m = some hs := by
  intro store
  induction store with
  | nil => intro m t h; exact Option.noConfusion h
  | cons p rest ih =>
    intro m t h
    rcases p with ⟨k, v⟩
    rw [storeSet_cons]
    by_cases hkm : k = m
    · subst hkm
      rw [if_pos (by simp), lookupHs_cons, if_pos (by simp)]
    · have hmk : ¬ m = k := fun h2 => hkm h2.symm
      rw [if_neg (by simpa using hkm), lookupHs_cons,
        if_neg (by simpa using hmk)]
      rw [lookupHs_cons, if_neg (by simpa using hmk)] at h
      exact ih h

/-- Deletion-loop invariant: deleting a staged sublist whose multiset
completes `keep` to the stored intervals leaves exactly `keep`. -/
theorem delList_spec :
    ∀ (staged keep : List (interval Unit)) (t : interval_tree Unit),
      Inv t → IdsNodup t → (staged ++ keep).Perm (allIvs t) →
      Inv (delList t staged) ∧ IdsNodup (delList t staged) ∧
      (allIvs (delList t staged)).Perm keep := by
  intro staged
  induction staged with
  | nil =>
    intro keep t h1 h2 hp
    exact ⟨h1, h2, hp.symm⟩
  | cons iv rest ih =>
    intro keep t h1 h2 hp
    have hmem : iv ∈ allIvs t := hp.mem_iff.1 (by simp)
    obtain ⟨t', hdel, hinv2, hnd2, hperm⟩ :=
      interval_tree_del_success h1 h2 hmem
    have hstep : delList t (iv :: rest) = delList t' rest := by
      simp only [delList, hdel, Option.getD_some]
    rw [hstep]
    apply ih keep t' hinv2 hnd2
    have hp2 : (iv :: (rest ++ keep)).Perm (allIvs t) := by
      simpa using hp
    exact (hp2.trans hperm).cons_inv

theorem haplotype_str_filter_spec (ix : HapIndex) (min_count : Int)
    (hinv : Inv ix.tree) (hnd : IdsNodup ix.tree) :
    Inv (haplotype_str_filter ix min_count).tree ∧
    IdsNodup (haplotype_str_filter ix min_count).tree ∧
    (allIvs (haplotype_str_filter ix min_count).tree).Perm
      ((allIvs ix.tree).filter
        (fun iv => !(stagedP ix.store min_count iv))) := by
  have hrec := interval_recurse_full hinv
  have hred : (haplotype_str_filter ix min_count).tree =
      delList ix.tree
        (((allIvs ix.tree).filter
          (stagedP ix.store min_count)).reverse) := by
    simp only [haplotype_str_filter, hrec]
  rw [hred]
  apply delList_spec
  · exact hinv
  · exact hnd
  · exact (List.Perm.append_right _ (List.reverse_perm _)).trans
      (List.filter_append_perm _ _)

theorem reclist_go_spec :
    ∀ (ivs : List (interval Unit)) (store : List (Nat × haplotype_str)),
      (ivs.map interval.id).Nodup →
      (∀ iv ∈ ivs, ∃ t, lookupHs store iv.id = some t) →
      (reclist_go store ivs).1 =
        (ivs.filter (fun iv => !((hsD store iv.id).nseq == 0))).map
          (fun iv => (hsD store iv.id).recs) ∧
      (∀ iv ∈ ivs, (hsD store iv.id).nseq ≠ 0 →
        lookupHs (reclist_go store ivs).2 iv.id =
          some { hsD store iv.id with recs := none }) ∧
      (∀ n : Nat, n ∉ ivs.map interval.id →
        lookupHs (reclist_go store ivs).2 n = lookupHs store n) := by
  intro ivs
  induction ivs with
  | nil =>
    intro store _ _
    refine ⟨rfl, ?_, fun n _ => rfl⟩
    intro iv hiv
    exact absurd hiv (List.not_mem_nil iv)
  | cons iv rest ih =>
    intro store hnd hsome
    have hndr : (rest.map interval.id).Nodup := (List.nodup_cons.1 hnd).2
    have hnotin : iv.id ∉ rest.map interval.id := (List.nodup_cons.1 hnd).1
    obtain ⟨hs, hhs⟩ := hsome iv (List.mem_cons_self _ _)
    have hhsD : hsD store iv.id = hs := by
      simp [hsD, hhs]
    by_cases hz : hs.nseq = 0
    · have hred : reclist_go store (iv :: rest) = reclist_go store rest := by
        simp only [reclist_go, hhs, if_pos hz]
      obtain ⟨a1, a2, a3⟩ := ih store hndr
        (fun x hx => hsome x (List.mem_cons_of_mem _ hx))
      rw [hred]
      refine ⟨?_, ?_, ?_⟩
      · rw [a1, List.filter_cons_of_neg]
        simp [hhsD, hz]
      · intro x hx hxz
        rcases List.mem_cons.1 hx with hx | hx
        · subst hx
          exact absurd (by rw [hhsD]; exact hz) hxz
        · exact a2 x hx hxz
      · intro n hn
        exact a3 n (fun hmem => hn (List.mem_cons_of_mem _ hmem))
    · have hred : reclist_go store (iv :: rest) =
          (hs.recs :: (reclist_go (storeSet store iv.id
              { hs with recs := none }) rest).1,
           (reclist_go (storeSet store iv.id
              { hs with recs := none }) rest).2) := by
        simp only [reclist_go, hhs, if_neg hz]
      have hlook2 : ∀ x ∈ rest,
          lookupHs (storeSet store iv.id { hs with recs := none }) x.id =
            lookupHs store x.id := by
        intro x hx
        apply lookupHs_storeSet_ne
        intro he
        exact hnotin (he ▸ List.mem_map_of_mem interval.id hx)
      have hsome2 : ∀ x ∈ rest, ∃ t,
          lookupHs (storeSet store iv.id { hs with recs := none }) x.id =
            some t := by
        intro x hx
        rw [hlook2 x hx]
        exact hsome x (List.mem_cons_of_mem _ hx)
      obtain ⟨a1, a2, a3⟩ := ih
        (storeSet store iv.id { hs with recs := none }) hndr hsome2
      have hDeq : ∀ x ∈ rest,
          hsD (storeSet store iv.id { hs with recs := none }) x.id =
            hsD store x.id := by
        intro x hx
        simp [hsD, hlook2 x hx]
      rw [hred]
      refine ⟨?_, ?_, ?_⟩
      · show hs.recs :: (reclist_go (storeSet store iv.id
            { hs with recs := none }) rest).1 = _
        rw [a1, List.filter_congr (fun x hx => by rw [hDeq x hx]),
          List.map_congr_left (fun x hx => by
            rw [hDeq x (List.mem_of_mem_filter hx)]),
          List.filter_cons_of_pos (by simp [hhsD, hz]),
          List.map_cons, hhsD]
      · intro x hx hxz
        rcases List.mem_cons.1 hx with hx | hx
        · subst hx
          rw [show (reclist_go (storeSet store x.id
              { hs with recs := none }) rest).2 = (reclist_go
              (storeSet store x.id { hs with recs := none }) rest).2
            from rfl]
          rw [a3 x.id hnotin, hhsD]
          exact lookupHs_storeSet_eq _ store hhs
        · rw [a2 x hx (by rw [hDeq x hx]; exact hxz), hDeq x hx]
      · intro n hn
        have hn1 : n ≠ iv.id := by
          intro he
          exact hn (by rw [he]; simp)
        have hn2 : n ∉ rest.map interval.id := by
          intro hmem
          exact hn (List.mem_cons_of_mem _ hmem)
        rw [a3 n hn2]
        exact lookupHs_storeSet_ne _ store hn1

/-- What C7 asserts, over the index state: the filtered tree holds
exactly the intervals whose strings had `nseq ≥ min_count` (so with
`min_count ≥ 1` no `nseq = 0` string survives); the reclist output is
exactly the record handles of the `nseq ≠ 0` strings in yield order; and
each emitted string's handle is NULLed in the store. -/
def C7_spec (ix : HapIndex) (min_count : Int) : Prop :=
  (allIvs (haplotype_str_filter ix min_count).tree).Perm
    ((allIvs ix.tree).filter
      (fun iv => !(decide ((hsD ix.store iv.id).nseq < min_count)))) ∧
  (1 ≤ min_count →
    ∀ iv ∈ allIvs (haplotype_str_filter ix min_count).tree,
      (hsD ix.store iv.id).nseq ≠ 0) ∧
  (haplotype_str_reclist ix).1 =
    ((allIvs ix.tree).filter
      (fun iv => !((hsD ix.store iv.id).nseq == 0))).map
      (fun iv => (hsD ix.store iv.id).recs) ∧
  (∀ iv ∈ allIvs ix.tree, (hsD ix.store iv.id).nseq ≠ 0 →
    lookupHs (haplotype_str_reclist ix).2.store iv.id =
      some { hsD ix.store iv.id with recs := none })

/-- C7: `haplotype_str_filter` removes from the tree exactly the strings
with `nseq < min_count` (each staged delete succeeds), so with
`min_count ≥ 1` every `nseq = 0` string is removed; and
`haplotype_str_reclist` skips exactly the `nseq = 0` strings, emits each
survivor's record-array handle once, and NULLs the handle in the string
so the array is transferred exactly once.  Only tree consistency,
distinct `id`s and payload-pointer validity are assumed — all of which
survive clustering, whose tombstones (`end = start - 1` under an
unchanged tree key) and grown anchors (stale `count`) are therefore
covered. -/
theorem C7_filter_reclist (ix : HapIndex) (min_count : Int)
    (hinv : Inv ix.tree)
    (hlook : ∀ iv ∈ allIvs ix.tree, ∃ t,
      lookupHs ix.store iv.id = some t)
    (hnd : IdsNodup ix.tree) :
    C7_spec ix min_count := by
  obtain ⟨hi1, hi2, hperm⟩ :=
    haplotype_str_filter_spec ix min_count hinv hnd
  have hfc : (allIvs ix.tree).filter
      (fun iv => !(stagedP ix.store min_count iv)) =
      (allIvs ix.tree).filter
        (fun iv => !(decide ((hsD ix.store iv.id).nseq < min_count))) := by
    apply List.filter_congr
    intro iv hiv
    obtain ⟨t, ht⟩ := hlook iv hiv
    simp [stagedP, hsD, ht]
  have hrec := interval_recurse_full hinv
  obtain ⟨r1, r2, r3⟩ := reclist_go_spec (allIvs ix.tree) ix.store hnd
    hlook
  refine ⟨hfc ▸ hperm, ?_, ?_, ?_⟩
  · intro hmc iv hiv
    have hmemf := (hfc ▸ hperm).mem_iff.1 hiv
    have hpred := List.of_mem_filter hmemf
    intro hz
    simp only [Bool.not_eq_true', decide_eq_false_iff_not, not_lt] at hpred
    omega
  · show (reclist_go ix.store
      (interval_recurse ix.tree INT_MIN INT_MAX)).1 = _
    rw [hrec, r1]
  · intro iv hiv hz
    show lookupHs (reclist_go ix.store
      (interval_recurse ix.tree INT_MIN INT_MAX)).2 iv.id = _
    rw [hrec]
    exact r2 iv hiv hz

/-- A post-clustering shape: the `id 0` string is a tombstone exactly as
`haplotype_str_cluster_subregion` leaves one (`nseq 0`, `snps` freed,
`end = start - 1`, `recs` gone, `count` untouched at the old five-slot
extent, tree key still `(0, 4)`); the `id 1` string is a grown anchor
whose `count` (two slots) no longer spans its four-column extent. -/
def fltW_hs0 : haplotype_str :=
  ⟨[], [0, 1, 0, 0, 0], 0, 0, -1, none⟩

def fltW_hs1 : haplotype_str :=
  ⟨['T', 'T', '-', '-'], [2, 2], 2, 6, 9, some [7, 8]⟩

def fltW_ix : HapIndex :=
  ⟨interval_tree_add (interval_tree_add interval_tree.leaf 0 4 0 ())
      6 9 1 (),
   [(0, fltW_hs0), (1, fltW_hs1)], 2⟩

theorem C7_filter_reclist_witness :
    IdsNodup fltW_ix.tree ∧ C7_spec fltW_ix 1 :=
  have hleaf : Inv (interval_tree.leaf : interval_tree Unit) := Inv_leaf
  have h1 := interval_tree_add_spec hleaf
    (show INT_MIN ≤ (4 : Int) by decide)
    (show (0 : Int) ≤ INT_MAX by decide) 0 ()
  have h2 := interval_tree_add_spec h1.1
    (show INT_MIN ≤ (9 : Int) by decide)
    (show (6 : Int) ≤ INT_MAX by decide) 1 ()
  have hlook : ∀ iv ∈ allIvs fltW_ix.tree, ∃ t,
      lookupHs fltW_ix.store iv.id = some t := by
    intro iv hiv
    have hall : allIvs fltW_ix.tree =
        [⟨0, 0, 4, ()⟩, ⟨1, 6, 9, ()⟩] := by decide
    rw [hall] at hiv
    rcases List.mem_cons.1 hiv with rfl | hiv
    · exact ⟨fltW_hs0, by decide⟩
    · rcases List.mem_cons.1 hiv with rfl | hiv
      · exact ⟨fltW_hs1, by decide⟩
      · exact absurd hiv (List.not_mem_nil _)
  ⟨by decide, C7_filter_reclist fltW_ix 1 h2.1 hlook (by decide)⟩

/-! ### The read-pair hash pass of `find_haplotypes_single` (lines
665-688) and the projection dispatch (lines 774-779) -/

/-- The two `rangec_t` fields the pair pass touches. -/
structure rangec where
  rec_ : Int
  pair_rec : Int
deriving DecidableEq, Repr

def rc0 : rangec := ⟨0, 0⟩

/-- `HashTableSearch`: the table holds (key, stored index) items. -/
def hashFind (h : List (Int × Nat)) (k : Int) : Option (Int × Nat) :=
  h.find? (fun p => p.1 == k)

/-- `HashTableDel` of the item `HashTableSearch` returned. -/
def hashDel (h : List (Int × Nat)) (k : Int) : List (Int × Nat) :=
  h.eraseP (fun p => p.1 == k)

/-- One iteration of the loop at lines 672-685: look the read's
`pair_rec` up among the stored `rec` keys; on a hit rewrite the *stored*
(earlier) read's `pair_rec` to minus the *current* index and drop the
item, else store `(rec, i)`. -/
def pair_step (st : List (Int × Nat) × List rangec) (i : Nat) :
    List (Int × Nat) × List rangec :=
  let r := getI rc0 st.2 (i : Int)
  match hashFind st.1 r.pair_rec with
  | some p =>
    (hashDel st.1 r.pair_rec,
     setI st.2 (p.2 : Int)
       { getI rc0 st.2 (p.2 : Int) with pair_rec := -(i : Int) })
  | none => ((r.rec_, i) :: st.1, st.2)

def pair_go : List (Int × Nat) → List rangec → List Nat →
    List (Int × Nat) × List rangec
  | h, rng, [] => (h, rng)
  | h, rng, i :: rest =>
    pair_go (pair_step (h, rng) i).1 (pair_step (h, rng) i).2 rest

/-- The whole hash pass (lines 667-688). -/
def pair_pass (rng : List rangec) : List rangec :=
  (pair_go [] rng (List.range rng.length)).2

/-- The projection dispatch of lines 774-779: a read is handled through
its pair sentinel exactly when `pair_rec < 0` and pairing is enabled. -/
def projectsAsPair (pairs : Bool) (r : rangec) : Bool :=
  pairs && decide (r.pair_rec < 0)

theorem mem_eraseP_of_not {γ : Type} {pr : γ → Bool} {x : γ} :
    ∀ {l : List γ}, x ∈ l → pr x = false → x ∈ l.eraseP pr := by
  intro l
  induction l with
  | nil => intro h _; exact absurd h (List.not_mem_nil x)
  | cons y l ih =>
    intro hx hpx
    rcases List.mem_cons.1 hx with rfl | hx
    · simp [List.eraseP_cons, hpx]
    · rw [List.eraseP_cons]
      cases hpy : pr y
      · simp only [cond_false]
        exact List.mem_cons_of_mem _ (ih hx hpx)
      · simp only [cond_true]
        exact hx

theorem pred_not_mem_eraseP {γ δ : Type} (f : γ → δ) {pr : γ → Bool}
    {x : γ} :
    ∀ {l : List γ} {q : γ}, q ∈ l.eraseP pr → (l.map f).Nodup →
      (∀ y ∈ l, pr y = true → y = x) → pr q = true → False := by
  intro l
  induction l with
  | nil =>
    intro q hq
    rw [List.eraseP_nil] at hq
    exact absurd hq (List.not_mem_nil q)
  | cons y l ih =>
    intro q hq hnd hall hpq
    rw [List.map_cons] at hnd
    have hnd2 := (List.nodup_cons.1 hnd).2
    have hfy := (List.nodup_cons.1 hnd).1
    rw [List.eraseP_cons] at hq
    cases hpy : pr y
    · rw [hpy] at hq
      simp only [cond_false] at hq
      rcases List.mem_cons.1 hq with rfl | hq
      · rw [hpq] at hpy
        exact Bool.noConfusion hpy
      · exact ih hq hnd2
          (fun z hz hpz => hall z (List.mem_cons_of_mem _ hz) hpz) hpq
    · rw [hpy] at hq
      simp only [cond_true] at hq
      have hyx : y = x := hall y (List.mem_cons_self _ _) hpy
      have hqx : q = x := hall q (List.mem_cons_of_mem _ hq) hpq
      apply hfy
      rw [hyx, ← hqx]
      exact List.mem_map_of_mem f hq

/-- The scan invariant at cursor `c` for a mated pair at `a < b`: unread
positions are untouched; every table item stores an earlier index keyed
by that read's `rec`; no index is stored twice; between the mates the
first mate's item is live and its slot untouched; past the second mate
the first slot holds `pair_rec = -b`, the second is untouched, and
neither index is in the table. -/
def PairInv (rng0 : List rangec) (a b c : Nat)
    (h : List (Int × Nat)) (rng : List rangec) : Prop :=
  rng.length = rng0.length ∧
  (∀ j : Nat, c ≤ j →
    getI rc0 rng (j : Int) = getI rc0 rng0 (j : Int)) ∧
  (∀ p ∈ h, p.2 < c ∧ p.1 = (getI rc0 rng0 (p.2 : Int)).rec_) ∧
  (h.map Prod.snd).Nodup ∧
  (a < c → c ≤ b →
    getI rc0 rng (a : Int) = getI rc0 rng0 (a : Int) ∧
    ((getI rc0 rng0 (a : Int)).rec_, a) ∈ h) ∧
  (b < c →
    getI rc0 rng (a : Int) =
      { getI rc0 rng0 (a : Int) with pair_rec := -(b : Int) } ∧
    getI rc0 rng (b : Int) = getI rc0 rng0 (b : Int) ∧
    ∀ p ∈ h, p.2 ≠ a ∧ p.2 ≠ b)

theorem pair_step_inv {rng0 : List rangec} {a b : Nat}
    (ha : a < b) (hb : b < rng0.length)
    (H1 : ∀ j : Nat, j < a →
      (getI rc0 rng0 (j : Int)).rec_ ≠ (getI rc0 rng0 (a : Int)).pair_rec)
    (Hb : (getI rc0 rng0 (b : Int)).pair_rec =
      (getI rc0 rng0 (a : Int)).rec_)
    (Hkey : ∀ j : Nat, j < b → j ≠ a →
      (getI rc0 rng0 (j : Int)).rec_ ≠ (getI rc0 rng0 (a : Int)).rec_)
    (H2 : ∀ k : Nat, k < b → a < k →
      (getI rc0 rng0 (k : Int)).pair_rec ≠ (getI rc0 rng0 (a : Int)).rec_)
    {c : Nat} {h : List (Int × Nat)} {rng : List rangec}
    (hinv : PairInv rng0 a b c h rng) :
    PairInv rng0 a b (c + 1) (pair_step (h, rng) c).1
      (pair_step (h, rng) c).2 := by
  obtain ⟨L, U, S, N, P2, P3⟩ := hinv
  have hr : getI rc0 rng (c : Int) = getI rc0 rng0 (c : Int) :=
    U c (le_refl c)
  rcases hfind : hashFind h ((getI rc0 rng0 (c : Int)).pair_rec)
      with _ | p
  · -- miss: store (rec, c)
    have hstep : pair_step (h, rng) c =
        (((getI rc0 rng0 (c : Int)).rec_, c) :: h, rng) := by
      simp only [pair_step, hr, hfind]
    rw [hstep]
    have hcb : c ≠ b := by
      intro hceq
      subst hceq
      have hmem : ((getI rc0 rng0 (a : Int)).rec_, a) ∈ h :=
        (P2 ha (le_refl _)).2
      have h2 := List.find?_eq_none.1 hfind _ hmem
      rw [Hb] at h2
      simp at h2
    refine ⟨L, ?_, ?_, ?_, ?_, ?_⟩
    · intro j hj
      exact U j (by omega)
    · intro q hq
      rcases List.mem_cons.1 hq with rfl | hq
      · exact ⟨by omega, rfl⟩
      · have hqs := S q hq
        exact ⟨by omega, hqs.2⟩
    · rw [List.map_cons]
      refine List.nodup_cons.2 ⟨?_, N⟩
      intro hmem
      obtain ⟨q, hq, hq2⟩ := List.mem_map.1 hmem
      exact absurd hq2 (by have := (S q hq).1; omega)
    · intro hac hcb2
      by_cases hca : c = a
      · subst hca
        exact ⟨hr, List.mem_cons_self _ _⟩
      · have hac2 : a < c := by omega
        obtain ⟨e1, e2⟩ := P2 hac2 (by omega)
        exact ⟨e1, List.mem_cons_of_mem _ e2⟩
    · intro hbc
      have hbc2 : b < c := by omega
      obtain ⟨e1, e2, e3⟩ := P3 hbc2
      refine ⟨e1, e2, ?_⟩
      intro q hq
      rcases List.mem_cons.1 hq with rfl | hq
      · exact ⟨by omega, by omega⟩
      · exact e3 q hq
  · -- hit: rewrite the stored index's pair_rec, drop the item
    have hstep : pair_step (h, rng) c =
        (hashDel h ((getI rc0 rng0 (c : Int)).pair_rec),
         setI rng (p.2 : Int)
           { getI rc0 rng (p.2 : Int) with
               pair_rec := -(c : Int) }) := by
      simp only [pair_step, hr, hfind]
    have hpmem : p ∈ h := List.mem_of_find?_eq_some hfind
    have hpk : p.1 = (getI rc0 rng0 (c : Int)).pair_rec := by
      have h2 := List.find?_some hfind
      simpa using h2
    obtain ⟨hp2, hp1⟩ := S p hpmem
    have hca : c ≠ a := by
      intro hceq
      subst hceq
      exact H1 p.2 hp2 (hp1 ▸ hpk)
    have hsub : (hashDel h ((getI rc0 rng0 (c : Int)).pair_rec)).Sublist
        h := List.eraseP_sublist h
    rw [hstep]
    refine ⟨by rw [setI_length]; exact L, ?_, ?_, ?_, ?_, ?_⟩
    · intro j hj
      have hne : (p.2 : Int) ≠ (j : Int) := by omega
      rw [getI_setI_ne rc0 rng hne]
      exact U j (by omega)
    · intro q hq
      have hq2 := S q (hsub.subset hq)
      exact ⟨by omega, hq2.2⟩
    · exact N.sublist (hsub.map Prod.snd)
    · intro hac hcb
      have hac2 : a < c := by omega
      have hcb2 : c < b := by omega
      have hpa : p.2 ≠ a := by
        intro hpa
        apply H2 c hcb2 hac2
        rw [← hpk, hp1, hpa]
      obtain ⟨e1, e2⟩ := P2 hac2 (by omega)
      refine ⟨?_, ?_⟩
      · have hne : (p.2 : Int) ≠ (a : Int) := by omega
        rw [getI_setI_ne rc0 rng hne]
        exact e1
      · apply mem_eraseP_of_not e2
        have hkne : (getI rc0 rng0 (a : Int)).rec_ ≠
            (getI rc0 rng0 (c : Int)).pair_rec :=
          fun hkeq => H2 c hcb2 hac2 hkeq.symm
        simpa using hkne
    · intro hbc
      by_cases hcb : c = b
      · subst hcb
        obtain ⟨e1, e2⟩ := P2 ha (le_refl _)
        have hkeya : p.1 = (getI rc0 rng0 (a : Int)).rec_ := by
          rw [hpk, Hb]
        have hpa : p.2 = a := by
          by_contra hne
          exact Hkey p.2 hp2 hne (by rw [← hp1, hkeya])
        refine ⟨?_, ?_, ?_⟩
        · have h0 : (0 : Int) ≤ ((a : Nat) : Int) := by omega
          have hl : ((a : Nat) : Int) < rng.length := by
            rw [L]; omega
          rw [hpa, getI_setI_eq rc0 h0 hl, e1]
        · have hne : (p.2 : Int) ≠ ((c : Nat) : Int) := by omega
          rw [getI_setI_ne rc0 rng hne]
          exact U c (le_refl _)
        · intro q hq
          have hqs := S q (hsub.subset hq)
          refine ⟨?_, by omega⟩
          intro hqa
          have hqkey :
              (q.1 == (getI rc0 rng0 (c : Int)).pair_rec) = true := by
            simp only [beq_iff_eq]
            rw [hqs.2, hqa, Hb]
          have hall : ∀ y ∈ h,
              (y.1 == (getI rc0 rng0 (c : Int)).pair_rec) = true →
              y = ((getI rc0 rng0 (a : Int)).rec_, a) := by
            intro y hy hpy
            have hys := S y hy
            have hy1 : y.1 = (getI rc0 rng0 (a : Int)).rec_ := by
              have h3 : y.1 = (getI rc0 rng0 (c : Int)).pair_rec := by
                simpa using hpy
              rw [h3, Hb]
            have hy2 : y.2 = a := by
              by_contra hne
              exact Hkey y.2 (by omega) hne (by rw [← hys.2, hy1])
            rcases y with ⟨y1, y2⟩
            simp only at hy1 hy2
            rw [hy1, hy2]
          exact pred_not_mem_eraseP Prod.snd hq N hall hqkey
      · have hbc2 : b < c := by omega
        obtain ⟨e1, e2, e3⟩ := P3 hbc2
        obtain ⟨hpna, hpnb⟩ := e3 p hpmem
        refine ⟨?_, ?_, ?_⟩
        · have hne : (p.2 : Int) ≠ ((a : Nat) : Int) := by omega
          rw [getI_setI_ne rc0 rng hne]
          exact e1
        · have hne : (p.2 : Int) ≠ ((b : Nat) : Int) := by omega
          rw [getI_setI_ne rc0 rng hne]
          exact e2
        · intro q hq
          exact e3 q (hsub.subset hq)

theorem pair_go_inv {rng0 : List rangec} {a b : Nat}
    (ha : a < b) (hb : b < rng0.length)
    (H1 : ∀ j : Nat, j < a →
      (getI rc0 rng0 (j : Int)).rec_ ≠ (getI rc0 rng0 (a : Int)).pair_rec)
    (Hb : (getI rc0 rng0 (b : Int)).pair_rec =
      (getI rc0 rng0 (a : Int)).rec_)
    (Hkey : ∀ j : Nat, j < b → j ≠ a →
      (getI rc0 rng0 (j : Int)).rec_ ≠ (getI rc0 rng0 (a : Int)).rec_)
    (H2 : ∀ k : Nat, k < b → a < k →
      (getI rc0 rng0 (k : Int)).pair_rec ≠
        (getI rc0 rng0 (a : Int)).rec_) :
    ∀ (n c : Nat) (h : List (Int × Nat)) (rng : List rangec),
      PairInv rng0 a b c h rng →
      PairInv rng0 a b (c + n)
        (pair_go h rng (List.range' c n)).1
        (pair_go h rng (List.range' c n)).2 := by
  intro n
  induction n with
  | zero => intro c h rng hinv; exact hinv
  | succ n ih =>
    intro c h rng hinv
    have hstep := pair_step_inv ha hb H1 Hb Hkey H2 hinv
    have hrange : List.range' c (n + 1) = c :: List.range' (c + 1) n :=
      List.range'_succ c n 1
    rw [hrange]
    show PairInv rng0 a b (c + (n + 1))
      (pair_go (pair_step (h, rng) c).1 (pair_step (h, rng) c).2
        (List.range' (c + 1) n)).1
      (pair_go (pair_step (h, rng) c).1 (pair_step (h, rng) c).2
        (List.range' (c + 1) n)).2
    have h2 := ih (c + 1) (pair_step (h, rng) c).1
      (pair_step (h, rng) c).2 hstep
    rw [show c + (n + 1) = (c + 1) + n by omega]
    exact h2

/-- The corrected pairing behaviour: the *first* mate's slot ends with
`pair_rec = -b` (minus the index of the *second* mate), the second
mate's slot is unchanged, and it is the first mate that the projection
dispatch treats as the pair sentinel. -/
def C9_spec (rng0 : List rangec) (a b : Nat) : Prop :=
  getI rc0 (pair_pass rng0) (a : Int) =
    { getI rc0 rng0 (a : Int) with pair_rec := -(b : Int) } ∧
  getI rc0 (pair_pass rng0) (b : Int) = getI rc0 rng0 (b : Int) ∧
  projectsAsPair true (getI rc0 (pair_pass rng0) (a : Int)) = true ∧
  (0 ≤ (getI rc0 rng0 (b : Int)).pair_rec →
    projectsAsPair true (getI rc0 (pair_pass rng0) (b : Int)) = false)

/-- C9 (corrected): for a mated pair at array indices `a < b` (mutual
`rec`/`pair_rec` references, no other read aliasing the keys involved),
the hash pass sets the **first** occurrence's `pair_rec` to the negative
of the **second** occurrence's array index, leaves the second occurrence
unchanged, and the projection of lines 774-779 treats the first
occurrence — the one with `pair_rec < 0` — as the paired sentinel when
pairing is enabled. -/
theorem C9_pair_sentinel (rng0 : List rangec) (a b : Nat)
    (ha : a < b) (hb : b < rng0.length)
    (H1 : ∀ j : Nat, j < a →
      (getI rc0 rng0 (j : Int)).rec_ ≠ (getI rc0 rng0 (a : Int)).pair_rec)
    (Hb : (getI rc0 rng0 (b : Int)).pair_rec =
      (getI rc0 rng0 (a : Int)).rec_)
    (Hkey : ∀ j : Nat, j < b → j ≠ a →
      (getI rc0 rng0 (j : Int)).rec_ ≠ (getI rc0 rng0 (a : Int)).rec_)
    (H2 : ∀ k : Nat, k < b → a < k →
      (getI rc0 rng0 (k : Int)).pair_rec ≠
        (getI rc0 rng0 (a : Int)).rec_) :
    C9_spec rng0 a b := by
  have h0 : PairInv rng0 a b 0 [] rng0 := by
    refine ⟨rfl, fun j _ => rfl, ?_, List.nodup_nil, ?_, ?_⟩
    · intro p hp
      exact absurd hp (List.not_mem_nil p)
    · intro hac _
      exact absurd hac (by omega)
    · intro hbc
      exact absurd hbc (by omega)
  have hfin := pair_go_inv ha hb H1 Hb Hkey H2 rng0.length 0 [] rng0 h0
  rw [show (0 : Nat) + rng0.length = rng0.length by omega] at hfin
  have hpass : pair_pass rng0 =
      (pair_go [] rng0 (List.range' 0 rng0.length)).2 := by
    unfold pair_pass
    rw [List.range_eq_range']
  obtain ⟨_, _, _, _, _, P3⟩ := hfin
  obtain ⟨e1, e2, _⟩ := P3 hb
  refine ⟨?_, ?_, ?_, ?_⟩
  · rw [hpass]; exact e1
  · rw [hpass]; exact e2
  · rw [hpass, e1]
    show (true && decide (-(b : Int) < 0)) = true
    simp only [Bool.true_and, decide_eq_true_eq]
    omega
  · intro hpos
    rw [hpass, e2]
    show (true && decide ((getI rc0 rng0 (b : Int)).pair_rec < 0)) = false
    simp only [Bool.true_and, decide_eq_false_iff_not, not_lt]
    exact hpos

theorem C9_pair_sentinel_witness :
    C9_spec [⟨5, 9⟩, ⟨1, 2⟩, ⟨2, 1⟩] 1 2 :=
  C9_pair_sentinel [⟨5, 9⟩, ⟨1, 2⟩, ⟨2, 1⟩] 1 2 (by decide) (by decide)
    (by decide) (by decide) (by decide) (by decide)

/-- The claim as stated is false: for the mated pair at indices 1 and 2
(reads `rec 1, pair_rec 2` and `rec 2, pair_rec 1`), the hash pass
leaves the second occurrence's `pair_rec` at `1`, not `-1`; it is the
first occurrence that receives the negated index `-2`. -/
theorem C9_counterexample :
    pair_pass [⟨5, 9⟩, ⟨1, 2⟩, ⟨2, 1⟩] = [⟨5, 9⟩, ⟨1, -2⟩, ⟨2, 1⟩] ∧
    (getI rc0 (pair_pass [⟨5, 9⟩, ⟨1, 2⟩, ⟨2, 1⟩]) 2).pair_rec ≠ -1 ∧
    projectsAsPair true
      (getI rc0 (pair_pass [⟨5, 9⟩, ⟨1, 2⟩, ⟨2, 1⟩]) 2) = false ∧
    projectsAsPair true
      (getI rc0 (pair_pass [⟨5, 9⟩, ⟨1, 2⟩, ⟨2, 1⟩]) 1) = true := by
  decide

end find_haplotypes

end Staden
